import Mathlib

/-!
# Verification of the `simplecoder` text-to-CBOR example encoder

Shallow embedding of `src/examples/simplecoder.c` (the only source file):
a line-oriented tokenizer and a recursive-descent encoder that emits a
compact binary encoding through an external codec library.

C strings are modelled as `List Char`; machine integers as `Nat`/`Int`
(no claim depends on overflow behaviour); fallible code returns `Except`.
The external codec (tinycbor, not under `src/`) and the host C library
(`isspace`, `strtol`, `strtod`, ...) are modelled from the specification;
those definitions carry a `Modelled from the spec:` doc comment.
-/

deriving instance DecidableEq for Except

namespace Simplecoder

/-! ## Host character classification -/

/-- Modelled from the spec: host C library `isspace` (default locale, ASCII). -/
def isspace (c : Char) : Bool :=
  c = ' ' || c = '\t' || c = '\n' || c = '\x0b' || c = '\x0c' || c = '\r'

/-- Modelled from the spec: host C library `isdigit`. -/
def isdigit (c : Char) : Bool := '0' ≤ c && c ≤ '9'

/-- Modelled from the spec: host C library `isalnum` (default locale, ASCII). -/
def isalnum (c : Char) : Bool :=
  ('0' ≤ c && c ≤ '9') || ('A' ≤ c && c ≤ 'Z') || ('a' ≤ c && c ≤ 'z')

/-- Octal digit, used by the base-0 `strtol` model. -/
def isoctdigit (c : Char) : Bool := '0' ≤ c && c ≤ '7'

/-- Hexadecimal digit, used by the `strtol`/`strtod` models. -/
def ishexdigit (c : Char) : Bool :=
  isdigit c || ('A' ≤ c && c ≤ 'F') || ('a' ≤ c && c ≤ 'f')

/-- Numeric value of a (hex) digit character. -/
def hexDigitVal (c : Char) : Nat :=
  if isdigit c then c.toNat - 48
  else if 'A' ≤ c && c ≤ 'F' then c.toNat - 65 + 10
  else c.toNat - 97 + 10

/-- Value of a digit string in the given base. -/
def digitsVal (base : Nat) (ds : List Char) : Nat :=
  ds.foldl (fun acc c => acc * base + hexDigitVal c) 0

/-- Decimal digit character for `n < 10`. -/
def digitChar (d : Nat) : Char := Char.ofNat (48 + d)

/-- Decimal rendering of a natural number (fuel-structural so it reduces in the
kernel; the fuel `n + 1` always suffices). -/
def natToCharsGo : Nat → Nat → List Char → List Char
  | 0, _, acc => acc
  | fuel + 1, n, acc =>
    if n < 10 then digitChar n :: acc
    else natToCharsGo fuel (n / 10) (digitChar (n % 10) :: acc)

/-- Decimal rendering of a natural number, as printed by `%lu`. -/
def natToChars (n : Nat) : List Char := natToCharsGo (n + 1) n []

/-! ## Host numeric parsing (`strtol`, `strtod`) -/

/-- Apply an optional leading minus sign to a parsed magnitude. -/
def applySign (neg : Bool) (n : Nat) : Int := if neg then -(n : Int) else (n : Int)

/-- Optional sign at the start of a numeric subject sequence: its consumed
length and whether it was a minus. -/
def signParse (s1 : List Char) : Nat × Bool :=
  match s1 with
  | c :: _ => if c = '-' then (1, true) else if c = '+' then (1, false) else (0, false)
  | [] => (0, false)

/-- Consumed length of an optional sign. -/
def signLen (s1 : List Char) : Nat := (signParse s1).1

/-- Consumed length of an optional decimal point at this position (0 or 1). -/
def dotLen (r : List Char) : Nat :=
  match r with
  | c :: _ => if c = '.' then 1 else 0
  | [] => 0

/-- Modelled from the spec: host `strtol(str, &end, 0)` — "standard numeric-parse
conventions (base-prefixed integers allowed, e.g. hex/octal prefixes)".
Returns `(end - str, value)`: leading whitespace, an optional sign, then a
`0x`/`0X` hexadecimal, `0`-prefixed octal, or decimal digit sequence; if no
digits are converted the consumed count is 0.  Overflow clamping at
`LONG_MAX`/`LONG_MIN` is not modelled (no claim depends on it). -/
def strtol0 (s : List Char) : Nat × Int :=
  let w := (s.takeWhile isspace).length
  let s1 := s.drop w
  let sg := signParse s1
  let s2 := s1.drop sg.1
  match s2 with
  | [] => (0, 0)
  | c :: cs =>
    if c = '0' then
      match cs with
      | [] => (w + sg.1 + 1, 0)
      | c2 :: rest =>
        if c2 = 'x' ∨ c2 = 'X' then
          let hs := rest.takeWhile ishexdigit
          if hs.isEmpty then (w + sg.1 + 1, 0)
          else (w + sg.1 + 2 + hs.length, applySign sg.2 (digitsVal 16 hs))
        else
          let os := s2.takeWhile isoctdigit
          (w + sg.1 + os.length, applySign sg.2 (digitsVal 8 os))
    else
      let ds := s2.takeWhile isdigit
      if ds.isEmpty then (0, 0)
      else (w + sg.1 + ds.length, applySign sg.2 (digitsVal 10 ds))

/-- Length of an exponent part (`e`/`E` or `p`/`P`, optional sign, digits);
0 when there is no well-formed exponent at this position. -/
def expPartLen (e1 e2 : Char) (r : List Char) : Nat :=
  match r with
  | [] => 0
  | c :: rest =>
    if c = e1 ∨ c = e2 then
      let sg := signLen rest
      let ds := (rest.drop sg).takeWhile isdigit
      if ds.isEmpty then 0 else 1 + sg + ds.length
    else 0

/-- Length of a decimal floating significand-plus-exponent at this position
(digits, optional point, digits, optional exponent); 0 when there is none. -/
def decimalFormLen (s2 : List Char) : Nat :=
  let d1 := s2.takeWhile isdigit
  let r1 := s2.drop d1.length
  let dl := dotLen r1
  let d2 := (r1.drop dl).takeWhile isdigit
  if d1.length + d2.length = 0 then 0
  else d1.length + dl + d2.length + expPartLen 'e' 'E' (r1.drop (dl + d2.length))

/-- Case-insensitive match of a lowercase pattern against a prefix of `s`. -/
def matchesCI : List Char → List Char → Bool
  | [], _ => true
  | _ :: _, [] => false
  | k :: ks, c :: cs => (c = k || c.toNat = k.toNat - 32) && matchesCI ks cs

/-- The non-hexadecimal tail of the `strtod` model: a decimal form, else an
`inf`/`infinity`/`nan` form, else no conversion. -/
def strtodDecTail (s2 : List Char) (w sg : Nat) : Nat :=
  let dl := decimalFormLen s2
  if dl ≠ 0 then w + sg + dl
  else if matchesCI ['i', 'n', 'f', 'i', 'n', 'i', 't', 'y'] s2 then w + sg + 8
  else if matchesCI ['i', 'n', 'f'] s2 then w + sg + 3
  else if matchesCI ['n', 'a', 'n'] s2 then w + sg + 3
  else 0

/-- Modelled from the spec: host `strtod(str, &end)` — "floating point allows the
standard decimal/exponent forms".  Only the number of consumed characters is
modelled (the floating-point value is irrelevant to every claim): leading
whitespace, optional sign, then a hexadecimal (`0x...`, optional binary
exponent), decimal (digits/point/digits, optional exponent), `inf`,
`infinity` or `nan` form; 0 when no conversion is performed. -/
def strtodLen (s : List Char) : Nat :=
  let w := (s.takeWhile isspace).length
  let s1 := s.drop w
  let sg := signLen s1
  let s2 := s1.drop sg
  match s2 with
  | c :: c2 :: rest =>
    if c = '0' ∧ (c2 = 'x' ∨ c2 = 'X') then
      let d1 := rest.takeWhile ishexdigit
      let r1 := rest.drop d1.length
      let dl := dotLen r1
      let d2 := (r1.drop dl).takeWhile ishexdigit
      if d1.length + d2.length = 0 then w + sg + 1
      else w + sg + 2 + d1.length + dl + d2.length +
        expPartLen 'p' 'P' (r1.drop (dl + d2.length))
    else strtodDecTail s2 w sg
  | _ => strtodDecTail s2 w sg

/-! ## Tokens -/

/-- Token kinds, from the anonymous `enum` in `struct Token`
(simplecoder.c lines 18-19). -/
inductive Tok
  | None | Array | Map | Int | Double | String | OpeningBracket | ClosingBracket
  | Null | Bool | Undefined
deriving DecidableEq

/-- One lexical token (simplecoder.c `struct Token`, lines 10-22).  The C union
is modelled as separate fields: `vali` holds the Int/Bool payload, `vals` the
String payload buffer *including* its NUL terminator (the C buffer is
captured-length + 1 bytes).  The numeric value of a Double payload comes from
the external `strtod` and is not modelled (floating point); `vald` records the
consumed literal text instead.  The `next` pointer is replaced by adjacency in
a `List Token`; the pointer-level chain itself is modelled separately below
(`readtokensHeap`) for the chain-structure claim. -/
structure Token where
  type : Tok
  vali : Int
  vald : List Char
  vals : List Char
  lineno : Nat
deriving DecidableEq

/-- simplecoder.c lines 66-110 `alloctoken` (allocation modelled as succeeding;
allocation failure is a resource error outside the token-level claims).  For
`String`, the C code allocates `size + 1` bytes, copies `size` bytes of data
and NUL-terminates. -/
def alloctoken (type : Tok) (dataInt : Int) (dataChars : List Char) (size : Nat) : Token :=
  match type with
  | Tok.Int => ⟨Tok.Int, dataInt, [], [], 0⟩
  | Tok.Double => ⟨Tok.Double, 0, dataChars, [], 0⟩
  | Tok.Bool => ⟨Tok.Bool, dataInt, [], [], 0⟩
  | Tok.String => ⟨Tok.String, 0, [], dataChars.take size ++ ['\x00'], 0⟩
  | t => ⟨t, 0, [], [], 0⟩

/-! ## The tokenizer -/

/-- simplecoder.c lines 133-139 `skipws`: length of the leading whitespace run. -/
def skipws (s : List Char) : Nat := (s.takeWhile isspace).length

/-- The `!(str[len] && isalnum(str[len]))` boundary test of `skipalnumtoken`:
the character after the keyword is absent or not alphanumeric. -/
def boundaryOk : List Char → Bool
  | [] => true
  | c :: _ => !isalnum c

/-- `!strncmp(str, tokenstr, len)`: `tokenstr` is a literal prefix of `s`. -/
def strncmpEq : List Char → List Char → Bool
  | [], _ => true
  | _ :: _, [] => false
  | t :: ts, c :: cs => c = t && strncmpEq ts cs

/-- `str` advanced past the first `tokenstr.length` characters (`str[len]`
viewpoint; empty when `s` is shorter). -/
def afterChars : List Char → List Char → List Char
  | [], s => s
  | _ :: _, [] => []
  | _ :: ts, _ :: cs => afterChars ts cs

/-- simplecoder.c lines 141-148 `skipalnumtoken`: keyword match requiring the
following character (if any) to not be alphanumeric. -/
def skipalnumtoken (s tokenstr : List Char) : Nat :=
  if (!tokenstr.isEmpty) && strncmpEq tokenstr s && boundaryOk (afterChars tokenstr s)
  then tokenstr.length else 0

/-- simplecoder.c lines 150-153 `skipchartoken`. -/
def skipchartoken (s : List Char) (tokenc : Char) : Nat :=
  match s with
  | c :: _ => if c = tokenc then 1 else 0
  | [] => 0

/-- simplecoder.c lines 155-160 `skipinttoken`: `strtol(str, &end, 0)`. -/
def skipinttoken (s : List Char) : Nat × Int := strtol0 s

/-- simplecoder.c lines 162-167 `skipdoubletoken`: `strtod(str, &end)`
(consumed length only). -/
def skipdoubletoken (s : List Char) : Nat := strtodLen s

/-- The branch of `strtol0` below its whitespace/sign handling, as a
standalone function (definitionally the same match; `w` and `sg` are the
whitespace and sign counts already consumed, `neg` the minus flag). -/
def strtol0Tail (s2 : List Char) (w sg : Nat) (neg : Bool) : Nat × Int :=
  match s2 with
  | [] => (0, 0)
  | c :: cs =>
    if c = '0' then
      match cs with
      | [] => (w + sg + 1, 0)
      | c2 :: rest =>
        if c2 = 'x' ∨ c2 = 'X' then
          let hs := rest.takeWhile ishexdigit
          if hs.isEmpty then (w + sg + 1, 0)
          else (w + sg + 2 + hs.length, applySign neg (digitsVal 16 hs))
        else
          let os := s2.takeWhile isoctdigit
          (w + sg + os.length, applySign neg (digitsVal 8 os))
    else
      let ds := s2.takeWhile isdigit
      if ds.isEmpty then (0, 0)
      else (w + sg + ds.length, applySign neg (digitsVal 10 ds))

/-- The branch of `strtodLen` below its whitespace/sign handling, as a
standalone function (definitionally the same match). -/
def strtodLenTail (s2 : List Char) (w sg : Nat) : Nat :=
  match s2 with
  | c :: c2 :: rest =>
    if c = '0' ∧ (c2 = 'x' ∨ c2 = 'X') then
      let d1 := rest.takeWhile ishexdigit
      let r1 := rest.drop d1.length
      let dl := dotLen r1
      let d2 := (r1.drop dl).takeWhile ishexdigit
      if d1.length + d2.length = 0 then w + sg + 1
      else w + sg + 2 + d1.length + dl + d2.length +
        expPartLen 'p' 'P' (r1.drop (dl + d2.length))
    else strtodDecTail s2 w sg
  | _ => strtodDecTail s2 w sg

/-- simplecoder.c lines 169-183 `skipstrtoken`: a double-quoted literal ending
at the next `"` on the line (no escapes).  Returns `(consumed, captured)`
where consumed counts both quotes; `none` when there is no opening quote or
no closing quote before end of line. -/
def skipstrtoken (s : List Char) : Option (Nat × List Char) :=
  match s with
  | '"' :: rest =>
    let mid := rest.takeWhile (fun c => c ≠ '"')
    match rest.drop mid.length with
    | '"' :: _ => some (mid.length + 2, mid)
    | _ => none
  | _ => none

def arrayChars : List Char := "Array".toList
def mapChars : List Char := "Map".toList
def nullChars : List Char := "null".toList
def undefinedChars : List Char := "undefined".toList
def trueChars : List Char := "true".toList
def falseChars : List Char := "false".toList

/-- simplecoder.c lines 185-210 `skipalnumtokens`: the keyword table
`Array`, `Map`, `null`, `undefined`, tried in order. -/
def skipalnumtokens (s : List Char) : Option (Nat × Tok) :=
  let a := skipalnumtoken s arrayChars
  if a ≠ 0 then some (a, Tok.Array)
  else
    let m := skipalnumtoken s mapChars
    if m ≠ 0 then some (m, Tok.Map)
    else
      let n := skipalnumtoken s nullChars
      if n ≠ 0 then some (n, Tok.Null)
      else
        let u := skipalnumtoken s undefinedChars
        if u ≠ 0 then some (u, Tok.Undefined)
        else none

/-- simplecoder.c lines 212-234 `skipchartokens`: `[` and `]`. -/
def skipchartokens (s : List Char) : Option (Nat × Tok) :=
  if skipchartoken s '[' ≠ 0 then some (1, Tok.OpeningBracket)
  else if skipchartoken s ']' ≠ 0 then some (1, Tok.ClosingBracket)
  else none

/-- simplecoder.c lines 248-285: the body of `firsttoken` after the
`str += skipws(str)` advance — the prioritized matcher chain.  On failure the
error value is the unrecognized fragment, exactly the argument of
`complainstr("token not recognized", str)`.  On success returns the new token
(line number still unset) and the characters consumed from the
post-whitespace position. -/
def firsttokenAt (str : List Char) : Except (List Char) (Token × Nat) :=
  match str with
  | [] => .ok (alloctoken Tok.None 0 [] 0, 0)
  | _ :: _ =>
    match skipalnumtokens str with
    | some (skip, ty) => .ok (alloctoken ty 0 [] 0, skip)
    | none =>
      match skipchartokens str with
      | some (skip, ty) => .ok (alloctoken ty 0 [] 0, skip)
      | none =>
        match skipstrtoken str with
        | some (skip, mid) => .ok (alloctoken Tok.String 0 mid mid.length, skip)
        | none =>
          let st := skipalnumtoken str trueChars
          if st ≠ 0 then .ok (alloctoken Tok.Bool 1 [] 0, st)
          else
            let sf := skipalnumtoken str falseChars
            if sf ≠ 0 then .ok (alloctoken Tok.Bool 0 [] 0, sf)
            else
              let skipd := skipdoubletoken str
              let si := skipinttoken str
              if si.1 < skipd then
                .ok (alloctoken Tok.Double 0 (str.take skipd) 0, skipd)
              else if si.1 ≠ 0 then .ok (alloctoken Tok.Int si.2 [] 0, si.1)
              else .error str

/-- simplecoder.c lines 236-286 `firsttoken`: skip leading whitespace, then run
the matcher chain; the consumed count (C's `*pend - str` from the original
position) includes the skipped whitespace, so the caller resumes at
`s.drop n`. -/
def firsttoken (s : List Char) : Except (List Char) (Token × Nat) :=
  let w := skipws s
  match firsttokenAt (s.drop w) with
  | .error e => .error e
  | .ok (t, n) => .ok (t, w + n)

/-! ## Diagnostics -/

abbrev Msg := List Char
abbrev Diag := List Msg

/-- simplecoder.c lines 39-42 `complain`. -/
def complain (msg : Msg) : Msg := msg

/-- simplecoder.c lines 44-47 `complainline`: `"%s at line: %lu"`. -/
def complainline (msg : Msg) (lineno : Nat) : Msg :=
  msg ++ " at line: ".toList ++ natToChars lineno

/-- simplecoder.c lines 49-52 `complainstr`: `"%s: %s"`. -/
def complainstr (msg s : Msg) : Msg := msg ++ ": ".toList ++ s

def tokenNotRecognizedMsg : Msg := "token not recognized".toList
def readTokensFailureMsg : Msg := "read tokens failure".toList

/-- Artifact of the fuel-structural embedding of C loops/recursion; with the
fuel supplied by the entry points (`remaining length + 1`) this message is
never produced, because every loop iteration consumes at least one character
or token. -/
def fuelMsg : Msg := "fuel exhausted".toList

/-- The per-line scan loop of `readtokens` (simplecoder.c lines 298-315):
repeatedly take the first token, drop `None` tokens (blank tail), stamp the
line number on every other token and append it, until the line is exhausted
or `firsttoken` fails. -/
def tokenizeLineF (lineno : Nat) : Nat → List Char → Except Diag (List Token)
  | _, [] => .ok []
  | 0, _ :: _ => .error [fuelMsg]
  | fuel + 1, c :: cs =>
    match firsttoken (c :: cs) with
    | .error frag => .error [complainstr tokenNotRecognizedMsg frag]
    | .ok (token, n) =>
      match tokenizeLineF lineno fuel ((c :: cs).drop n) with
      | .error e => .error e
      | .ok ts =>
        if token.type = Tok.None then .ok ts
        else .ok ({ token with lineno := lineno } :: ts)

/-- simplecoder.c lines 121-130 `trailingspace`: offset one past the last
non-space character (the reader writes a NUL there, truncating the line). -/
def trailingspaceGo : List Char → Nat → Nat → Nat
  | [], _, res => res
  | c :: rest, pos, res => trailingspaceGo rest (pos + 1) (if isspace c then res else pos + 1)

def trailingspace (l : List Char) : Nat := trailingspaceGo l 0 0

/-- The truncation `*(char*)trailingspace(linebuff) = '\0'` performed on each
line buffer (simplecoder.c line 294). -/
def trimline (l : List Char) : List Char := l.take (trailingspace l)

/-- simplecoder.c lines 288-318 `readtokens`: scan the input lines in order with
1-based line numbers; each line is first truncated at `trailingspace`.  The
input file is modelled as its list of lines (each below the 1023-character
`fgets` ceiling, a declared constraint of the spec).  On a lexical failure the
fragment diagnostic is followed by `"read tokens failure"` and the whole run
stops. -/
def readtokensGo : Nat → List (List Char) → Except Diag (List Token)
  | _, [] => .ok []
  | lineno, line :: rest =>
    let t := trimline line
    match tokenizeLineF (lineno + 1) (t.length + 1) t with
    | .error msgs => .error (msgs ++ [complain readTokensFailureMsg])
    | .ok ts =>
      match readtokensGo (lineno + 1) rest with
      | .error e => .error e
      | .ok ts2 => .ok (ts ++ ts2)

def readtokens (lines : List (List Char)) : Except Diag (List Token) :=
  readtokensGo 0 lines

/-! ## The external codec, modelled from the spec

The codec library (tinycbor) is an external collaborator: the spec treats it
as "a pre-existing codec library" and excludes its exact byte layout.  It is
modelled as a monotone write position over the fixed-capacity output buffer
plus a trace of the encoded items, with sizes following the spec's "standard
major-type/length/value binary serialization scheme". -/

/-- Modelled from the spec: the codec's success code (`CborNoError`, value 0). -/
def CborNoError : Nat := 0

/-- Modelled from the spec: the codec's error code for output-buffer exhaustion
("exceeding its capacity is a codec-level error") — a nonzero value distinct
from 1 (in the real library `CborErrorOutOfMemory` is `0x80000000`). -/
def CborErrorOutOfMemory : Nat := 2147483648

/-- Modelled from the spec: `cbor_error_string`, the codec's own description of
an error value; relevant distinct codes get distinct descriptions. -/
def cbor_error_string (err : Nat) : Msg :=
  if err = CborNoError then "no error".toList
  else if err = CborErrorOutOfMemory then "out of memory".toList
  else "unknown error".toList

/-- simplecoder.c lines 59-63 `complainencode`:
`"encoder error: %s at line %lu"`. -/
def complainencode (err : Nat) (lineno : Nat) : Msg :=
  "encoder error: ".toList ++ cbor_error_string err ++ " at line ".toList ++ natToChars lineno

/-- Abstract trace entry: one item handed to the codec. -/
inductive EncOp
  | int (v : Int)
  | double (text : List Char)
  | text (s : List Char)
  | nul
  | boolean (b : Bool)
  | undef
  | arrayOpen
  | mapOpen
  | closeC
deriving DecidableEq

/-- Modelled from the spec: the codec encoder state — a monotone write position
into the caller's fixed-capacity buffer, plus the trace of encoded items. -/
structure CborEnc where
  written : Nat
  trace : List EncOp
deriving DecidableEq

/-- Modelled from the spec: size of a CBOR item head for a magnitude argument
in the major-type/length/value scheme (small values inline in the head byte,
larger ones followed by 1, 2, 4 or 8 length/value bytes). -/
def headSize (n : Nat) : Nat :=
  if n < 24 then 1 else if n < 256 then 2 else if n < 65536 then 3
  else if n < 4294967296 then 5 else 9

/-- Encoded size of a signed integer (major type 0 or 1). -/
def intSize (v : Int) : Nat :=
  if 0 ≤ v then headSize v.toNat else headSize (-(v + 1)).toNat

/-- `strlen` of a NUL-terminated payload buffer. -/
def strlenZ (buf : List Char) : Nat := (buf.takeWhile (fun c => c ≠ '\x00')).length

/-- Modelled from the spec: one codec write of `size` bytes, failing with
`CborErrorOutOfMemory` exactly when it would exceed the buffer capacity
(the buffer is "written monotonically forward; exceeding its capacity is a
codec-level error").  Returns the `CborError` and the encoder (unchanged on
failure — the run aborts on the first error anyway). -/
def cborWrite (cap : Nat) (enc : CborEnc) (size : Nat) (op : EncOp) : Nat × CborEnc :=
  if enc.written + size ≤ cap then
    (CborNoError, ⟨enc.written + size, enc.trace ++ [op]⟩)
  else (CborErrorOutOfMemory, enc)

/-- Modelled from the spec: scalar encoder for signed integers. -/
def cbor_encode_int (cap : Nat) (enc : CborEnc) (v : Int) : Nat × CborEnc :=
  cborWrite cap enc (intSize v) (EncOp.int v)

/-- Modelled from the spec: scalar encoder for doubles (head byte + 8 bytes).
The argument is the literal text the tokenizer captured (the floating-point
value itself is not modelled; its encoded size does not depend on it). -/
def cbor_encode_double (cap : Nat) (enc : CborEnc) (text : List Char) : Nat × CborEnc :=
  cborWrite cap enc 9 (EncOp.double text)

/-- Modelled from the spec: scalar encoder for NUL-terminated text strings
(head for the length, then the bytes). -/
def cbor_encode_text_stringz (cap : Nat) (enc : CborEnc) (buf : List Char) : Nat × CborEnc :=
  cborWrite cap enc (headSize (strlenZ buf) + strlenZ buf) (EncOp.text buf)

/-- Modelled from the spec: scalar encoder for `null` (one simple-value byte). -/
def cbor_encode_null (cap : Nat) (enc : CborEnc) : Nat × CborEnc :=
  cborWrite cap enc 1 EncOp.nul

/-- Modelled from the spec: scalar encoder for booleans (one byte). -/
def cbor_encode_boolean (cap : Nat) (enc : CborEnc) (b : Bool) : Nat × CborEnc :=
  cborWrite cap enc 1 (EncOp.boolean b)

/-- Modelled from the spec: scalar encoder for `undefined` (one byte). -/
def cbor_encode_undefined (cap : Nat) (enc : CborEnc) : Nat × CborEnc :=
  cborWrite cap enc 1 EncOp.undef

/-- Modelled from the spec: open an indefinite-length array sub-scope (one head
byte; the sub-encoder continues at the parent's position in the same
buffer). -/
def cbor_encoder_create_array (cap : Nat) (enc : CborEnc) : Nat × CborEnc :=
  cborWrite cap enc 1 EncOp.arrayOpen

/-- Modelled from the spec: open an indefinite-length map sub-scope. -/
def cbor_encoder_create_map (cap : Nat) (enc : CborEnc) : Nat × CborEnc :=
  cborWrite cap enc 1 EncOp.mapOpen

/-- Modelled from the spec: close an indefinite-length container with the
codec's end-marker byte; the parent resumes at the sub-encoder's position. -/
def cbor_encoder_close_container (cap : Nat) (enc : CborEnc) : Nat × CborEnc :=
  cborWrite cap enc 1 EncOp.closeC

/-! ## The recursive encoder -/

def unexpectedEOFMsg : Msg := "unexpected EOF".toList
def missingOpeningBracketMsg : Msg := "missing opening bracket".toList
def encodeContainerFailureMsg : Msg := "encode container failure".toList
def unbalancedNestingMsg : Msg := "unbalanced nesting level".toList
def unexpectedBracketMsg : Msg := "unexpected bracket".toList
def unhandledTokenMsg : Msg := "unhandled token".toList

/-- The encoding-phase view of `struct EncoderContext` (simplecoder.c lines
27-34): the cursor into the token chain, the nesting-level counter and the
codec encoder state.  The chain head and the raw output buffer are not read
by the encoding logic; the buffer capacity `outbuffsz` is passed explicitly
as `cap`. -/
structure EncoderContext where
  curtoken : List Token
  nestinglvl : Nat
  encoder : CborEnc
deriving DecidableEq

abbrev CreateFn := CborEnc → Nat × CborEnc

/-- simplecoder.c lines 326-346, the part of `encodecontainerhelper` before the
recursive descent: the following token must exist and be an opening bracket,
the container sub-scope is opened, and the cursor must not run out right
after the bracket.  Note line 341: `err = create_container(...) !=
CborNoError` binds as `err = (create_container(...) != CborNoError)`, so
`err` receives the *comparison result* (0 or 1), and the `complainencode`
diagnostic is built from error value 1 rather than from the error the codec
call returned.  On success returns the container token, the tokens after the
opening bracket, and the sub-encoder. -/
def containerPre (create_container : CreateFn) (ctx : EncoderContext) :
    Except Diag (Token × List Token × CborEnc) :=
  match ctx.curtoken with
  | [] => .error []
  | token :: rest =>
    match rest with
    | [] => .error [complainline unexpectedEOFMsg token.lineno]
    | tok2 :: rest2 =>
      if tok2.type ≠ Tok.OpeningBracket then
        .error [complainline missingOpeningBracketMsg tok2.lineno]
      else
        let ce := create_container ctx.encoder
        let err : Nat := if ce.1 ≠ CborNoError then 1 else 0
        if err ≠ 0 then .error [complainencode err token.lineno]
        else
          match rest2 with
          | [] => .error [complainline encodeContainerFailureMsg token.lineno]
          | _ :: _ => .ok (token, rest2, ce.2)

/-- simplecoder.c lines 344-356, the part of `encodecontainerhelper` after the
recursive descent: a failed descent gets the "encode container failure"
diagnostic appended; then the nesting level must equal the level at entry,
and the container is closed (line 349 has the same `err = ... != CborNoError`
slip as line 341).  On success the enclosing context resumes at the cursor
position left by the descent (the closing bracket), at its own nesting
level, with the closed encoder. -/
def containerPost (cap : Nat) (ctx : EncoderContext) (token : Token)
    (inner : Except Diag EncoderContext) : Except Diag EncoderContext :=
  match inner with
  | .error msgs => .error (msgs ++ [complainline encodeContainerFailureMsg token.lineno])
  | .ok nctx =>
    if nctx.nestinglvl ≠ ctx.nestinglvl then
      .error [complainline unbalancedNestingMsg token.lineno]
    else
      let cc := cbor_encoder_close_container cap nctx.encoder
      let err : Nat := if cc.1 ≠ CborNoError then 1 else 0
      if err ≠ 0 then .error [complainencode err token.lineno]
      else .ok ⟨nctx.curtoken, ctx.nestinglvl, cc.2⟩

/-- The `err = cbor_encode_*(...); if (err != CborNoError) complainencode`
pattern shared by the scalar cases of `encoderecursive` (lines 396-427);
here `err` is the real error value returned by the codec call. -/
def scalarStep (res : Nat × CborEnc) (lineno : Nat) : Except Diag CborEnc :=
  if res.1 ≠ CborNoError then .error [complainencode res.1 lineno] else .ok res.2

/-- simplecoder.c lines 369-430 `encoderecursive`, with the recursive call of
`encodecontainerhelper` (lines 344-345) spliced between `containerPre` and
`containerPost`, and `encodearrayhelper`/`encodemaphelper` (lines 359-367)
selecting the container-open entry point.  The definition is fuel-structural
so that it computes; every recursive call first consumes at least one input
token, so the fuel supplied by `encode` (token count + 1) is never
exhausted.  A successful call returns either with the cursor on a closing
bracket (nesting level decremented — C returns without advancing past the
bracket; the enclosing loop's `ctx->curtoken = ctx->curtoken->next` does
that) or with the cursor exhausted. -/
def encoderecursiveF (cap : Nat) : Nat → EncoderContext → Except Diag EncoderContext
  | 0, _ => .error [fuelMsg]
  | fuel + 1, ctx =>
    match ctx.curtoken with
    | [] => .ok ctx
    | token :: rest =>
      match token.type with
      | Tok.Array =>
        match containerPre (cbor_encoder_create_array cap) ctx with
        | .error e => .error e
        | .ok pre =>
          match containerPost cap ctx pre.1
              (encoderecursiveF cap fuel ⟨pre.2.1, ctx.nestinglvl + 1, pre.2.2⟩) with
          | .error e => .error e
          | .ok ctx2 => encoderecursiveF cap fuel ⟨ctx2.curtoken.drop 1, ctx2.nestinglvl, ctx2.encoder⟩
      | Tok.Map =>
        match containerPre (cbor_encoder_create_map cap) ctx with
        | .error e => .error e
        | .ok pre =>
          match containerPost cap ctx pre.1
              (encoderecursiveF cap fuel ⟨pre.2.1, ctx.nestinglvl + 1, pre.2.2⟩) with
          | .error e => .error e
          | .ok ctx2 => encoderecursiveF cap fuel ⟨ctx2.curtoken.drop 1, ctx2.nestinglvl, ctx2.encoder⟩
      | Tok.ClosingBracket =>
        if 0 < ctx.nestinglvl then .ok ⟨ctx.curtoken, ctx.nestinglvl - 1, ctx.encoder⟩
        else .error [complainline unexpectedBracketMsg token.lineno]
      | Tok.Int =>
        match scalarStep (cbor_encode_int cap ctx.encoder token.vali) token.lineno with
        | .error e => .error e
        | .ok enc2 => encoderecursiveF cap fuel ⟨rest, ctx.nestinglvl, enc2⟩
      | Tok.Double =>
        match scalarStep (cbor_encode_double cap ctx.encoder token.vald) token.lineno with
        | .error e => .error e
        | .ok enc2 => encoderecursiveF cap fuel ⟨rest, ctx.nestinglvl, enc2⟩
      | Tok.String =>
        match scalarStep (cbor_encode_text_stringz cap ctx.encoder token.vals) token.lineno with
        | .error e => .error e
        | .ok enc2 => encoderecursiveF cap fuel ⟨rest, ctx.nestinglvl, enc2⟩
      | Tok.Null =>
        match scalarStep (cbor_encode_null cap ctx.encoder) token.lineno with
        | .error e => .error e
        | .ok enc2 => encoderecursiveF cap fuel ⟨rest, ctx.nestinglvl, enc2⟩
      | Tok.Bool =>
        match scalarStep (cbor_encode_boolean cap ctx.encoder (token.vali ≠ 0)) token.lineno with
        | .error e => .error e
        | .ok enc2 => encoderecursiveF cap fuel ⟨rest, ctx.nestinglvl, enc2⟩
      | Tok.Undefined =>
        match scalarStep (cbor_encode_undefined cap ctx.encoder) token.lineno with
        | .error e => .error e
        | .ok enc2 => encoderecursiveF cap fuel ⟨rest, ctx.nestinglvl, enc2⟩
      | Tok.None => .error [complainline unhandledTokenMsg token.lineno]
      | Tok.OpeningBracket => .error [complainline unhandledTokenMsg token.lineno]

/-- simplecoder.c lines 432-443 `initcontext` and 461-465 `encode`: the encoder
starts at write position 0 over a buffer of capacity `cap`
(`cbor_encoder_init`), nesting level 0 (`memset`), cursor at the chain
head. -/
def encode (cap : Nat) (tokens : List Token) : Except Diag EncoderContext :=
  encoderecursiveF cap (tokens.length + 1) ⟨tokens, 0, ⟨0, []⟩⟩

/-! ## The orchestration shell (`main`) -/

def usageMsg : Msg := "simplecoder <filename> <bufsize>".toList
def mallocFailureMsg : Msg := "coder ctx out buffer allocation failure".toList
def ctxInitFailureMsg : Msg := "context initialization failure".toList
def fileOpenFailureMsg : Msg := "file open failure".toList
def fileCloseFailureMsg : Msg := "file close failure".toList
def readFileFailureMsg : Msg := "read file failure".toList
def encodeFailureMsg : Msg := "encode failure".toList

/-- Modelled from the spec: host `atol` — `strtol(nptr, NULL, 10)`. -/
def atol (s : List Char) : Int :=
  let w := (s.takeWhile isspace).length
  let s1 := s.drop w
  let sg : Nat × Bool :=
    match s1 with
    | '-' :: _ => (1, true)
    | '+' :: _ => (1, false)
    | _ => (0, false)
  let ds := (s1.drop sg.1).takeWhile isdigit
  applySign sg.2 (digitsVal 10 ds)

/-- Modelled from the spec: the hex-dump line `dump` writes to stdout (the
formatter itself is excluded from the core spec; only the fact that a dump
line is produced matters to the claims). -/
def dumpLine (enc : CborEnc) : Msg := "<hexdump ".toList ++ natToChars enc.written ++ " bytes>".toList

/-- The environment `main` runs in: the argument vector (element 0 is the
program name), the opened file's lines (`none` models `fopen` failure), the
`strerror` text for the prevailing `errno`, and oracles for the two
externally-decided outcomes — the output-buffer `malloc` and `fclose`. -/
structure World where
  args : List (List Char)
  file : Option (List (List Char))
  errnoStr : Msg
  mallocOk : Bool
  fcloseOk : Bool

/-- `buff_size = atol(argv[BuffSize])`, converted to a `size_t` capacity (a
negative value's `size_t` wrap is not modelled; no claim depends on it). -/
def mainCap (w : World) : Nat := (atol (w.args.getD 2 [])).toNat

/-- simplecoder.c lines 490-516 `main`, with lines 445-459 `readfile`, 432-443
`initcontext` and 467-477 `dump` inlined: returns the process exit status,
the stdout lines and the stderr lines, in emission order.  `argc != 3`
prints the usage line on stdout and exits 0 before any processing.
`dump` always returns 0, so its failure arm (line 509) is dead code. -/
def mainRun (w : World) : Nat × List Msg × List Msg :=
  if w.args.length ≠ 3 then (0, [usageMsg], [])
  else
    let cap := mainCap w
    if ¬ w.mallocOk then (1, [], [complain mallocFailureMsg, complain ctxInitFailureMsg])
    else
      match w.file with
      | none => (1, [], [complainstr fileOpenFailureMsg w.errnoStr, complain readFileFailureMsg])
      | some lines =>
        match readtokens lines with
        | .error msgs =>
          let msgs2 := if w.fcloseOk then msgs
            else msgs ++ [complainstr fileCloseFailureMsg w.errnoStr]
          (1, [], msgs2 ++ [complain readFileFailureMsg])
        | .ok toks =>
          if ¬ w.fcloseOk then
            (1, [], [complainstr fileCloseFailureMsg w.errnoStr, complain readFileFailureMsg])
          else
            match encode cap toks with
            | .error msgs => (1, [], msgs ++ [complain encodeFailureMsg])
            | .ok ctx => (0, [dumpLine ctx.encoder], [])

/-! ## The pointer-level token chain

`alloctoken` (lines 66-110) sets the payload and `type` of the malloc'd
token but never assigns `next`; `readtokens` (lines 306-313) links each new
token by writing the *predecessor's* `next`.  The chain claim is about that
pointer structure, so it is modelled explicitly here: `next = none` stands
for uninitialized malloc'd memory, `some none` for an explicit NULL pointer,
`some (some i)` for a pointer to heap slot `i`. -/

/-- A heap-allocated token together with its `next` field. -/
structure CToken where
  token : Token
  next : Option (Option Nat)
deriving DecidableEq

/-- The allocation arena plus the `tokens`/`curtoken` pointers of
`EncoderContext`; `initcontext`'s `memset` makes both NULL (`some none`
would be wrong here: the two pointer fields are genuinely zeroed, the model
uses plain `Option Nat`). -/
structure ChainCtx where
  heap : List CToken
  tokens : Option Nat
  curtoken : Option Nat
deriving DecidableEq

/-- One append step of `readtokens` (lines 306-313): allocate the token (its
`next` left uninitialized by `alloctoken`), then either make it the head or
write the previous tail's `next`. -/
def chainAppend (ctx : ChainCtx) (t : Token) : ChainCtx :=
  let idx := ctx.heap.length
  let ct : CToken := ⟨t, none⟩
  match ctx.curtoken with
  | none => ⟨ctx.heap ++ [ct], some idx, some idx⟩
  | some cur =>
    ⟨ctx.heap.set cur ⟨(ctx.heap.getD cur ct).token, some (some idx)⟩ ++ [ct],
      ctx.tokens, some idx⟩

/-- The per-line scan loop of `readtokens`, pointer-level version (same control
flow as `tokenizeLineF`, but appending through `chainAppend`). -/
def tokenizeLineChainF (lineno : Nat) : Nat → List Char → ChainCtx → Except Diag ChainCtx
  | _, [], ctx => .ok ctx
  | 0, _ :: _, _ => .error [fuelMsg]
  | fuel + 1, c :: cs, ctx =>
    match firsttoken (c :: cs) with
    | .error frag => .error [complainstr tokenNotRecognizedMsg frag]
    | .ok (token, n) =>
      if token.type = Tok.None then tokenizeLineChainF lineno fuel ((c :: cs).drop n) ctx
      else tokenizeLineChainF lineno fuel ((c :: cs).drop n)
        (chainAppend ctx { token with lineno := lineno })

/-- `readtokens`, pointer-level version. -/
def readtokensHeapGo : Nat → List (List Char) → ChainCtx → Except Diag ChainCtx
  | _, [], ctx => .ok ctx
  | lineno, line :: rest, ctx =>
    let t := trimline line
    match tokenizeLineChainF (lineno + 1) (t.length + 1) t ctx with
    | .error msgs => .error (msgs ++ [complain readTokensFailureMsg])
    | .ok ctx2 => readtokensHeapGo (lineno + 1) rest ctx2

def readtokensHeap (lines : List (List Char)) : Except Diag ChainCtx :=
  readtokensHeapGo 0 lines ⟨[], none, none⟩

/-! ## Spec-side definitions

These follow the specification's words (not the source) and exist to be
compared with the embedded code: the §8 bracket-balance condition, the §7
error taxonomy's structural class, and the §8 notion of a line of
whitespace-separated scalar lexical units. -/

/-- The six scalar token kinds of §4.2. -/
def isScalarTok (t : Tok) : Bool :=
  match t with
  | Tok.Int | Tok.Double | Tok.String | Tok.Null | Tok.Bool | Tok.Undefined => true
  | _ => false

/-- Spec-side definition (§8): the depth automaton for "every `Array [`/`Map [`
paired with exactly one `]` at the same logical depth".  An `Array`/`Map`
must be immediately followed by `[`, raising the depth; `]` lowers a
positive depth; scalars keep it; anything else (stray bracket, `None`) is
ill-formed; a sequence is well-bracketed when it ends back at depth 0. -/
def wellBracketedAux : List Tok → Nat → Bool
  | [], d => d == 0
  | Tok.Array :: Tok.OpeningBracket :: rest, d => wellBracketedAux rest (d + 1)
  | Tok.Map :: Tok.OpeningBracket :: rest, d => wellBracketedAux rest (d + 1)
  | Tok.ClosingBracket :: rest, d => decide (0 < d) && wellBracketedAux rest (d - 1)
  | t :: rest, d => isScalarTok t && wellBracketedAux rest d

/-- Spec-side definition (§8): bracket balance of a whole token sequence. -/
def wellBracketedSpec (ts : List Token) : Bool :=
  wellBracketedAux (ts.map Token.type) 0

/-- `p` is a literal prefix of `m`. -/
def msgHasPrefix (p m : Msg) : Bool := m.take p.length == p

/-- Spec-side definition (§7): the *StructuralError* class of diagnostics —
missing/extra bracket, EOF where a token was expected, nesting-level
mismatch on container close, unhandled token kind. -/
def isStructuralDiag (m : Msg) : Bool :=
  msgHasPrefix unexpectedEOFMsg m || msgHasPrefix missingOpeningBracketMsg m ||
  msgHasPrefix encodeContainerFailureMsg m || msgHasPrefix unbalancedNestingMsg m ||
  msgHasPrefix unexpectedBracketMsg m || msgHasPrefix unhandledTokenMsg m

/-- Spec-side definition (§7): the *CodecError* class of diagnostics — the
`complainencode` lines carrying the codec's own error description
(`"encoder error: ..."`). -/
def isCodecDiag (m : Msg) : Bool := msgHasPrefix "encoder error: ".toList m

/-- Encoded size of the codec call a scalar token triggers (0 for
non-scalars). -/
def scalarSize (t : Token) : Nat :=
  match t.type with
  | Tok.Int => intSize t.vali
  | Tok.Double => 9
  | Tok.String => headSize (strlenZ t.vals) + strlenZ t.vals
  | Tok.Null => 1
  | Tok.Bool => 1
  | Tok.Undefined => 1
  | _ => 0

/-- Total encoded size of a scalar token sequence. -/
def sumSizes (ts : List Token) : Nat := (ts.map scalarSize).sum

/-- A sign character accepted by the numeric parses. -/
def isSign (c : Char) : Bool := c = '-' || c = '+'

/-- A nonempty all-digit run. -/
def isDigitRun (s : List Char) : Bool := !s.isEmpty && s.all isdigit

/-- The tail of an exponent: an optional sign, then a nonempty digit run
covering the rest. -/
def isExpTail (s : List Char) : Bool :=
  match s with
  | c :: rest => if isSign c then isDigitRun rest else isDigitRun s
  | [] => false

/-- A complete decimal exponent part: `e`/`E`, optional sign, digits. -/
def isExpPart (s : List Char) : Bool :=
  match s with
  | c :: rest => (c = 'e' || c = 'E') && isExpTail rest
  | [] => false

/-- The unsigned core of an integer literal: `0` itself, a decimal run
without a leading zero, an all-octal run with a leading zero, or a
`0x`/`0X` hexadecimal run — exactly the base-prefixed forms that both
numeric parses consume whole (and to the same length, so the tokenizer
classifies them `Int`). -/
def isIntCore (s : List Char) : Bool :=
  match s with
  | [] => false
  | c :: rest =>
    if c = '0' then
      match rest with
      | c2 :: hs =>
        if c2 = 'x' ∨ c2 = 'X' then !hs.isEmpty && hs.all ishexdigit
        else rest.all isoctdigit
      | [] => true
    else isdigit c && rest.all isdigit

/-- An integer literal unit: an optional sign, then an integer core. -/
def isIntLit (u : List Char) : Bool :=
  match u with
  | c :: rest => if isSign c then isIntCore rest else isIntCore u
  | [] => false

/-- The magnitude `strtol` (base 0) converts from an integer core. -/
def intCoreMag (s : List Char) : Nat :=
  match s with
  | c :: rest =>
    if c = '0' then
      match rest with
      | c2 :: hs => if c2 = 'x' ∨ c2 = 'X' then digitsVal 16 hs else digitsVal 8 s
      | [] => 0
    else digitsVal 10 s
  | [] => 0

/-- The signed value `strtol` (base 0) converts from an integer literal. -/
def intLitVal (u : List Char) : Int :=
  match u with
  | c :: rest =>
    if c = '-' then -(intCoreMag rest : Int)
    else if c = '+' then (intCoreMag rest : Int)
    else (intCoreMag u : Int)
  | [] => 0

/-- The unsigned core of a floating literal: a digit run, then a decimal
point with a digit run and/or a trailing exponent part (at least one digit
around the point) — the decimal forms the floating parse consumes whole
and strictly beyond the integer parse. -/
def isDoubleCore (s : List Char) : Bool :=
  let d1 := s.takeWhile isdigit
  match s.drop d1.length with
  | '.' :: t =>
    let d2 := t.takeWhile isdigit
    decide (d1.length + d2.length ≠ 0) &&
      ((t.drop d2.length).isEmpty || isExpPart (t.drop d2.length))
  | r1 => !d1.isEmpty && isExpPart r1

/-- A floating literal unit: an optional sign, then a floating core. -/
def isDoubleLit (u : List Char) : Bool :=
  match u with
  | c :: rest => if isSign c then isDoubleCore rest else isDoubleCore u
  | [] => false

/-- A string literal unit: quote, no interior quote, quote. -/
def isStrLit (u : List Char) : Bool :=
  match u with
  | c :: rest =>
    c = '"' && !rest.isEmpty && rest.getLast? == some '"' &&
      rest.dropLast.all (fun x => x ≠ '"')
  | [] => false

/-- The captured text of a string literal unit (between the quotes). -/
def strLitMid (u : List Char) : List Char := (u.drop 1).dropLast

/-- One self-delimiting scalar lexical unit. -/
def isScalarLiteral (u : List Char) : Bool :=
  isIntLit u || isDoubleLit u || isStrLit u ||
  u == nullChars || u == undefinedChars || u == trueChars || u == falseChars

/-- The token the scanner produces for one scalar literal unit (line number
not yet stamped). -/
def tokenOfUnit (u : List Char) : Token :=
  if u == nullChars then alloctoken Tok.Null 0 [] 0
  else if u == undefinedChars then alloctoken Tok.Undefined 0 [] 0
  else if u == trueChars then alloctoken Tok.Bool 1 [] 0
  else if u == falseChars then alloctoken Tok.Bool 0 [] 0
  else if isStrLit u then alloctoken Tok.String 0 (strLitMid u) (strLitMid u).length
  else if isDoubleLit u then alloctoken Tok.Double 0 u 0
  else alloctoken Tok.Int (strtol0 u).2 [] 0

/-- What may follow a self-delimiting unit: end of line or whitespace. -/
def WsBound (r : List Char) : Prop :=
  r = [] ∨ ∃ c r2, r = c :: r2 ∧ isspace c = true

/-- A character that ends any numeric or keyword unit: whitespace, or the
opening quote of a directly adjoining string literal. -/
def isUnitBreak (c : Char) : Bool := isspace c || c = '"'

/-- What may follow a numeric or keyword unit: end of line or a break
character. -/
def UnitBound (r : List Char) : Prop :=
  r = [] ∨ ∃ c r2, r = c :: r2 ∧ isUnitBreak c = true

/-- Spec-side definition (§8): `ScalarLine l us` says the line `l` is a
sequence of self-delimiting scalar literals — integer literals (optional
sign; decimal, octal or hexadecimal), floating literals (optional sign,
decimal point and/or exponent), string literals and keywords — each ended
by whitespace, end of line, or a directly adjoining string literal, with
`us` the list of its non-whitespace lexical units in order. -/
inductive ScalarLine : List Char → List (List Char) → Prop
  | nil : ScalarLine [] []
  | ws {c : Char} {l : List Char} {us : List (List Char)} :
      isspace c = true → ScalarLine l us → ScalarLine (c :: l) us
  | unit {u l : List Char} {us : List (List Char)} :
      isScalarLiteral u = true → (isStrLit u = true ∨ UnitBound l) →
      ScalarLine l us → ScalarLine (u ++ l) (u :: us)

/-- The stamped tokens of the units of one line. -/
def tokensOfUnits (lineno : Nat) (us : List (List Char)) : List Token :=
  us.map (fun u => { tokenOfUnit u with lineno := lineno })

/-- The stamped tokens of a per-line unit decomposition, with 1-based line
numbers continuing from `n`. -/
def tokensOfLines : Nat → List (List (List Char)) → List Token
  | _, [] => []
  | n, us :: rest => tokensOfUnits (n + 1) us ++ tokensOfLines (n + 1) rest

/-- The codec trace entry a scalar token produces. -/
def opOf (t : Token) : EncOp :=
  match t.type with
  | Tok.Int => EncOp.int t.vali
  | Tok.Double => EncOp.double t.vald
  | Tok.String => EncOp.text t.vals
  | Tok.Null => EncOp.nul
  | Tok.Bool => EncOp.boolean (t.vali ≠ 0)
  | Tok.Undefined => EncOp.undef
  | _ => EncOp.nul

/-- A token segment is *depth-neutral* when consuming it leaves the spec's
bracket automaton exactly where it started, whatever follows and at every
depth. -/
def NeutralSeg (pre : List Token) : Prop :=
  ∀ (q : List Tok) (d : Nat), wellBracketedAux (pre.map Token.type ++ q) d = wellBracketedAux q d

/-! ## Concrete fixtures used by individual claim theorems -/

/-- The characters of the boundary-check probe `Arrayx`. -/
def arrayxChars : List Char := ['A', 'r', 'r', 'a', 'y', 'x']

/-- The tokens of the line `Array [` (an unclosed container). -/
def c1toks : List Token :=
  [⟨Tok.Array, 0, [], [], 1⟩, ⟨Tok.OpeningBracket, 0, [], [], 1⟩]

/-- The tokens of the line `null null` (two one-byte scalars). -/
def c2toks : List Token := [⟨Tok.Null, 0, [], [], 1⟩, ⟨Tok.Null, 0, [], [], 1⟩]

/-- The tokens of the line `Array [ ]` (an empty container). -/
def c3toks : List Token :=
  [⟨Tok.Array, 0, [], [], 1⟩, ⟨Tok.OpeningBracket, 0, [], [], 1⟩,
    ⟨Tok.ClosingBracket, 0, [], [], 1⟩]

/-- A run environment with a valid argument count, input file lines `1` and
`@`, and capacity 9. -/
def c4world : World :=
  ⟨["simplecoder".toList, "f".toList, "9".toList], some [['1'], ['@']], [], true, true⟩

/-! ## Bridging lemmas -/

theorem afterChars_eq_drop (t s : List Char) : afterChars t s = s.drop t.length := by
  induction t generalizing s with
  | nil => simp [afterChars]
  | cons x ts ih =>
    cases s with
    | nil => simp [afterChars]
    | cons c cs => simpa [afterChars] using ih cs

theorem strncmpEq_iff (t s : List Char) : strncmpEq t s = true ↔ s.take t.length = t := by
  induction t generalizing s with
  | nil => simp [strncmpEq]
  | cons x ts ih =>
    cases s with
    | nil => simp [strncmpEq]
    | cons c cs =>
      simp only [strncmpEq, List.length_cons, List.take_succ_cons, List.cons.injEq,
        Bool.and_eq_true, decide_eq_true_eq, ih cs]

theorem takeWhile_append_all {p : Char → Bool} (sp s : List Char) (h : sp.all p = true) :
    (sp ++ s).takeWhile p = sp ++ s.takeWhile p := by
  induction sp with
  | nil => simp
  | cons c cs ih =>
    simp only [List.all_cons, Bool.and_eq_true] at h
    simp [List.takeWhile_cons, h.1, ih h.2]

theorem drop_append_len (a b : List Char) (k : Nat) :
    (a ++ b).drop (a.length + k) = b.drop k := by
  induction a with
  | nil => simp
  | cons c a ih => simp [Nat.succ_add, ih]

theorem skipws_ws_lead (sp s : List Char) (hsp : sp.all isspace = true) :
    skipws (sp ++ s) = sp.length + skipws s := by
  simp [skipws, takeWhile_append_all sp s hsp]

/-- Prepending whitespace does not change the token `firsttoken` finds, only
the consumed count. -/
theorem firsttoken_ws_lead (sp s : List Char) (hsp : sp.all isspace = true) :
    firsttoken (sp ++ s) =
      match firsttoken s with
      | .error e => .error e
      | .ok (t, n) => .ok (t, sp.length + n) := by
  simp only [firsttoken, skipws_ws_lead sp s hsp, drop_append_len]
  cases firsttokenAt (s.drop (skipws s)) with
  | error e => rfl
  | ok p => cases p with
    | mk t n => simp [Nat.add_assoc]

/-- Any prefix computed by `takeWhile` is recovered by `take` of its length. -/
theorem take_takeWhile_len {p : Char → Bool} (l : List Char) :
    l.take (l.takeWhile p).length = l.takeWhile p := by
  induction l with
  | nil => simp
  | cons c cs ih =>
    by_cases h : p c
    · simp [List.takeWhile_cons, h, ih]
    · simp [List.takeWhile_cons, h]

/-- If what remains after a `takeWhile` block starts with `d`, taking one more
character than the block appends exactly `d`. -/
theorem take_after_takeWhile {p : Char → Bool} (l : List Char) {d : Char} {ds : List Char}
    (h : l.drop (l.takeWhile p).length = d :: ds) :
    l.take ((l.takeWhile p).length + 1) = l.takeWhile p ++ [d] := by
  induction l with
  | nil => simp at h
  | cons c cs ih =>
    by_cases hc : p c
    · rw [List.takeWhile_cons, if_pos hc] at h ⊢
      rw [List.length_cons, List.drop_succ_cons] at h
      rw [List.length_cons, List.take_succ_cons, ih h]
      rfl
    · rw [List.takeWhile_cons, if_neg hc] at h ⊢
      simp only [List.length_nil, List.drop_zero] at h
      cases h
      simp

/-- Every character kept by `takeWhile` satisfies the predicate. -/
theorem takeWhile_all {p : Char → Bool} (l : List Char) :
    (l.takeWhile p).all p = true := by
  induction l with
  | nil => simp
  | cons c cs ih =>
    by_cases h : p c
    · simp [List.takeWhile_cons, h, ih]
    · simp [List.takeWhile_cons, h]

/-- Evaluation of the matcher chain at the first stage: a table keyword. -/
theorem firsttokenAt_alnum (c : Char) (cs : List Char) (skip : Nat) (ty : Tok)
    (h : skipalnumtokens (c :: cs) = some (skip, ty)) :
    firsttokenAt (c :: cs) = .ok (alloctoken ty 0 [] 0, skip) := by
  simp [firsttokenAt, h]

/-- Evaluation of the matcher chain at the bracket stage. -/
theorem firsttokenAt_char (c : Char) (cs : List Char) (skip : Nat) (ty : Tok)
    (h1 : skipalnumtokens (c :: cs) = none) (h : skipchartokens (c :: cs) = some (skip, ty)) :
    firsttokenAt (c :: cs) = .ok (alloctoken ty 0 [] 0, skip) := by
  simp [firsttokenAt, h1, h]

/-- Evaluation of the matcher chain at the string-literal stage. -/
theorem firsttokenAt_strlit (c : Char) (cs : List Char) (skip : Nat) (mid : List Char)
    (h1 : skipalnumtokens (c :: cs) = none) (h2 : skipchartokens (c :: cs) = none)
    (h : skipstrtoken (c :: cs) = some (skip, mid)) :
    firsttokenAt (c :: cs) = .ok (alloctoken Tok.String 0 mid mid.length, skip) := by
  simp [firsttokenAt, h1, h2, h]

/-- Evaluation of the matcher chain at the `true` stage. -/
theorem firsttokenAt_true (c : Char) (cs : List Char)
    (h1 : skipalnumtokens (c :: cs) = none) (h2 : skipchartokens (c :: cs) = none)
    (h3 : skipstrtoken (c :: cs) = none) (h : skipalnumtoken (c :: cs) trueChars ≠ 0) :
    firsttokenAt (c :: cs) = .ok (alloctoken Tok.Bool 1 [] 0, skipalnumtoken (c :: cs) trueChars) := by
  simp [firsttokenAt, h1, h2, h3, h]

/-- Evaluation of the matcher chain at the `false` stage. -/
theorem firsttokenAt_false (c : Char) (cs : List Char)
    (h1 : skipalnumtokens (c :: cs) = none) (h2 : skipchartokens (c :: cs) = none)
    (h3 : skipstrtoken (c :: cs) = none) (h4 : skipalnumtoken (c :: cs) trueChars = 0)
    (h : skipalnumtoken (c :: cs) falseChars ≠ 0) :
    firsttokenAt (c :: cs) = .ok (alloctoken Tok.Bool 0 [] 0, skipalnumtoken (c :: cs) falseChars) := by
  simp [firsttokenAt, h1, h2, h3, h4, h]

/-- Evaluation of the matcher chain at the final, numeric stage: the
`skipd > skipi` disambiguation between `Double` and `Int`, with lexical
failure when neither parse consumed anything. -/
theorem firsttokenAt_numeric (c : Char) (cs : List Char)
    (h1 : skipalnumtokens (c :: cs) = none) (h2 : skipchartokens (c :: cs) = none)
    (h3 : skipstrtoken (c :: cs) = none) (h4 : skipalnumtoken (c :: cs) trueChars = 0)
    (h5 : skipalnumtoken (c :: cs) falseChars = 0) :
    firsttokenAt (c :: cs) =
      (if (skipinttoken (c :: cs)).1 < skipdoubletoken (c :: cs) then
        .ok (alloctoken Tok.Double 0 ((c :: cs).take (skipdoubletoken (c :: cs))) 0,
          skipdoubletoken (c :: cs))
      else if (skipinttoken (c :: cs)).1 ≠ 0 then
        .ok (alloctoken Tok.Int (skipinttoken (c :: cs)).2 [] 0, (skipinttoken (c :: cs)).1)
      else .error (c :: cs)) := by
  simp [firsttokenAt, h1, h2, h3, h4, h5]

/-- A scan position opening with `Arrayx` matches no token form at all: the
`Array` keyword is rejected by the boundary check (the follower `x` is
alphanumeric) and nothing later in the chain matches a letter. -/
theorem firsttokenAt_arrayx (rest : List Char) :
    firsttokenAt (arrayxChars ++ rest) = .error (arrayxChars ++ rest) := by
  have harr : arrayxChars ++ rest = 'A' :: 'r' :: 'r' :: 'a' :: 'y' :: 'x' :: rest := rfl
  rw [harr]
  rw [firsttokenAt_numeric 'A' ('r' :: 'r' :: 'a' :: 'y' :: 'x' :: rest) rfl rfl rfl rfl rfl]
  have hi : skipinttoken ('A' :: 'r' :: 'r' :: 'a' :: 'y' :: 'x' :: rest) = (0, 0) := rfl
  have hd : skipdoubletoken ('A' :: 'r' :: 'r' :: 'a' :: 'y' :: 'x' :: rest) = 0 := rfl
  rw [hi, hd]
  simp

/-! ## Character-class and matcher evaluation lemmas -/

theorem isspace_elim {c : Char} (h : isspace c = true) :
    c = ' ' ∨ c = '\t' ∨ c = '\n' ∨ c = '\x0b' ∨ c = '\x0c' ∨ c = '\r' := by
  have h2 := h
  simp only [isspace, Bool.or_eq_true, decide_eq_true_eq] at h2
  tauto

/-- Two characters in disjoint decidable classes differ. -/
theorem class_ne {p : Char → Bool} {c k : Char} (hc : p c = true) (hk : p k = false) :
    c ≠ k := by
  intro he
  rw [he, hk] at hc
  cases hc

theorem isspace_not_alnum {c : Char} (h : isspace c = true) : isalnum c = false := by
  rcases isspace_elim h with h1 | h1 | h1 | h1 | h1 | h1 <;> subst h1 <;> decide

theorem isspace_not_digit {c : Char} (h : isspace c = true) : isdigit c = false := by
  rcases isspace_elim h with h1 | h1 | h1 | h1 | h1 | h1 <;> subst h1 <;> decide

theorem isspace_not_oct {c : Char} (h : isspace c = true) : isoctdigit c = false := by
  rcases isspace_elim h with h1 | h1 | h1 | h1 | h1 | h1 <;> subst h1 <;> decide

theorem isspace_not_hex {c : Char} (h : isspace c = true) : ishexdigit c = false := by
  rcases isspace_elim h with h1 | h1 | h1 | h1 | h1 | h1 <;> subst h1 <;> decide

/-- A whitespace character is never one of the structural characters. -/
theorem isspace_ne {c : Char} (h : isspace c = true) {k : Char} (hk : isspace k = false) :
    c ≠ k := class_ne h hk

theorem isdigit_not_space {c : Char} (h : isdigit c = true) : isspace c = false := by
  by_contra h2
  rw [Bool.not_eq_false] at h2
  rcases isspace_elim h2 with h1 | h1 | h1 | h1 | h1 | h1 <;> subst h1 <;>
    exact absurd h (by decide)

/-- `takeWhile` keeps a list all of whose elements satisfy the predicate. -/
theorem takeWhile_of_all {p : Char → Bool} (l : List Char) (h : l.all p = true) :
    l.takeWhile p = l := by
  induction l with
  | nil => rfl
  | cons c cs ih =>
    simp only [List.all_cons, Bool.and_eq_true] at h
    simp [List.takeWhile_cons, h.1, ih h.2]

/-- `takeWhile` stops exactly at the boundary of a satisfied block. -/
theorem takeWhile_append_stop {p : Char → Bool} (a b : List Char) (ha : a.all p = true)
    (hb : b = [] ∨ ∃ c r2, b = c :: r2 ∧ p c = false) : (a ++ b).takeWhile p = a := by
  rw [takeWhile_append_all a b ha]
  rcases hb with hb | ⟨c, r2, hb, hc⟩
  · simp [hb]
  · simp [hb, List.takeWhile_cons, hc]

/-- `takeWhile` across an append never reaches past a failing boundary. -/
theorem takeWhile_append_le {p : Char → Bool} (a b : List Char)
    (hb : b = [] ∨ ∃ c r2, b = c :: r2 ∧ p c = false) :
    ((a ++ b).takeWhile p).length ≤ a.length := by
  induction a with
  | nil =>
    rcases hb with hb | ⟨c, r2, hb, hc⟩
    · simp [hb]
    · simp [hb, List.takeWhile_cons, hc]
  | cons x xs ih =>
    by_cases hx : p x
    · simpa [List.takeWhile_cons, hx] using ih
    · simp [List.takeWhile_cons, hx]

theorem wsBound_takeWhile_nil {p : Char → Bool} {r : List Char} (hr : WsBound r)
    (hsp : ∀ c, isspace c = true → p c = false) : r.takeWhile p = [] := by
  rcases hr with hr | ⟨c, r2, hr, hc⟩
  · simp [hr]
  · simp [hr, List.takeWhile_cons, hsp c hc]

/-- A keyword matcher fails whenever the first characters differ. -/
theorem skipalnumtoken_head_ne {c k : Char} (h : c ≠ k) (s ks : List Char) :
    skipalnumtoken (c :: s) (k :: ks) = 0 := by
  simp [skipalnumtoken, strncmpEq, h]

/-- The keyword table fails on any head that starts no keyword. -/
theorem skipalnumtokens_head_ne {c : Char} (h1 : c ≠ 'A') (h2 : c ≠ 'M') (h3 : c ≠ 'n')
    (h4 : c ≠ 'u') (s : List Char) : skipalnumtokens (c :: s) = none := by
  rw [skipalnumtokens]
  rw [show arrayChars = 'A' :: "rray".toList from rfl,
    show mapChars = 'M' :: "ap".toList from rfl,
    show nullChars = 'n' :: "ull".toList from rfl,
    show undefinedChars = 'u' :: "ndefined".toList from rfl]
  simp [skipalnumtoken_head_ne h1, skipalnumtoken_head_ne h2,
    skipalnumtoken_head_ne h3, skipalnumtoken_head_ne h4]

theorem skipchartokens_head_ne {c : Char} (h1 : c ≠ '[') (h2 : c ≠ ']') (s : List Char) :
    skipchartokens (c :: s) = none := by
  simp [skipchartokens, skipchartoken, h1, h2]

theorem skipstrtoken_head_ne {c : Char} (h : c ≠ '"') (s : List Char) :
    skipstrtoken (c :: s) = none := by
  rw [skipstrtoken.eq_def]
  split
  next heq =>
    rw [List.cons.injEq] at heq
    exact absurd heq.1 h
  · rfl

/-- `strncmpEq` holds along a literal copy of the pattern. -/
theorem strncmpEq_self_append (kw r : List Char) : strncmpEq kw (kw ++ r) = true := by
  induction kw with
  | nil => rfl
  | cons c cs ih => simp [strncmpEq, ih]

theorem boundaryOk_of_wsBound {r : List Char} (hr : WsBound r) : boundaryOk r = true := by
  rcases hr with hr | ⟨c, r2, hr, hc⟩
  · simp [hr, boundaryOk]
  · simp [hr, boundaryOk, isspace_not_alnum hc]

/-- A keyword matches its own literal occurrence when the boundary is clean. -/
theorem skipalnumtoken_self (kw r : List Char) (h : kw ≠ []) (hb : boundaryOk r = true) :
    skipalnumtoken (kw ++ r) kw = kw.length := by
  have ha : afterChars kw (kw ++ r) = r := by
    rw [afterChars_eq_drop]
    have h0 := drop_append_len kw r 0
    rw [Nat.add_zero] at h0
    rw [h0, List.drop_zero]
  simp [skipalnumtoken, strncmpEq_self_append, ha, hb, h]

/-- Convert a unit boundary into a `takeWhile`-stopping boundary for any
predicate that whitespace fails. -/
theorem wsBound_fail {p : Char → Bool} {r : List Char} (hr : WsBound r)
    (hp : ∀ c, isspace c = true → p c = false) :
    r = [] ∨ ∃ c r2, r = c :: r2 ∧ p c = false :=
  hr.imp id (fun ⟨c, r2, h, hc⟩ => ⟨c, r2, h, hp c hc⟩)

theorem dotLen_wsBound {r : List Char} (hr : WsBound r) : dotLen r = 0 := by
  rcases hr with hr | ⟨c, r2, hr, hc⟩
  · simp [hr, dotLen]
  · subst hr
    have h2 : c ≠ '.' := isspace_ne hc (by decide)
    simp [dotLen, h2]

theorem expPartLen_wsBound (e1 e2 : Char) {r : List Char} (he1 : isspace e1 = false)
    (he2 : isspace e2 = false) (hr : WsBound r) : expPartLen e1 e2 r = 0 := by
  rcases hr with hr | ⟨c, r2, hr, hc⟩
  · simp [hr, expPartLen]
  · subst hr
    simp [expPartLen, isspace_ne hc he1, isspace_ne hc he2]

theorem strtol0_zero_cons {c2 : Char} (h2 : isspace c2 = true) (rest : List Char) :
    strtol0 ('0' :: c2 :: rest) = (1, 0) := by
  have hx : ¬(c2 = 'x' ∨ c2 = 'X') := by
    rintro (h1 | h1) <;> subst h1 <;> exact absurd h2 (by decide)
  have ho : List.takeWhile isoctdigit ('0' :: c2 :: rest) = ['0'] := by
    rw [show ('0' :: c2 :: rest) = ['0'] ++ (c2 :: rest) from rfl]
    exact takeWhile_append_stop _ _ (by decide) (Or.inr ⟨c2, rest, rfl, isspace_not_oct h2⟩)
  have key : strtol0 ('0' :: c2 :: rest) =
      if c2 = 'x' ∨ c2 = 'X' then
        (if (List.takeWhile ishexdigit rest).isEmpty = true then ((1 : Nat), (0 : Int))
         else (0 + 0 + 2 + (List.takeWhile ishexdigit rest).length,
           applySign false (digitsVal 16 (List.takeWhile ishexdigit rest))))
      else (0 + 0 + (List.takeWhile isoctdigit ('0' :: c2 :: rest)).length,
        applySign false (digitsVal 8 (List.takeWhile isoctdigit ('0' :: c2 :: rest)))) := rfl
  rw [key, if_neg hx, ho]
  decide

theorem strtol0_digit_head {c : Char} (hcd : isdigit c = true) (hc0 : c ≠ '0')
    (cs : List Char) :
    strtol0 (c :: cs) =
      (if ((c :: cs).takeWhile isdigit).isEmpty = true then (0, 0)
       else (0 + 0 + ((c :: cs).takeWhile isdigit).length,
         applySign false (digitsVal 10 ((c :: cs).takeWhile isdigit)))) := by
  have hw : List.takeWhile isspace (c :: cs) = [] := by
    simp [List.takeWhile_cons, isdigit_not_space hcd]
  have hm : c = '-' ∨ c = '+' → False := by
    rintro (h1 | h1) <;> exact absurd hcd (by rw [h1]; decide)
  rw [strtol0]
  rw [hw]
  simp only [List.length_nil, List.drop_zero]
  rw [signParse]
  rw [if_neg (fun h1 => hm (Or.inl h1)), if_neg (fun h1 => hm (Or.inr h1))]
  simp only [List.drop_zero]
  rw [if_neg hc0]

theorem isUnitBreak_elim {c : Char} (h : isUnitBreak c = true) :
    isspace c = true ∨ c = '"' := by
  rw [isUnitBreak] at h
  simp only [Bool.or_eq_true, decide_eq_true_eq] at h
  exact h

theorem break_not_digit {c : Char} (h : isUnitBreak c = true) : isdigit c = false := by
  rcases isUnitBreak_elim h with h1 | h1
  · exact isspace_not_digit h1
  · subst h1
    decide

theorem break_not_oct {c : Char} (h : isUnitBreak c = true) : isoctdigit c = false := by
  rcases isUnitBreak_elim h with h1 | h1
  · exact isspace_not_oct h1
  · subst h1
    decide

theorem break_not_hex {c : Char} (h : isUnitBreak c = true) : ishexdigit c = false := by
  rcases isUnitBreak_elim h with h1 | h1
  · exact isspace_not_hex h1
  · subst h1
    decide

theorem break_not_alnum {c : Char} (h : isUnitBreak c = true) : isalnum c = false := by
  rcases isUnitBreak_elim h with h1 | h1
  · exact isspace_not_alnum h1
  · subst h1
    decide

/-- A break character is never one of the unit-interior characters. -/
theorem break_ne {c : Char} (h : isUnitBreak c = true) {k : Char}
    (hk : isUnitBreak k = false) : c ≠ k := class_ne h hk

theorem unitBound_fail {p : Char → Bool} {r : List Char} (hr : UnitBound r)
    (hp : ∀ c, isUnitBreak c = true → p c = false) :
    r = [] ∨ ∃ c r2, r = c :: r2 ∧ p c = false :=
  hr.imp id (fun ⟨c, r2, h, hc⟩ => ⟨c, r2, h, hp c hc⟩)

theorem unitBound_takeWhile_nil {p : Char → Bool} {r : List Char} (hr : UnitBound r)
    (hp : ∀ c, isUnitBreak c = true → p c = false) : r.takeWhile p = [] := by
  rcases hr with hr | ⟨c, r2, hr, hc⟩
  · simp [hr]
  · simp [hr, List.takeWhile_cons, hp c hc]

theorem dotLen_unitBound {r : List Char} (hr : UnitBound r) : dotLen r = 0 := by
  rcases hr with hr | ⟨c, r2, hr, hc⟩
  · simp [hr, dotLen]
  · subst hr
    have h2 : c ≠ '.' := break_ne hc (by decide)
    simp [dotLen, h2]

theorem expPartLen_unitBound (e1 e2 : Char) {r : List Char} (he1 : isUnitBreak e1 = false)
    (he2 : isUnitBreak e2 = false) (hr : UnitBound r) : expPartLen e1 e2 r = 0 := by
  rcases hr with hr | ⟨c, r2, hr, hc⟩
  · simp [hr, expPartLen]
  · subst hr
    simp [expPartLen, break_ne hc he1, break_ne hc he2]

theorem boundaryOk_of_unitBound {r : List Char} (hr : UnitBound r) :
    boundaryOk r = true := by
  rcases hr with hr | ⟨c, r2, hr, hc⟩
  · simp [hr, boundaryOk]
  · simp [hr, boundaryOk, break_not_alnum hc]

theorem strtol0_eq_tail_plain {d : Char} (h1 : isspace d = false) (h2 : d ≠ '-')
    (h3 : d ≠ '+') (ds : List Char) :
    strtol0 (d :: ds) = strtol0Tail (d :: ds) 0 0 false := by
  rw [strtol0]
  have hw : List.takeWhile isspace (d :: ds) = [] := by
    simp [List.takeWhile_cons, h1]
  rw [hw]
  simp only [List.length_nil, List.drop_zero]
  rw [signParse]
  rw [if_neg h2, if_neg h3]
  simp only [List.drop_zero]
  rfl

theorem strtol0_eq_tail_neg (s2 : List Char) : strtol0 ('-' :: s2) = strtol0Tail s2 0 1 true := rfl

theorem strtol0_eq_tail_pos (s2 : List Char) : strtol0 ('+' :: s2) = strtol0Tail s2 0 1 false := rfl

theorem strtodLen_eq_tail_plain {d : Char} (h1 : isspace d = false) (h2 : d ≠ '-')
    (h3 : d ≠ '+') (ds : List Char) :
    strtodLen (d :: ds) = strtodLenTail (d :: ds) 0 0 := by
  rw [strtodLen]
  have hw : List.takeWhile isspace (d :: ds) = [] := by
    simp [List.takeWhile_cons, h1]
  rw [hw]
  simp only [List.length_nil, List.drop_zero, signLen]
  rw [signParse]
  rw [if_neg h2, if_neg h3]
  simp only [List.drop_zero]
  rfl

theorem strtodLen_eq_tail_neg (s2 : List Char) : strtodLen ('-' :: s2) = strtodLenTail s2 0 1 := rfl

theorem strtodLen_eq_tail_pos (s2 : List Char) : strtodLen ('+' :: s2) = strtodLenTail s2 0 1 := rfl
theorem isIntCore_elim {s : List Char} (h : isIntCore s = true) :
    (∃ os, s = '0' :: os ∧ os.all isoctdigit = true ∧
      ∀ c2 hs2, os = c2 :: hs2 → ¬(c2 = 'x' ∨ c2 = 'X')) ∨
    (∃ x hs, s = '0' :: x :: hs ∧ (x = 'x' ∨ x = 'X') ∧ hs ≠ [] ∧
      hs.all ishexdigit = true) ∨
    (∃ c ds, s = c :: ds ∧ isdigit c = true ∧ c ≠ '0' ∧ ds.all isdigit = true) := by
  rw [isIntCore.eq_def] at h
  rcases s with _ | ⟨c, rest⟩
  · cases h
  · dsimp only at h
    by_cases hc0 : c = '0'
    · rw [if_pos hc0] at h
      subst hc0
      rcases rest with _ | ⟨c2, hs⟩
      · exact Or.inl ⟨[], rfl, rfl, by intro c2 hs2 h2; cases h2⟩
      · dsimp only at h
        by_cases hx : c2 = 'x' ∨ c2 = 'X'
        · rw [if_pos hx] at h
          simp only [Bool.and_eq_true, Bool.not_eq_eq_eq_not, Bool.not_true] at h
          refine Or.inr (Or.inl ⟨c2, hs, rfl, hx, ?_, h.2⟩)
          intro h2
          rw [h2] at h
          simp at h
        · rw [if_neg hx] at h
          refine Or.inl ⟨c2 :: hs, rfl, h, ?_⟩
          intro c2' hs2 h2
          injection h2 with h3 h4
          subst h3
          exact hx
    · rw [if_neg hc0] at h
      simp only [Bool.and_eq_true] at h
      exact Or.inr (Or.inr ⟨c, rest, rfl, h.1, hc0, h.2⟩)

theorem decimalFormLen_digitrun {u r : List Char} (hall : u.all isdigit = true)
    (hne : u ≠ []) (hr : UnitBound r) : decimalFormLen (u ++ r) = u.length := by
  have hd1 : (u ++ r).takeWhile isdigit = u :=
    takeWhile_append_stop _ _ hall (unitBound_fail hr fun x hx => break_not_digit hx)
  have hdrop : (u ++ r).drop u.length = r := by
    have h0 := drop_append_len u r 0
    rw [Nat.add_zero] at h0
    rw [h0, List.drop_zero]
  rw [decimalFormLen]
  simp only [hd1, hdrop, dotLen_unitBound hr, Nat.add_zero, List.drop_zero]
  rw [unitBound_takeWhile_nil hr fun c hc => break_not_digit hc]
  simp only [List.length_nil, Nat.add_zero, List.drop_zero]
  rw [if_neg (by simpa using hne)]
  rw [expPartLen_unitBound 'e' 'E' (by decide) (by decide) hr]
  simp

/-- `strtol` tail on an integer core with a clean boundary: the whole core is
consumed and its magnitude converted. -/
theorem strtol0Tail_intcore {core : List Char} (h : isIntCore core = true) {r : List Char}
    (hr : UnitBound r) (w sg : Nat) (neg : Bool) :
    strtol0Tail (core ++ r) w sg neg =
      (w + sg + core.length, applySign neg (intCoreMag core)) := by
  rcases isIntCore_elim h with ⟨os, hs1, hall, hx⟩ | ⟨x, hs, hs1, hx, hne, hall⟩ |
    ⟨c, ds, hs1, hcd, hc0, hall⟩
  · subst hs1
    rcases os with _ | ⟨c2, os2⟩
    · rcases hr with hr | ⟨cb, r2, hr, hcb⟩
      · subst hr
        simp [strtol0Tail, intCoreMag, applySign]
      · subst hr
        rw [show (['0'] ++ cb :: r2 : List Char) = '0' :: cb :: r2 from rfl]
        rw [strtol0Tail.eq_def]
        try dsimp only
        rw [if_pos rfl]
        rw [if_neg (by rintro (h1 | h1) <;> subst h1 <;> exact absurd hcb (by decide))]
        have hosw : List.takeWhile isoctdigit ('0' :: cb :: r2) = ['0'] := by
          rw [show ('0' :: cb :: r2 : List Char) = ['0'] ++ (cb :: r2) from rfl]
          exact takeWhile_append_stop _ _ (by decide)
            (Or.inr ⟨cb, r2, rfl, break_not_oct hcb⟩)
        rw [hosw]
        rw [show digitsVal 8 ['0'] = 0 from by decide]
        rw [show intCoreMag ['0'] = 0 from by decide]
    · have hoall : ('0' :: c2 :: os2).all isoctdigit = true := by
        rw [List.all_cons, hall]
        decide
      have hosw : List.takeWhile isoctdigit (('0' :: c2 :: os2) ++ r) = '0' :: c2 :: os2 :=
        takeWhile_append_stop _ _ hoall (unitBound_fail hr fun x hx2 => break_not_oct hx2)
      rw [show (('0' :: c2 :: os2) ++ r : List Char) = '0' :: c2 :: (os2 ++ r) from rfl]
      rw [strtol0Tail.eq_def]
      try dsimp only
      rw [if_pos rfl]
      rw [if_neg (hx c2 os2 rfl)]
      rw [show ('0' :: c2 :: (os2 ++ r) : List Char) = ('0' :: c2 :: os2) ++ r from rfl, hosw]
      rw [show intCoreMag ('0' :: c2 :: os2) = digitsVal 8 ('0' :: c2 :: os2) from by
        rw [intCoreMag.eq_def]
        try dsimp only
        rw [if_pos rfl, if_neg (hx c2 os2 rfl)]]
  · subst hs1
    rcases hs with _ | ⟨h1, hs2⟩
    · exact absurd rfl hne
    · have hhsw : List.takeWhile ishexdigit ((h1 :: hs2) ++ r) = h1 :: hs2 :=
        takeWhile_append_stop _ _ hall (unitBound_fail hr fun y hy => break_not_hex hy)
      rw [show (('0' :: x :: h1 :: hs2) ++ r : List Char) = '0' :: x :: ((h1 :: hs2) ++ r)
        from rfl]
      rw [strtol0Tail.eq_def]
      try dsimp only
      rw [if_pos rfl]
      rw [if_pos hx]
      rw [hhsw]
      rw [if_neg (by simp)]
      rw [show intCoreMag ('0' :: x :: h1 :: hs2) = digitsVal 16 (h1 :: hs2) from by
        rw [intCoreMag.eq_def]
        try dsimp only
        rw [if_pos rfl, if_pos hx]]
      simp only [List.length_cons]
      rw [Prod.mk.injEq]
      constructor
      · omega
      · rfl
  · subst hs1
    have hdsw : List.takeWhile isdigit ((c :: ds) ++ r) = c :: ds := by
      refine takeWhile_append_stop _ _ ?_ (unitBound_fail hr fun y hy => break_not_digit hy)
      rw [List.all_cons, hcd, hall]
      rfl
    rw [List.cons_append]
    rw [strtol0Tail.eq_def]
    try dsimp only
    rw [if_neg hc0]
    rw [← List.cons_append, hdsw]
    rw [if_neg (by simp)]
    rw [show intCoreMag (c :: ds) = digitsVal 10 (c :: ds) from by
      rw [intCoreMag.eq_def]
      try dsimp only
      rw [if_neg hc0]]

theorem oct_digit {c : Char} (h : isoctdigit c = true) : isdigit c = true := by
  simp only [isoctdigit, Bool.and_eq_true, decide_eq_true_eq] at h
  simp only [isdigit, Bool.and_eq_true, decide_eq_true_eq]
  exact ⟨h.1, le_trans h.2 (by decide)⟩

theorem isSign_elim {c : Char} (h : isSign c = true) : c = '-' ∨ c = '+' := by
  rw [isSign] at h
  simp only [Bool.or_eq_true, decide_eq_true_eq] at h
  exact h

theorem isSign_false_elim {c : Char} (h : isSign c = false) : c ≠ '-' ∧ c ≠ '+' := by
  rw [isSign] at h
  simp only [Bool.or_eq_false_iff, decide_eq_false_iff_not] at h
  exact h

theorem strtodDecTail_pos2 {s : List Char} (h : decimalFormLen s ≠ 0) (w sg : Nat) :
    strtodDecTail s w sg = w + sg + decimalFormLen s := by
  rw [strtodDecTail]
  rw [if_pos h]

theorem strtodLenTail_of_shape {c c2 : Char} (rest : List Char)
    (hx : ¬(c = '0' ∧ (c2 = 'x' ∨ c2 = 'X'))) (w sg : Nat) :
    strtodLenTail (c :: c2 :: rest) w sg = strtodDecTail (c :: c2 :: rest) w sg := by
  rw [strtodLenTail.eq_def]
  try dsimp only
  rw [if_neg hx]

/-- `strtod` tail on an integer core: exactly the core is consumed (same
length as the integer parse — the tokenizer's tie goes to `Int`). -/
theorem strtodLenTail_intcore {core : List Char} (h : isIntCore core = true) {r : List Char}
    (hr : UnitBound r) (w sg : Nat) :
    strtodLenTail (core ++ r) w sg = w + sg + core.length := by
  rcases isIntCore_elim h with ⟨os, hs1, hall, hx⟩ | ⟨x, hs, hs1, hx, hne, hall⟩ |
    ⟨c, ds, hs1, hcd, hc0, hall⟩
  · subst hs1
    have hdall : ('0' :: os).all isdigit = true := by
      rw [List.all_cons]
      rw [show isdigit '0' = true from rfl]
      rw [Bool.true_and, List.all_eq_true]
      intro x hx2
      exact oct_digit (by rw [List.all_eq_true] at hall; exact hall x hx2)
    have hdec : decimalFormLen (('0' :: os) ++ r) = ('0' :: os).length :=
      decimalFormLen_digitrun hdall (by simp) hr
    rcases os with _ | ⟨c2, os2⟩
    · rcases hr with hr2 | ⟨cb, r2, hr2, hcb⟩
      · subst hr2
        rw [show ((['0'] : List Char) ++ []) = ['0'] from rfl] at hdec ⊢
        rw [show strtodLenTail ['0'] w sg = strtodDecTail ['0'] w sg from rfl]
        rw [strtodDecTail_pos2 (by rw [hdec]; simp) w sg, hdec]
      · subst hr2
        rw [show ((['0'] : List Char) ++ cb :: r2) = '0' :: cb :: r2 from rfl] at hdec ⊢
        rw [strtodLenTail_of_shape r2
          (by rintro ⟨-, h1 | h1⟩ <;> subst h1 <;> exact absurd hcb (by decide)) w sg]
        rw [strtodDecTail_pos2 (by rw [hdec]; simp) w sg, hdec]
    · rw [show (('0' :: c2 :: os2) ++ r : List Char) = '0' :: c2 :: (os2 ++ r) from rfl] at hdec ⊢
      have hc2o : isoctdigit c2 = true := by
        rw [List.all_cons, Bool.and_eq_true] at hall
        exact hall.1
      rw [strtodLenTail_of_shape (os2 ++ r)
        (by rintro ⟨-, h1 | h1⟩ <;> subst h1 <;> exact absurd hc2o (by decide)) w sg]
      rw [strtodDecTail_pos2 (by rw [hdec]; simp) w sg, hdec]
  · subst hs1
    have hhsw : List.takeWhile ishexdigit (hs ++ r) = hs :=
      takeWhile_append_stop _ _ hall (unitBound_fail hr fun y hy => break_not_hex hy)
    have hdrop : (hs ++ r).drop hs.length = r := by
      have h0 := drop_append_len hs r 0
      rw [Nat.add_zero] at h0
      rw [h0, List.drop_zero]
    rw [show (('0' :: x :: hs) ++ r : List Char) = '0' :: x :: (hs ++ r) from rfl]
    rw [strtodLenTail.eq_def]
    try dsimp only
    rw [if_pos ⟨rfl, hx⟩]
    simp only [hhsw, hdrop, dotLen_unitBound hr, Nat.add_zero, List.drop_zero]
    rw [unitBound_takeWhile_nil hr fun y hy => break_not_hex hy]
    simp only [List.length_nil, Nat.add_zero, List.drop_zero]
    rw [if_neg (by simpa using hne)]
    rw [expPartLen_unitBound 'p' 'P' (by decide) (by decide) hr]
    simp only [List.length_cons]
    omega
  · subst hs1
    have hdall : (c :: ds).all isdigit = true := by
      rw [List.all_cons, hcd, hall]
      rfl
    have hdec : decimalFormLen ((c :: ds) ++ r) = (c :: ds).length :=
      decimalFormLen_digitrun hdall (by simp) hr
    rcases hds : ds ++ r with _ | ⟨e2, es⟩
    · have hnil : (c :: ds) ++ r = [c] := by
        rw [List.cons_append, hds]
      rw [hnil] at hdec ⊢
      rw [show strtodLenTail [c] w sg = strtodDecTail [c] w sg from rfl]
      rw [strtodDecTail_pos2 (by rw [hdec]; simp) w sg, hdec]
    · have hsh : (c :: ds) ++ r = c :: e2 :: es := by
        rw [List.cons_append, hds]
      rw [hsh] at hdec ⊢
      rw [strtodLenTail_of_shape es (by rintro ⟨h1, -⟩; exact hc0 h1) w sg]
      rw [strtodDecTail_pos2 (by rw [hdec]; simp) w sg, hdec]

theorem isDigitRun_elim {s : List Char} (h : isDigitRun s = true) :
    s ≠ [] ∧ s.all isdigit = true := by
  rw [isDigitRun] at h
  simp only [Bool.and_eq_true, Bool.not_eq_eq_eq_not, Bool.not_true] at h
  exact ⟨by simpa using h.1, h.2⟩

theorem isExpPart_elim {e : List Char} (h : isExpPart e = true) :
    ∃ c tail, e = c :: tail ∧ (c = 'e' ∨ c = 'E') ∧ isExpTail tail = true := by
  rcases e with _ | ⟨c, tail⟩
  · cases h
  · rw [isExpPart] at h
    simp only [Bool.and_eq_true, Bool.or_eq_true, decide_eq_true_eq] at h
    exact ⟨c, tail, rfl, h.1, h.2⟩

/-- An exponent part with a clean boundary is consumed whole by `expPartLen`. -/
theorem expPartLen_exppart {e : List Char} (h : isExpPart e = true) {r : List Char}
    (hr : UnitBound r) : expPartLen 'e' 'E' (e ++ r) = e.length := by
  obtain ⟨c, tail, he, hc, ht⟩ := isExpPart_elim h
  subst he
  rw [List.cons_append]
  rw [expPartLen.eq_def]
  try dsimp only
  rw [if_pos hc]
  rcases tail with _ | ⟨t1, ts⟩
  · cases ht
  · rw [isExpTail] at ht
    try dsimp only at ht
    by_cases hsg : isSign t1 = true
    · rw [if_pos hsg] at ht
      obtain ⟨hne, hall⟩ := isDigitRun_elim ht
      have htw : List.takeWhile isdigit (ts ++ r) = ts :=
        takeWhile_append_stop _ _ hall (unitBound_fail hr fun y hy => break_not_digit hy)
      rcases isSign_elim hsg with h1 | h1 <;> subst h1
      · rw [show signLen (('-' :: ts) ++ r) = 1 from rfl]
        rw [show ((('-' :: ts) ++ r : List Char).drop 1) = ts ++ r from rfl, htw]
        rw [if_neg (by simpa using hne)]
        simp only [List.length_cons]
        omega
      · rw [show signLen (('+' :: ts) ++ r) = 1 from rfl]
        rw [show ((('+' :: ts) ++ r : List Char).drop 1) = ts ++ r from rfl, htw]
        rw [if_neg (by simpa using hne)]
        simp only [List.length_cons]
        omega
    · rw [if_neg hsg] at ht
      obtain ⟨hne, hall⟩ := isDigitRun_elim ht
      obtain ⟨hm1, hm2⟩ := isSign_false_elim (by simpa using hsg)
      have hsl : signLen ((t1 :: ts) ++ r) = 0 := by
        rw [signLen, List.cons_append, signParse]
        rw [if_neg hm1, if_neg hm2]
      have htw : List.takeWhile isdigit ((t1 :: ts) ++ r) = t1 :: ts :=
        takeWhile_append_stop _ _ hall (unitBound_fail hr fun y hy => break_not_digit hy)
      rw [hsl]
      rw [List.drop_zero, htw]
      rw [if_neg (by simp)]
      simp only [List.length_cons]
      omega

theorem strtol0Tail_zero_head (c2 : Char) (hx : ¬(c2 = 'x' ∨ c2 = 'X')) (rest : List Char)
    (w sg : Nat) (neg : Bool) :
    strtol0Tail ('0' :: c2 :: rest) w sg neg =
      (w + sg + (List.takeWhile isoctdigit ('0' :: c2 :: rest)).length,
        applySign neg (digitsVal 8 (List.takeWhile isoctdigit ('0' :: c2 :: rest)))) := by
  have key : strtol0Tail ('0' :: c2 :: rest) w sg neg =
      if c2 = 'x' ∨ c2 = 'X' then
        (if (List.takeWhile ishexdigit rest).isEmpty = true then (w + sg + 1, (0 : Int))
         else (w + sg + 2 + (List.takeWhile ishexdigit rest).length,
           applySign neg (digitsVal 16 (List.takeWhile ishexdigit rest))))
      else (w + sg + (List.takeWhile isoctdigit ('0' :: c2 :: rest)).length,
        applySign neg (digitsVal 8 (List.takeWhile isoctdigit ('0' :: c2 :: rest)))) := rfl
  rw [key, if_neg hx]

theorem strtol0Tail_digit_head {c : Char} (hcd : isdigit c = true) (hc0 : c ≠ '0')
    (cs : List Char) (w sg : Nat) (neg : Bool) :
    strtol0Tail (c :: cs) w sg neg =
      (if ((c :: cs).takeWhile isdigit).isEmpty = true then (0, 0)
       else (w + sg + ((c :: cs).takeWhile isdigit).length,
         applySign neg (digitsVal 10 ((c :: cs).takeWhile isdigit)))) := by
  rw [strtol0Tail.eq_def]
  try dsimp only
  rw [if_neg hc0]

/-- Decomposition of a floating core: digits then either a decimal point with
digits and optional exponent, or directly a nonempty exponent part. -/
theorem isDoubleCore_elim {s : List Char} (h : isDoubleCore s = true) :
    ∃ d1 rest1, s = d1 ++ rest1 ∧ d1.all isdigit = true ∧
      ((∃ d2 rest2, rest1 = '.' :: (d2 ++ rest2) ∧ d2.all isdigit = true ∧
          d1.length + d2.length ≠ 0 ∧ (rest2 = [] ∨ isExpPart rest2 = true)) ∨
       (d1 ≠ [] ∧ isExpPart rest1 = true)) := by
  rw [isDoubleCore] at h
  split at h
  next t heq =>
    simp only [Bool.and_eq_true, Bool.or_eq_true, decide_eq_true_eq] at h
    obtain ⟨hne, hor⟩ := h
    have hs : s = s.takeWhile isdigit ++ '.' :: t := by
      conv_lhs => rw [← List.take_append_drop (s.takeWhile isdigit).length s]
      rw [take_takeWhile_len, heq]
    have ht : t = t.takeWhile isdigit ++ t.drop (t.takeWhile isdigit).length := by
      conv_lhs => rw [← List.take_append_drop (t.takeWhile isdigit).length t]
      rw [take_takeWhile_len]
    refine ⟨s.takeWhile isdigit, '.' :: t, hs, takeWhile_all s,
      Or.inl ⟨t.takeWhile isdigit, t.drop (t.takeWhile isdigit).length, ?_,
        takeWhile_all t, hne, ?_⟩⟩
    · rw [← ht]
    · rcases hor with h1 | h1
      · exact Or.inl (by simpa using h1)
      · exact Or.inr h1
  next r1 heq =>
    rw [Bool.and_eq_true] at h
    obtain ⟨h1, hexp⟩ := h
    have hne : s.takeWhile isdigit ≠ [] := by
      intro h2
      rw [h2] at h1
      simp at h1
    have hs : s = s.takeWhile isdigit ++ s.drop (s.takeWhile isdigit).length := by
      conv_lhs => rw [← List.take_append_drop (s.takeWhile isdigit).length s]
      rw [take_takeWhile_len]
    exact ⟨s.takeWhile isdigit, s.drop (s.takeWhile isdigit).length, hs, takeWhile_all s,
      Or.inr ⟨hne, hexp⟩⟩

/-- The head character of an exponent part is not a digit. -/
theorem exppart_head_not_digit {e : List Char} (h : isExpPart e = true) :
    ∃ c tl, e = c :: tl ∧ isdigit c = false := by
  obtain ⟨c, tl, he, hc, -⟩ := isExpPart_elim h
  exact ⟨c, tl, he, by rcases hc with h1 | h1 <;> subst h1 <;> decide⟩

/-- The decimal-form scan on a floating core with a clean boundary consumes
exactly the core. -/
theorem decimalFormLen_dblcore {core : List Char} (h : isDoubleCore core = true)
    {r : List Char} (hr : UnitBound r) : decimalFormLen (core ++ r) = core.length := by
  obtain ⟨d1, rest1, hcore, hd1all, hcase⟩ := isDoubleCore_elim h
  rcases hcase with ⟨d2, rest2, hrest1, hd2all, hsum, hr2⟩ | ⟨hne, hexp⟩
  · subst hrest1
    subst hcore
    have hstop2 : List.takeWhile isdigit (d2 ++ (rest2 ++ r)) = d2 := by
      refine takeWhile_append_stop _ _ hd2all ?_
      rcases hr2 with h1 | h1
      · subst h1
        rw [List.nil_append]
        exact unitBound_fail hr fun x hx => break_not_digit hx
      · obtain ⟨e, tl, he, hce⟩ := exppart_head_not_digit h1
        subst he
        exact Or.inr ⟨e, tl ++ r, by simp, hce⟩
    have ht1 : List.takeWhile isdigit ((d1 ++ '.' :: (d2 ++ rest2)) ++ r) = d1 := by
      rw [List.append_assoc]
      exact takeWhile_append_stop _ _ hd1all
        (Or.inr ⟨'.', (d2 ++ rest2) ++ r, by simp, by decide⟩)
    have hr1 : ((d1 ++ '.' :: (d2 ++ rest2)) ++ r).drop d1.length =
        '.' :: (d2 ++ (rest2 ++ r)) := by
      rw [List.append_assoc]
      have h0 := drop_append_len d1 ('.' :: (d2 ++ rest2) ++ r) 0
      rw [Nat.add_zero] at h0
      rw [h0, List.drop_zero, List.cons_append, List.append_assoc]
    have hrd : ('.' :: (d2 ++ (rest2 ++ r))).drop (1 + d2.length) = rest2 ++ r := by
      rw [Nat.add_comm, List.drop_succ_cons]
      have h0 := drop_append_len d2 (rest2 ++ r) 0
      rw [Nat.add_zero] at h0
      rw [h0, List.drop_zero]
    have hexp2 : expPartLen 'e' 'E' (rest2 ++ r) = rest2.length := by
      rcases hr2 with h1 | h1
      · subst h1
        rw [List.nil_append]
        rw [expPartLen_unitBound 'e' 'E' (by decide) (by decide) hr]
        rfl
      · exact expPartLen_exppart h1 hr
    rw [decimalFormLen]
    simp only [ht1, hr1, dotLen, if_true, List.drop_succ_cons, List.drop_zero, hstop2, hrd]
    rw [if_neg hsum, hexp2]
    simp only [List.length_append, List.length_cons]
    omega
  · subst hcore
    obtain ⟨e, tl, he, hce⟩ := exppart_head_not_digit hexp
    have ht1 : List.takeWhile isdigit ((d1 ++ rest1) ++ r) = d1 := by
      rw [List.append_assoc]
      exact takeWhile_append_stop _ _ hd1all (Or.inr ⟨e, tl ++ r, by rw [he]; simp, hce⟩)
    have hr1 : ((d1 ++ rest1) ++ r).drop d1.length = rest1 ++ r := by
      rw [List.append_assoc]
      have h0 := drop_append_len d1 (rest1 ++ r) 0
      rw [Nat.add_zero] at h0
      rw [h0, List.drop_zero]
    have hdl : dotLen (rest1 ++ r) = 0 := by
      rw [he, List.cons_append, dotLen.eq_def]
      try dsimp only
      rw [if_neg ?_]
      obtain ⟨c2, tl2, he2, hc2, -⟩ := isExpPart_elim hexp
      rw [he] at he2
      injection he2 with h3 h4
      subst h3
      rcases hc2 with h5 | h5 <;> subst h5 <;> decide
    have htw0 : List.takeWhile isdigit (rest1 ++ r) = [] := by
      rw [he, List.cons_append]
      simp [List.takeWhile_cons, hce]
    have hexp2 : expPartLen 'e' 'E' (rest1 ++ r) = rest1.length := expPartLen_exppart hexp hr
    rw [decimalFormLen]
    simp only [ht1, hr1, hdl, List.drop_zero, htw0, List.length_nil, Nat.add_zero]
    rw [if_neg (fun h2 => hne (List.eq_nil_of_length_eq_zero h2)), hexp2]
    simp only [List.length_append]

/-- A floating core (with anything appended) starts with two characters that
do not form a hexadecimal prefix. -/
theorem dblcore_shape {core : List Char} (h : isDoubleCore core = true) (X : List Char) :
    ∃ c c2 rest, core ++ X = c :: c2 :: rest ∧ ¬(c = '0' ∧ (c2 = 'x' ∨ c2 = 'X')) := by
  obtain ⟨d1, rest1, hcore, hd1all, hcase⟩ := isDoubleCore_elim h
  rcases hcase with ⟨d2, rest2, hrest1, hd2all, hsum, hr2⟩ | ⟨hne, hexp⟩
  · subst hrest1
    subst hcore
    rcases d1 with _ | ⟨a, d1t⟩
    · rcases d2 with _ | ⟨b, d2t⟩
      · simp at hsum
      · refine ⟨'.', b, (d2t ++ rest2) ++ X, by simp, ?_⟩
        rintro ⟨h1, -⟩
        exact absurd h1 (by decide)
    · rcases d1t with _ | ⟨b, d1tt⟩
      · refine ⟨a, '.', (d2 ++ rest2) ++ X, by simp, ?_⟩
        rintro ⟨-, h2 | h2⟩ <;> exact absurd h2 (by decide)
      · have hbd : isdigit b = true := by
          simp only [List.all_cons, Bool.and_eq_true] at hd1all
          exact hd1all.2.1
        refine ⟨a, b, (d1tt ++ '.' :: (d2 ++ rest2)) ++ X, by simp, ?_⟩
        rintro ⟨-, h2 | h2⟩ <;> subst h2 <;> exact absurd hbd (by decide)
  · subst hcore
    obtain ⟨e, tl, he, hce, -⟩ := isExpPart_elim hexp
    subst he
    rcases d1 with _ | ⟨a, d1t⟩
    · exact absurd rfl hne
    · rcases d1t with _ | ⟨b, d1tt⟩
      · refine ⟨a, e, tl ++ X, by simp, ?_⟩
        rintro ⟨-, h2 | h2⟩ <;> subst h2 <;> exact absurd hce (by decide)
      · have hbd : isdigit b = true := by
          simp only [List.all_cons, Bool.and_eq_true] at hd1all
          exact hd1all.2.1
        refine ⟨a, b, (d1tt ++ e :: tl) ++ X, by simp, ?_⟩
        rintro ⟨-, h2 | h2⟩ <;> subst h2 <;> exact absurd hbd (by decide)

/-- A floating core is nonempty. -/
theorem dblcore_ne_nil {core : List Char} (h : isDoubleCore core = true) : core ≠ [] := by
  obtain ⟨d1, rest1, hcore, -, hcase⟩ := isDoubleCore_elim h
  rcases hcase with ⟨d2, rest2, hrest1, -, -, -⟩ | ⟨hne, -⟩
  · subst hrest1
    subst hcore
    simp
  · subst hcore
    intro h2
    rw [List.append_eq_nil] at h2
    exact hne h2.1

/-- `strtod` tail on a floating core: exactly the core is consumed. -/
theorem strtodLenTail_dblcore {core : List Char} (h : isDoubleCore core = true)
    {r : List Char} (hr : UnitBound r) (w sg : Nat) :
    strtodLenTail (core ++ r) w sg = w + sg + core.length := by
  obtain ⟨c, c2, rest, hsh, hx⟩ := dblcore_shape h r
  have hdec : decimalFormLen (core ++ r) = core.length := decimalFormLen_dblcore h hr
  have hpos : decimalFormLen (core ++ r) ≠ 0 := by
    rw [hdec]
    intro h2
    exact dblcore_ne_nil h (List.eq_nil_of_length_eq_zero h2)
  rw [hsh, strtodLenTail_of_shape rest hx w sg, ← hsh]
  rw [strtodDecTail_pos2 hpos w sg, hdec]

/-- `strtol` tail on a floating core consumes strictly less than the core
(it stops at the point or exponent), whatever sign prefix was counted. -/
theorem strtol0Tail_fst_dblcore {core : List Char} (h : isDoubleCore core = true)
    (r : List Char) (w sg : Nat) (neg : Bool) :
    (strtol0Tail (core ++ r) w sg neg).1 < w + sg + core.length := by
  obtain ⟨d1, rest1, hcore, hd1all, hcase⟩ := isDoubleCore_elim h
  rcases hcase with ⟨d2, rest2, hrest1, hd2all, hsum, hr2⟩ | ⟨hne, hexp⟩
  · subst hrest1
    subst hcore
    rcases d1 with _ | ⟨a, d1t⟩
    · have hz : strtol0Tail ('.' :: ((d2 ++ rest2) ++ r)) w sg neg = (0, 0) := rfl
      rw [show (([] ++ '.' :: (d2 ++ rest2)) ++ r : List Char)
          = '.' :: ((d2 ++ rest2) ++ r) from by simp]
      rw [hz]
      simp only [List.nil_append, List.length_cons]
      omega
    · have had : isdigit a = true := by
        simp only [List.all_cons, Bool.and_eq_true] at hd1all
        exact hd1all.1
      by_cases ha0 : a = '0'
      · subst ha0
        rcases d1t with _ | ⟨b, d1tt⟩
        · rw [show ((('0' :: []) ++ '.' :: (d2 ++ rest2)) ++ r : List Char)
              = '0' :: '.' :: ((d2 ++ rest2) ++ r) from by simp]
          rw [strtol0Tail_zero_head '.' (by decide) _ w sg neg]
          rw [show List.takeWhile isoctdigit ('0' :: '.' :: ((d2 ++ rest2) ++ r))
              = ['0'] from rfl]
          simp only [List.length_cons, List.length_append, List.length_nil]
          omega
        · have hbd : isdigit b = true := by
            simp only [List.all_cons, Bool.and_eq_true] at hd1all
            exact hd1all.2.1
          rw [show ((('0' :: b :: d1tt) ++ '.' :: (d2 ++ rest2)) ++ r : List Char)
              = '0' :: b :: (d1tt ++ ('.' :: (d2 ++ rest2) ++ r)) from by simp]
          rw [strtol0Tail_zero_head b
            (by rintro (h2 | h2) <;> subst h2 <;> exact absurd hbd (by decide)) _ w sg neg]
          have hb := takeWhile_append_le (p := isoctdigit) ('0' :: b :: d1tt)
            ('.' :: (d2 ++ rest2) ++ r) (Or.inr ⟨'.', (d2 ++ rest2) ++ r, by simp, by decide⟩)
          rw [show (('0' :: b :: d1tt) ++ ('.' :: (d2 ++ rest2) ++ r) : List Char)
              = '0' :: b :: (d1tt ++ ('.' :: (d2 ++ rest2) ++ r)) from by simp] at hb
          simp only [List.length_cons] at hb
          simp only [List.length_cons, List.length_append]
          omega
      · rw [show (((a :: d1t) ++ '.' :: (d2 ++ rest2)) ++ r : List Char)
            = a :: (d1t ++ ('.' :: (d2 ++ rest2) ++ r)) from by simp]
        rw [strtol0Tail_digit_head had ha0 _ w sg neg]
        have hds : List.takeWhile isdigit (a :: (d1t ++ ('.' :: (d2 ++ rest2) ++ r)))
            = a :: d1t := by
          have hstop := takeWhile_append_stop (p := isdigit) (a :: d1t)
            ('.' :: (d2 ++ rest2) ++ r) hd1all
            (Or.inr ⟨'.', (d2 ++ rest2) ++ r, by simp, by decide⟩)
          rw [show ((a :: d1t) ++ ('.' :: (d2 ++ rest2) ++ r) : List Char)
              = a :: (d1t ++ ('.' :: (d2 ++ rest2) ++ r)) from by simp] at hstop
          exact hstop
        rw [hds]
        rw [if_neg (by simp)]
        simp only [List.length_cons, List.length_append]
        omega
  · subst hcore
    obtain ⟨e, tl, he, hce⟩ := exppart_head_not_digit hexp
    have hceE : e = 'e' ∨ e = 'E' := by
      obtain ⟨c2, tl2, he2, hc2, -⟩ := isExpPart_elim hexp
      rw [he] at he2
      injection he2 with h3 h4
      subst h3
      exact hc2
    have heo : isoctdigit e = false := by
      rcases hceE with h5 | h5 <;> subst h5 <;> decide
    rcases d1 with _ | ⟨a, d1t⟩
    · exact absurd rfl hne
    · have had : isdigit a = true := by
        simp only [List.all_cons, Bool.and_eq_true] at hd1all
        exact hd1all.1
      by_cases ha0 : a = '0'
      · subst ha0
        rcases d1t with _ | ⟨b, d1tt⟩
        · rw [show ((('0' :: []) ++ rest1) ++ r : List Char)
              = '0' :: (rest1 ++ r) from by simp]
          rw [he, List.cons_append]
          rw [strtol0Tail_zero_head e
            (by rintro (h2 | h2) <;> subst h2 <;> exact absurd hceE (by decide)) _ w sg neg]
          rw [show List.takeWhile isoctdigit ('0' :: e :: (tl ++ r))
              = ['0'] ++ List.takeWhile isoctdigit (e :: (tl ++ r)) from by
                rw [show ('0' :: e :: (tl ++ r) : List Char) = ['0'] ++ (e :: (tl ++ r)) from rfl]
                exact takeWhile_append_all ['0'] (e :: (tl ++ r)) (by decide)]
          rw [show List.takeWhile isoctdigit (e :: (tl ++ r)) = [] from by
            simp [List.takeWhile_cons, heo]]
          simp only [List.length_append, List.length_cons, List.length_nil]
          omega
        · have hbd : isdigit b = true := by
            simp only [List.all_cons, Bool.and_eq_true] at hd1all
            exact hd1all.2.1
          rw [show ((('0' :: b :: d1tt) ++ rest1) ++ r : List Char)
              = '0' :: b :: (d1tt ++ (rest1 ++ r)) from by simp]
          rw [strtol0Tail_zero_head b
            (by rintro (h2 | h2) <;> subst h2 <;> exact absurd hbd (by decide)) _ w sg neg]
          have hb := takeWhile_append_le (p := isoctdigit) ('0' :: b :: d1tt) (rest1 ++ r)
            (Or.inr ⟨e, tl ++ r, by rw [he]; simp, heo⟩)
          rw [show (('0' :: b :: d1tt) ++ (rest1 ++ r) : List Char)
              = '0' :: b :: (d1tt ++ (rest1 ++ r)) from by simp] at hb
          simp only [List.length_cons] at hb
          have hrne : rest1.length ≠ 0 := by
            rw [he]
            simp
          simp only [List.length_cons, List.length_append]
          omega
      · rw [show (((a :: d1t) ++ rest1) ++ r : List Char)
            = a :: (d1t ++ (rest1 ++ r)) from by simp]
        rw [strtol0Tail_digit_head had ha0 _ w sg neg]
        have hds : List.takeWhile isdigit (a :: (d1t ++ (rest1 ++ r))) = a :: d1t := by
          have hstop := takeWhile_append_stop (p := isdigit) (a :: d1t) (rest1 ++ r)
            hd1all (Or.inr ⟨e, tl ++ r, by rw [he]; simp, hce⟩)
          rw [show ((a :: d1t) ++ (rest1 ++ r) : List Char)
              = a :: (d1t ++ (rest1 ++ r)) from by simp] at hstop
          exact hstop
        rw [hds]
        rw [if_neg (by simp)]
        have hrne : rest1.length ≠ 0 := by
          rw [he]
          simp
        simp only [List.length_cons, List.length_append]
        omega

theorem isStrLit_elim {u : List Char} (h : isStrLit u = true) :
    ∃ mid, u = '"' :: mid ++ ['"'] ∧ mid.all (fun x => x ≠ '"') = true ∧
      strLitMid u = mid := by
  cases u with
  | nil => exact absurd h (by simp [isStrLit])
  | cons c rest =>
    rw [isStrLit] at h
    simp only [Bool.and_eq_true, decide_eq_true_eq, Bool.not_eq_eq_eq_not, Bool.not_true,
      beq_iff_eq] at h
    obtain ⟨⟨⟨hc, hne⟩, hlast⟩, hall⟩ := h
    subst hc
    have hrne : rest ≠ [] := by
      intro h2
      rw [h2] at hne
      simp at hne
    have hg : rest.getLast hrne = '"' := by
      have h3 := List.getLast?_eq_getLast rest hrne
      rw [h3] at hlast
      simpa using hlast
    have h4 := List.dropLast_append_getLast hrne
    rw [hg] at h4
    refine ⟨rest.dropLast, ?_, hall, rfl⟩
    rw [List.cons_append, h4]

theorem skipstrtoken_strlit {u : List Char} (h : isStrLit u = true) (r : List Char) :
    skipstrtoken (u ++ r) = some (u.length, strLitMid u) := by
  obtain ⟨mid, hu, hall, hmid⟩ := isStrLit_elim h
  rw [hmid]
  subst hu
  have hsh : (('"' :: mid ++ ['"']) ++ r) = '"' :: (mid ++ ('"' :: r)) := by simp
  rw [hsh]
  rw [skipstrtoken]
  have hmw : List.takeWhile (fun c => c ≠ '"') (mid ++ ('"' :: r)) = mid :=
    takeWhile_append_stop _ _ hall (Or.inr ⟨'"', r, rfl, by simp⟩)
  simp only [hmw]
  have hdm : (mid ++ ('"' :: r)).drop mid.length = '"' :: r := by
    have h0 := drop_append_len mid ('"' :: r) 0
    rw [Nat.add_zero] at h0
    rw [h0, List.drop_zero]
  rw [hdm]
  simp [List.length_append]

theorem isStrLit_head_ne {c : Char} (h : c ≠ '"') (cs : List Char) :
    isStrLit (c :: cs) = false := by
  simp [isStrLit, h]

theorem cons_ne_of_head {c k : Char} (h : c ≠ k) (cs ks : List Char) :
    c :: cs ≠ k :: ks := by
  intro he
  injection he with h1 h2
  exact h h1

theorem tokenOfUnit_strlit {u : List Char} (h : isStrLit u = true) :
    tokenOfUnit u = alloctoken Tok.String 0 (strLitMid u) (strLitMid u).length := by
  obtain ⟨mid, hu, hall, hmid⟩ := isStrLit_elim h
  have h1 : ¬(u == nullChars) = true := by
    simp only [beq_iff_eq]
    rw [hu, show nullChars = 'n' :: "ull".toList from rfl, List.cons_append]
    exact cons_ne_of_head (by decide) _ _
  have h2 : ¬(u == undefinedChars) = true := by
    simp only [beq_iff_eq]
    rw [hu, show undefinedChars = 'u' :: "ndefined".toList from rfl, List.cons_append]
    exact cons_ne_of_head (by decide) _ _
  have h3 : ¬(u == trueChars) = true := by
    simp only [beq_iff_eq]
    rw [hu, show trueChars = 't' :: "rue".toList from rfl, List.cons_append]
    exact cons_ne_of_head (by decide) _ _
  have h4 : ¬(u == falseChars) = true := by
    simp only [beq_iff_eq]
    rw [hu, show falseChars = 'f' :: "alse".toList from rfl, List.cons_append]
    exact cons_ne_of_head (by decide) _ _
  rw [tokenOfUnit, if_neg h1, if_neg h2, if_neg h3, if_neg h4, if_pos h]

theorem skipalnumtokens_null {r : List Char} (hr : UnitBound r) :
    skipalnumtokens (nullChars ++ r) = some (4, Tok.Null) := by
  have h4 : skipalnumtoken (nullChars ++ r) nullChars = 4 :=
    skipalnumtoken_self nullChars r (by decide) (boundaryOk_of_unitBound hr)
  rw [skipalnumtokens]
  rw [show (nullChars ++ r : List Char) = 'n' :: ("ull".toList ++ r) from rfl] at h4 ⊢
  rw [show arrayChars = 'A' :: "rray".toList from rfl,
    show mapChars = 'M' :: "ap".toList from rfl]
  rw [skipalnumtoken_head_ne (show ('n' : Char) ≠ 'A' by decide),
    skipalnumtoken_head_ne (show ('n' : Char) ≠ 'M' by decide), h4]
  simp

theorem skipalnumtokens_undefined {r : List Char} (hr : UnitBound r) :
    skipalnumtokens (undefinedChars ++ r) = some (9, Tok.Undefined) := by
  have h9 : skipalnumtoken (undefinedChars ++ r) undefinedChars = 9 :=
    skipalnumtoken_self undefinedChars r (by decide) (boundaryOk_of_unitBound hr)
  rw [skipalnumtokens]
  rw [show (undefinedChars ++ r : List Char) = 'u' :: ("ndefined".toList ++ r) from rfl] at h9 ⊢
  rw [show arrayChars = 'A' :: "rray".toList from rfl,
    show mapChars = 'M' :: "ap".toList from rfl,
    show nullChars = 'n' :: "ull".toList from rfl]
  rw [skipalnumtoken_head_ne (show ('u' : Char) ≠ 'A' by decide),
    skipalnumtoken_head_ne (show ('u' : Char) ≠ 'M' by decide),
    skipalnumtoken_head_ne (show ('u' : Char) ≠ 'n' by decide), h9]
  simp

theorem isIntCore_head {s : List Char} (h : isIntCore s = true) :
    ∃ c cs, s = c :: cs ∧ isdigit c = true := by
  rcases isIntCore_elim h with ⟨os, hs1, -⟩ | ⟨x, hs, hs1, -⟩ | ⟨c, ds, hs1, hcd, -⟩
  · exact ⟨'0', os, hs1, by decide⟩
  · exact ⟨'0', x :: hs, hs1, by decide⟩
  · exact ⟨c, ds, hs1, hcd⟩

theorem isDoubleCore_head {s : List Char} (h : isDoubleCore s = true) :
    ∃ c cs, s = c :: cs ∧ (isdigit c = true ∨ c = '.') := by
  obtain ⟨d1, rest1, hcore, hd1all, hcase⟩ := isDoubleCore_elim h
  rcases d1 with _ | ⟨a, d1t⟩
  · rcases hcase with ⟨d2, rest2, hrest1, -⟩ | ⟨hne, -⟩
    · subst hrest1
      subst hcore
      exact ⟨'.', d2 ++ rest2, by simp, Or.inr rfl⟩
    · exact absurd rfl hne
  · have had : isdigit a = true := by
      simp only [List.all_cons, Bool.and_eq_true] at hd1all
      exact hd1all.1
    subst hcore
    exact ⟨a, d1t ++ rest1, by simp, Or.inl had⟩

theorem isIntLit_elim2 {u : List Char} (h : isIntLit u = true) :
    (∃ core, u = '-' :: core ∧ isIntCore core = true) ∨
    (∃ core, u = '+' :: core ∧ isIntCore core = true) ∨
    (isIntCore u = true ∧ ∃ c cs, u = c :: cs ∧ isSign c = false) := by
  rw [isIntLit.eq_def] at h
  rcases u with _ | ⟨c, rest⟩
  · cases h
  · dsimp only at h
    by_cases hsg : isSign c = true
    · rw [if_pos hsg] at h
      rcases isSign_elim hsg with h1 | h1 <;> subst h1
      · exact Or.inl ⟨rest, rfl, h⟩
      · exact Or.inr (Or.inl ⟨rest, rfl, h⟩)
    · rw [if_neg hsg] at h
      exact Or.inr (Or.inr ⟨h, c, rest, rfl, by simpa using hsg⟩)

theorem isDoubleLit_elim2 {u : List Char} (h : isDoubleLit u = true) :
    (∃ core, u = '-' :: core ∧ isDoubleCore core = true) ∨
    (∃ core, u = '+' :: core ∧ isDoubleCore core = true) ∨
    (isDoubleCore u = true ∧ ∃ c cs, u = c :: cs ∧ isSign c = false) := by
  rw [isDoubleLit.eq_def] at h
  rcases u with _ | ⟨c, rest⟩
  · cases h
  · dsimp only at h
    by_cases hsg : isSign c = true
    · rw [if_pos hsg] at h
      rcases isSign_elim hsg with h1 | h1 <;> subst h1
      · exact Or.inl ⟨rest, rfl, h⟩
      · exact Or.inr (Or.inl ⟨rest, rfl, h⟩)
    · rw [if_neg hsg] at h
      exact Or.inr (Or.inr ⟨h, c, rest, rfl, by simpa using hsg⟩)

theorem isIntLit_head {u : List Char} (h : isIntLit u = true) :
    ∃ c cs, u = c :: cs ∧ (isdigit c = true ∨ isSign c = true) := by
  rcases isIntLit_elim2 h with ⟨core, hu, -⟩ | ⟨core, hu, -⟩ | ⟨hcore, -⟩
  · exact ⟨'-', core, hu, Or.inr (by decide)⟩
  · exact ⟨'+', core, hu, Or.inr (by decide)⟩
  · obtain ⟨c, cs, hu, hcd⟩ := isIntCore_head hcore
    exact ⟨c, cs, hu, Or.inl hcd⟩

theorem isDoubleLit_head {u : List Char} (h : isDoubleLit u = true) :
    ∃ c cs, u = c :: cs ∧ (isdigit c = true ∨ isSign c = true ∨ c = '.') := by
  rcases isDoubleLit_elim2 h with ⟨core, hu, -⟩ | ⟨core, hu, -⟩ | ⟨hcore, -⟩
  · exact ⟨'-', core, hu, Or.inr (Or.inl (by decide))⟩
  · exact ⟨'+', core, hu, Or.inr (Or.inl (by decide))⟩
  · obtain ⟨c, cs, hu, hcd⟩ := isDoubleCore_head hcore
    rcases hcd with h1 | h1
    · exact ⟨c, cs, hu, Or.inl h1⟩
    · exact ⟨c, cs, hu, Or.inr (Or.inr h1)⟩

/-- `strtol` consumes exactly an integer literal and converts its value when
the literal is followed by a unit boundary. -/
theorem strtol0_intlit2 {u : List Char} (h : isIntLit u = true) {r : List Char}
    (hr : UnitBound r) : strtol0 (u ++ r) = (u.length, intLitVal u) := by
  rcases isIntLit_elim2 h with ⟨core, hu, hcore⟩ | ⟨core, hu, hcore⟩ | ⟨hcore, c, cs, hu, hsg⟩
  · subst hu
    rw [List.cons_append, strtol0_eq_tail_neg]
    rw [strtol0Tail_intcore hcore hr 0 1 true]
    rw [Prod.mk.injEq]
    refine ⟨by simp only [List.length_cons]; omega, rfl⟩
  · subst hu
    rw [List.cons_append, strtol0_eq_tail_pos]
    rw [strtol0Tail_intcore hcore hr 0 1 false]
    rw [Prod.mk.injEq]
    refine ⟨by simp only [List.length_cons]; omega, rfl⟩
  · subst hu
    obtain ⟨c2, cs2, hu2, hcd⟩ := isIntCore_head hcore
    injection hu2 with h3 h4
    subst h3
    obtain ⟨hm1, hm2⟩ := isSign_false_elim hsg
    rw [List.cons_append, strtol0_eq_tail_plain (isdigit_not_space hcd) hm1 hm2]
    rw [← List.cons_append, strtol0Tail_intcore hcore hr 0 0 false]
    have hval : intLitVal (c :: cs) = (intCoreMag (c :: cs) : Int) := by
      rw [intLitVal.eq_def]
      try dsimp only
      rw [if_neg hm1, if_neg hm2]
    rw [hval, Prod.mk.injEq]
    refine ⟨by simp only [List.length_cons]; omega, rfl⟩

/-- `strtod` consumes exactly an integer literal followed by a unit boundary. -/
theorem strtodLen_intlit2 {u : List Char} (h : isIntLit u = true) {r : List Char}
    (hr : UnitBound r) : strtodLen (u ++ r) = u.length := by
  rcases isIntLit_elim2 h with ⟨core, hu, hcore⟩ | ⟨core, hu, hcore⟩ | ⟨hcore, c, cs, hu, hsg⟩
  · subst hu
    rw [List.cons_append, strtodLen_eq_tail_neg]
    rw [strtodLenTail_intcore hcore hr 0 1]
    simp only [List.length_cons]
    omega
  · subst hu
    rw [List.cons_append, strtodLen_eq_tail_pos]
    rw [strtodLenTail_intcore hcore hr 0 1]
    simp only [List.length_cons]
    omega
  · subst hu
    obtain ⟨c2, cs2, hu2, hcd⟩ := isIntCore_head hcore
    injection hu2 with h3 h4
    subst h3
    obtain ⟨hm1, hm2⟩ := isSign_false_elim hsg
    rw [List.cons_append, strtodLen_eq_tail_plain (isdigit_not_space hcd) hm1 hm2]
    rw [← List.cons_append, strtodLenTail_intcore hcore hr 0 0]
    simp only [List.length_cons]
    omega

/-- `strtod` consumes exactly a floating literal followed by a unit boundary. -/
theorem strtodLen_doublelit2 {u : List Char} (h : isDoubleLit u = true) {r : List Char}
    (hr : UnitBound r) : strtodLen (u ++ r) = u.length := by
  rcases isDoubleLit_elim2 h with ⟨core, hu, hcore⟩ | ⟨core, hu, hcore⟩ | ⟨hcore, c, cs, hu, hsg⟩
  · subst hu
    rw [List.cons_append, strtodLen_eq_tail_neg]
    rw [strtodLenTail_dblcore hcore hr 0 1]
    simp only [List.length_cons]
    omega
  · subst hu
    rw [List.cons_append, strtodLen_eq_tail_pos]
    rw [strtodLenTail_dblcore hcore hr 0 1]
    simp only [List.length_cons]
    omega
  · subst hu
    obtain ⟨c2, cs2, hu2, hcd⟩ := isDoubleCore_head hcore
    injection hu2 with h3 h4
    subst h3
    obtain ⟨hm1, hm2⟩ := isSign_false_elim hsg
    have hsp : isspace c = false := by
      rcases hcd with h5 | h5
      · exact isdigit_not_space h5
      · subst h5
        decide
    rw [List.cons_append, strtodLen_eq_tail_plain hsp hm1 hm2]
    rw [← List.cons_append, strtodLenTail_dblcore hcore hr 0 0]
    simp only [List.length_cons]
    omega

/-- `strtol` consumes strictly less than a floating literal: the classifier's
`skipd > skipi` test favours `Double` on these units. -/
theorem strtol0_fst_doublelit2 {u : List Char} (h : isDoubleLit u = true) (r : List Char) :
    (strtol0 (u ++ r)).1 < u.length := by
  rcases isDoubleLit_elim2 h with ⟨core, hu, hcore⟩ | ⟨core, hu, hcore⟩ | ⟨hcore, c, cs, hu, hsg⟩
  · subst hu
    rw [List.cons_append, strtol0_eq_tail_neg]
    have hlt := strtol0Tail_fst_dblcore hcore r 0 1 true
    simp only [List.length_cons]
    omega
  · subst hu
    rw [List.cons_append, strtol0_eq_tail_pos]
    have hlt := strtol0Tail_fst_dblcore hcore r 0 1 false
    simp only [List.length_cons]
    omega
  · subst hu
    obtain ⟨c2, cs2, hu2, hcd⟩ := isDoubleCore_head hcore
    injection hu2 with h3 h4
    subst h3
    obtain ⟨hm1, hm2⟩ := isSign_false_elim hsg
    have hsp : isspace c = false := by
      rcases hcd with h5 | h5
      · exact isdigit_not_space h5
      · subst h5
        decide
    rw [List.cons_append, strtol0_eq_tail_plain hsp hm1 hm2]
    rw [← List.cons_append]
    have hlt := strtol0Tail_fst_dblcore hcore r 0 0 false
    simp only [List.length_cons] at hlt ⊢
    omega

/-- An integer core is never a floating core (no point, no decimal exponent). -/
theorem isDoubleCore_intcore {core : List Char} (h : isIntCore core = true) :
    isDoubleCore core = false := by
  rcases isIntCore_elim h with ⟨os, hs1, hall, -⟩ | ⟨x, hs, hs1, hx, -⟩ |
    ⟨c, ds, hs1, hcd, -, hall⟩
  · subst hs1
    have hdall : ('0' :: os).all isdigit = true := by
      rw [List.all_cons]
      rw [show isdigit '0' = true from rfl]
      rw [Bool.true_and, List.all_eq_true]
      intro x hx2
      exact oct_digit (by rw [List.all_eq_true] at hall; exact hall x hx2)
    by_contra h2
    rw [Bool.not_eq_false] at h2
    obtain ⟨d1, rest1, hcore, -, hcase⟩ := isDoubleCore_elim h2
    rw [List.all_eq_true] at hdall
    rcases hcase with ⟨d2, rest2, hrest1, -⟩ | ⟨-, hexp⟩
    · subst hrest1
      have hmem : ('.' : Char) ∈ ('0' :: os : List Char) := by
        rw [hcore]
        exact List.mem_append_right _ (List.mem_cons_self _ _)
      exact absurd (hdall _ hmem) (by decide)
    · obtain ⟨e, tl, he, hce, -⟩ := isExpPart_elim hexp
      have hmem : e ∈ ('0' :: os : List Char) := by
        rw [hcore, he]
        exact List.mem_append_right _ (List.mem_cons_self _ _)
      have hde := hdall _ hmem
      rcases hce with h5 | h5 <;> subst h5 <;> exact absurd hde (by decide)
  · subst hs1
    rcases hx with h5 | h5 <;> subst h5 <;> rfl
  · subst hs1
    have hdall : (c :: ds).all isdigit = true := by
      rw [List.all_cons, hcd, hall]
      rfl
    by_contra h2
    rw [Bool.not_eq_false] at h2
    obtain ⟨d1, rest1, hcore, -, hcase⟩ := isDoubleCore_elim h2
    rw [List.all_eq_true] at hdall
    rcases hcase with ⟨d2, rest2, hrest1, -⟩ | ⟨-, hexp⟩
    · subst hrest1
      have hmem : ('.' : Char) ∈ (c :: ds : List Char) := by
        rw [hcore]
        exact List.mem_append_right _ (List.mem_cons_self _ _)
      exact absurd (hdall _ hmem) (by decide)
    · obtain ⟨e, tl, he, hce, -⟩ := isExpPart_elim hexp
      have hmem : e ∈ (c :: ds : List Char) := by
        rw [hcore, he]
        exact List.mem_append_right _ (List.mem_cons_self _ _)
      have hde := hdall _ hmem
      rcases hce with h5 | h5 <;> subst h5 <;> exact absurd hde (by decide)

theorem isDoubleLit_intlit {u : List Char} (h : isIntLit u = true) :
    isDoubleLit u = false := by
  rcases isIntLit_elim2 h with ⟨core, hu, hcore⟩ | ⟨core, hu, hcore⟩ | ⟨hcore, c, cs, hu, hsg⟩
  · subst hu
    rw [isDoubleLit.eq_def]
    try dsimp only
    rw [if_pos (show isSign '-' = true from rfl)]
    exact isDoubleCore_intcore hcore
  · subst hu
    rw [isDoubleLit.eq_def]
    try dsimp only
    rw [if_pos (show isSign '+' = true from rfl)]
    exact isDoubleCore_intcore hcore
  · subst hu
    rw [isDoubleLit.eq_def]
    try dsimp only
    rw [if_neg (show ¬(isSign c = true) from by rw [hsg]; simp)]
    exact isDoubleCore_intcore hcore

theorem tokenOfUnit_intlit {u : List Char} (h : isIntLit u = true) :
    tokenOfUnit u = alloctoken Tok.Int (intLitVal u) [] 0 := by
  obtain ⟨c, cs, hu, hcs⟩ := isIntLit_head h
  have hv : strtol0 u = (u.length, intLitVal u) := by
    have h0 := strtol0_intlit2 h (Or.inl rfl)
    rwa [List.append_nil] at h0
  have hkne : ∀ {k : Char}, isdigit k = false → isSign k = false → c ≠ k := by
    intro k h1 h2
    rcases hcs with hc | hc
    · exact class_ne hc h1
    · exact class_ne hc h2
  subst hu
  have h1 : ¬((c :: cs : List Char) == nullChars) = true := by
    rw [show nullChars = 'n' :: "ull".toList from rfl]
    simp only [beq_iff_eq]
    exact cons_ne_of_head (hkne (by decide) (by decide)) _ _
  have h2 : ¬((c :: cs : List Char) == undefinedChars) = true := by
    rw [show undefinedChars = 'u' :: "ndefined".toList from rfl]
    simp only [beq_iff_eq]
    exact cons_ne_of_head (hkne (by decide) (by decide)) _ _
  have h3 : ¬((c :: cs : List Char) == trueChars) = true := by
    rw [show trueChars = 't' :: "rue".toList from rfl]
    simp only [beq_iff_eq]
    exact cons_ne_of_head (hkne (by decide) (by decide)) _ _
  have h4 : ¬((c :: cs : List Char) == falseChars) = true := by
    rw [show falseChars = 'f' :: "alse".toList from rfl]
    simp only [beq_iff_eq]
    exact cons_ne_of_head (hkne (by decide) (by decide)) _ _
  have h5 : ¬(isStrLit (c :: cs) = true) := by
    rw [isStrLit_head_ne (hkne (by decide) (by decide))]
    simp
  have h6 : ¬(isDoubleLit (c :: cs) = true) := by
    rw [isDoubleLit_intlit h]
    simp
  rw [tokenOfUnit, if_neg h1, if_neg h2, if_neg h3, if_neg h4, if_neg h5, if_neg h6, hv]

theorem tokenOfUnit_doublelit {u : List Char} (h : isDoubleLit u = true) :
    tokenOfUnit u = alloctoken Tok.Double 0 u 0 := by
  obtain ⟨c, cs, hu, hcs⟩ := isDoubleLit_head h
  have hkne : ∀ {k : Char}, isdigit k = false → isSign k = false → k ≠ '.' → c ≠ k := by
    intro k h1 h2 h3
    rcases hcs with hc | hc | hc
    · exact class_ne hc h1
    · exact class_ne hc h2
    · subst hc
      exact fun h4 => h3 h4.symm
  subst hu
  have h1 : ¬((c :: cs : List Char) == nullChars) = true := by
    rw [show nullChars = 'n' :: "ull".toList from rfl]
    simp only [beq_iff_eq]
    exact cons_ne_of_head (hkne (by decide) (by decide) (by decide)) _ _
  have h2 : ¬((c :: cs : List Char) == undefinedChars) = true := by
    rw [show undefinedChars = 'u' :: "ndefined".toList from rfl]
    simp only [beq_iff_eq]
    exact cons_ne_of_head (hkne (by decide) (by decide) (by decide)) _ _
  have h3 : ¬((c :: cs : List Char) == trueChars) = true := by
    rw [show trueChars = 't' :: "rue".toList from rfl]
    simp only [beq_iff_eq]
    exact cons_ne_of_head (hkne (by decide) (by decide) (by decide)) _ _
  have h4 : ¬((c :: cs : List Char) == falseChars) = true := by
    rw [show falseChars = 'f' :: "alse".toList from rfl]
    simp only [beq_iff_eq]
    exact cons_ne_of_head (hkne (by decide) (by decide) (by decide)) _ _
  have h5 : ¬(isStrLit (c :: cs) = true) := by
    rw [isStrLit_head_ne (hkne (by decide) (by decide) (by decide))]
    simp
  rw [tokenOfUnit, if_neg h1, if_neg h2, if_neg h3, if_neg h4, if_neg h5, if_pos h]

/-- The matcher chain on one scalar literal unit consumes exactly the unit and
produces exactly its token; the follower must be a unit boundary except after
a string literal, which is self-delimiting on the right. -/
theorem firsttokenAt_unit {u : List Char} (h : isScalarLiteral u = true) {r : List Char}
    (hb : isStrLit u = true ∨ UnitBound r) :
    firsttokenAt (u ++ r) = .ok (tokenOfUnit u, u.length) := by
  rw [isScalarLiteral] at h
  simp only [Bool.or_eq_true, beq_iff_eq] at h
  rcases h with ((((((h | h) | h) | h) | h) | h) | h)
  · -- integer literal
    obtain ⟨c, cs, hu, hcs⟩ := isIntLit_head h
    have hkne : ∀ {k : Char}, isdigit k = false → isSign k = false → c ≠ k := by
      intro k h1 h2
      rcases hcs with hc | hc
      · exact class_ne hc h1
      · exact class_ne hc h2
    have hr : UnitBound r := by
      refine hb.resolve_left ?_
      rw [hu, isStrLit_head_ne (hkne (by decide) (by decide))]
      simp
    subst hu
    rw [List.cons_append]
    rw [firsttokenAt_numeric c (cs ++ r)
      (skipalnumtokens_head_ne (hkne (by decide) (by decide)) (hkne (by decide) (by decide))
        (hkne (by decide) (by decide)) (hkne (by decide) (by decide)) _)
      (skipchartokens_head_ne (hkne (by decide) (by decide)) (hkne (by decide) (by decide)) _)
      (skipstrtoken_head_ne (hkne (by decide) (by decide)) _)
      (by rw [show trueChars = 't' :: "rue".toList from rfl]
          exact skipalnumtoken_head_ne (hkne (by decide) (by decide)) _ _)
      (by rw [show falseChars = 'f' :: "alse".toList from rfl]
          exact skipalnumtoken_head_ne (hkne (by decide) (by decide)) _ _)]
    have hi : skipinttoken (c :: (cs ++ r)) = ((c :: cs).length, intLitVal (c :: cs)) := by
      rw [skipinttoken, ← List.cons_append]
      exact strtol0_intlit2 h hr
    have hd : skipdoubletoken (c :: (cs ++ r)) = (c :: cs).length := by
      rw [skipdoubletoken, ← List.cons_append]
      exact strtodLen_intlit2 h hr
    rw [hi, hd]
    dsimp only
    rw [if_neg (lt_irrefl _)]
    rw [if_pos (by simp)]
    rw [tokenOfUnit_intlit h]
  · -- floating literal
    obtain ⟨c, cs, hu, hcs⟩ := isDoubleLit_head h
    have hkne : ∀ {k : Char}, isdigit k = false → isSign k = false → k ≠ '.' → c ≠ k := by
      intro k h1 h2 h3
      rcases hcs with hc | hc | hc
      · exact class_ne hc h1
      · exact class_ne hc h2
      · subst hc
        exact fun h4 => h3 h4.symm
    have hr : UnitBound r := by
      refine hb.resolve_left ?_
      rw [hu, isStrLit_head_ne (hkne (by decide) (by decide) (by decide))]
      simp
    subst hu
    rw [List.cons_append]
    rw [firsttokenAt_numeric c (cs ++ r)
      (skipalnumtokens_head_ne (hkne (by decide) (by decide) (by decide))
        (hkne (by decide) (by decide) (by decide)) (hkne (by decide) (by decide) (by decide))
        (hkne (by decide) (by decide) (by decide)) _)
      (skipchartokens_head_ne (hkne (by decide) (by decide) (by decide))
        (hkne (by decide) (by decide) (by decide)) _)
      (skipstrtoken_head_ne (hkne (by decide) (by decide) (by decide)) _)
      (by rw [show trueChars = 't' :: "rue".toList from rfl]
          exact skipalnumtoken_head_ne (hkne (by decide) (by decide) (by decide)) _ _)
      (by rw [show falseChars = 'f' :: "alse".toList from rfl]
          exact skipalnumtoken_head_ne (hkne (by decide) (by decide) (by decide)) _ _)]
    have hd : skipdoubletoken (c :: (cs ++ r)) = (c :: cs).length := by
      rw [skipdoubletoken, ← List.cons_append]
      exact strtodLen_doublelit2 h hr
    have hi : (skipinttoken (c :: (cs ++ r))).1 < (c :: cs).length := by
      rw [skipinttoken, ← List.cons_append]
      exact strtol0_fst_doublelit2 h r
    rw [hd]
    rw [if_pos hi]
    have ht : (c :: (cs ++ r)).take (c :: cs).length = c :: cs := by
      rw [← List.cons_append]
      exact List.take_left ..
    rw [ht]
    rw [tokenOfUnit_doublelit h]
  · -- string literal
    obtain ⟨cs, hu⟩ : ∃ cs, u = '"' :: cs := by
      obtain ⟨mid, hu, -⟩ := isStrLit_elim h
      exact ⟨mid ++ ['"'], by rw [hu, List.cons_append]⟩
    have hs := skipstrtoken_strlit h r
    rw [hu] at hs ⊢
    rw [List.cons_append] at hs ⊢
    rw [firsttokenAt_strlit '"' (cs ++ r) _ _
      (skipalnumtokens_head_ne (by decide) (by decide) (by decide) (by decide) _)
      (skipchartokens_head_ne (by decide) (by decide) _)
      hs]
    rw [← hu, tokenOfUnit_strlit h]
  · -- null keyword
    have hr : UnitBound r := hb.resolve_left (by rw [h]; decide)
    subst h
    have hs := skipalnumtokens_null hr
    rw [show (nullChars ++ r : List Char) = 'n' :: ("ull".toList ++ r) from rfl] at hs ⊢
    rw [firsttokenAt_alnum _ _ _ _ hs]
    rfl
  · -- undefined keyword
    have hr : UnitBound r := hb.resolve_left (by rw [h]; decide)
    subst h
    have hs := skipalnumtokens_undefined hr
    rw [show (undefinedChars ++ r : List Char) = 'u' :: ("ndefined".toList ++ r) from rfl] at hs ⊢
    rw [firsttokenAt_alnum _ _ _ _ hs]
    rfl
  · -- true keyword
    have hr : UnitBound r := hb.resolve_left (by rw [h]; decide)
    subst h
    have hst : skipalnumtoken (trueChars ++ r) trueChars = 4 :=
      skipalnumtoken_self trueChars r (by decide) (boundaryOk_of_unitBound hr)
    rw [show (trueChars ++ r : List Char) = 't' :: ("rue".toList ++ r) from rfl] at hst ⊢
    rw [firsttokenAt_true 't' ("rue".toList ++ r)
      (skipalnumtokens_head_ne (by decide) (by decide) (by decide) (by decide) _)
      (skipchartokens_head_ne (by decide) (by decide) _)
      (skipstrtoken_head_ne (by decide) _)
      (by rw [hst]; decide)]
    rw [hst]
    rfl
  · -- false keyword
    have hr : UnitBound r := hb.resolve_left (by rw [h]; decide)
    subst h
    have hsf : skipalnumtoken (falseChars ++ r) falseChars = 5 :=
      skipalnumtoken_self falseChars r (by decide) (boundaryOk_of_unitBound hr)
    rw [show (falseChars ++ r : List Char) = 'f' :: ("alse".toList ++ r) from rfl] at hsf ⊢
    rw [firsttokenAt_false 'f' ("alse".toList ++ r)
      (skipalnumtokens_head_ne (by decide) (by decide) (by decide) (by decide) _)
      (skipchartokens_head_ne (by decide) (by decide) _)
      (skipstrtoken_head_ne (by decide) _)
      (by rw [show trueChars = 't' :: "rue".toList from rfl]
          exact skipalnumtoken_head_ne (by decide) _ _)
      (by rw [hsf]; decide)]
    rw [hsf]
    rfl



theorem scalarStep_cborWrite (cap : Nat) (enc : CborEnc) (size : Nat) (op : EncOp) (ln : Nat) :
    scalarStep (cborWrite cap enc size op) ln =
      if enc.written + size ≤ cap then .ok ⟨enc.written + size, enc.trace ++ [op]⟩
      else .error [complainencode CborErrorOutOfMemory ln] := by
  rw [cborWrite]
  by_cases hc : enc.written + size ≤ cap
  · rw [if_pos hc, if_pos hc, scalarStep]
    simp [CborNoError]
  · rw [if_neg hc, if_neg hc, scalarStep]
    simp [CborNoError, CborErrorOutOfMemory]

theorem scalar_step_run (cap : Nat) (fuel : Nat) (t : Token) (rest : List Token)
    (lvl : Nat) (enc : CborEnc) (ht : isScalarTok t.type = true) :
    encoderecursiveF cap (fuel + 1) ⟨t :: rest, lvl, enc⟩ =
      if enc.written + scalarSize t ≤ cap then
        encoderecursiveF cap fuel ⟨rest, lvl, ⟨enc.written + scalarSize t, enc.trace ++ [opOf t]⟩⟩
      else .error [complainencode CborErrorOutOfMemory t.lineno] := by
  obtain ⟨ty, vi, vd, vs, ln⟩ := t
  cases ty
  case None => simp [isScalarTok] at ht
  case Array => simp [isScalarTok] at ht
  case Map => simp [isScalarTok] at ht
  case OpeningBracket => simp [isScalarTok] at ht
  case ClosingBracket => simp [isScalarTok] at ht
  case Int =>
    rw [encoderecursiveF]
    dsimp only
    rw [cbor_encode_int, scalarStep_cborWrite]
    by_cases hc : enc.written + intSize vi ≤ cap
    · rw [if_pos hc, if_pos (show enc.written + scalarSize ⟨Tok.Int, vi, vd, vs, ln⟩ ≤ cap from hc)]
      rfl
    · rw [if_neg hc, if_neg (show ¬(enc.written + scalarSize ⟨Tok.Int, vi, vd, vs, ln⟩ ≤ cap) from hc)]
  case Double =>
    rw [encoderecursiveF]
    dsimp only
    rw [cbor_encode_double, scalarStep_cborWrite]
    by_cases hc : enc.written + 9 ≤ cap
    · rw [if_pos hc, if_pos (show enc.written + scalarSize ⟨Tok.Double, vi, vd, vs, ln⟩ ≤ cap from hc)]
      rfl
    · rw [if_neg hc, if_neg (show ¬(enc.written + scalarSize ⟨Tok.Double, vi, vd, vs, ln⟩ ≤ cap) from hc)]
  case String =>
    rw [encoderecursiveF]
    dsimp only
    rw [cbor_encode_text_stringz, scalarStep_cborWrite]
    by_cases hc : enc.written + (headSize (strlenZ vs) + strlenZ vs) ≤ cap
    · rw [if_pos hc, if_pos (show enc.written + scalarSize ⟨Tok.String, vi, vd, vs, ln⟩ ≤ cap from hc)]
      rfl
    · rw [if_neg hc, if_neg (show ¬(enc.written + scalarSize ⟨Tok.String, vi, vd, vs, ln⟩ ≤ cap) from hc)]
  case Null =>
    rw [encoderecursiveF]
    dsimp only
    rw [cbor_encode_null, scalarStep_cborWrite]
    by_cases hc : enc.written + 1 ≤ cap
    · rw [if_pos hc, if_pos (show enc.written + scalarSize ⟨Tok.Null, vi, vd, vs, ln⟩ ≤ cap from hc)]
      rfl
    · rw [if_neg hc, if_neg (show ¬(enc.written + scalarSize ⟨Tok.Null, vi, vd, vs, ln⟩ ≤ cap) from hc)]
  case Bool =>
    rw [encoderecursiveF]
    dsimp only
    rw [cbor_encode_boolean, scalarStep_cborWrite]
    by_cases hc : enc.written + 1 ≤ cap
    · rw [if_pos hc, if_pos (show enc.written + scalarSize ⟨Tok.Bool, vi, vd, vs, ln⟩ ≤ cap from hc)]
      rfl
    · rw [if_neg hc, if_neg (show ¬(enc.written + scalarSize ⟨Tok.Bool, vi, vd, vs, ln⟩ ≤ cap) from hc)]
  case Undefined =>
    rw [encoderecursiveF]
    dsimp only
    rw [cbor_encode_undefined, scalarStep_cborWrite]
    by_cases hc : enc.written + 1 ≤ cap
    · rw [if_pos hc, if_pos (show enc.written + scalarSize ⟨Tok.Undefined, vi, vd, vs, ln⟩ ≤ cap from hc)]
      rfl
    · rw [if_neg hc, if_neg (show ¬(enc.written + scalarSize ⟨Tok.Undefined, vi, vd, vs, ln⟩ ≤ cap) from hc)]

/-- A run of `encoderecursive` over scalar-only tokens: it encodes the whole
sequence exactly when the cumulative encoded size fits the remaining
capacity, and aborts with the codec's out-of-memory diagnostic otherwise. -/
theorem encoderecursiveF_scalars (cap : Nat) (ts : List Token) :
    ∀ (fuel : Nat) (lvl : Nat) (enc : CborEnc),
      ts.all (fun t => isScalarTok t.type) = true →
      ts.length < fuel → enc.written ≤ cap →
      (enc.written + sumSizes ts ≤ cap →
        encoderecursiveF cap fuel ⟨ts, lvl, enc⟩ =
          .ok ⟨[], lvl, ⟨enc.written + sumSizes ts, enc.trace ++ ts.map opOf⟩⟩) ∧
      (cap < enc.written + sumSizes ts →
        ∃ ln, encoderecursiveF cap fuel ⟨ts, lvl, enc⟩ =
          .error [complainencode CborErrorOutOfMemory ln]) := by
  induction ts with
  | nil =>
    intro fuel lvl enc hall hf hw
    rcases fuel with _ | f
    · omega
    constructor
    · intro hfit
      rw [encoderecursiveF]
      dsimp only
      simp [sumSizes]
    · intro hover
      simp only [sumSizes, List.map_nil, List.sum_nil, Nat.add_zero] at hover
      omega
  | cons t rest ih =>
    intro fuel lvl enc hall hf hw
    rcases fuel with _ | f
    · omega
    simp only [List.all_cons, Bool.and_eq_true] at hall
    rw [scalar_step_run cap f t rest lvl enc hall.1]
    have hsum : sumSizes (t :: rest) = scalarSize t + sumSizes rest := by
      simp [sumSizes]
    have hflt : rest.length < f := by
      simp only [List.length_cons] at hf
      omega
    by_cases hc : enc.written + scalarSize t ≤ cap
    · rw [if_pos hc]
      have ihspec := ih f lvl ⟨enc.written + scalarSize t, enc.trace ++ [opOf t]⟩ hall.2 hflt hc
      constructor
      · intro hfit
        rw [hsum] at hfit
        rw [ihspec.1 (by dsimp only; omega)]
        rw [hsum]
        simp [Nat.add_assoc]
      · intro hover
        rw [hsum] at hover
        exact ihspec.2 (by dsimp only; omega)
    · rw [if_neg hc]
      constructor
      · intro hfit
        rw [hsum] at hfit
        omega
      · intro hover
        exact ⟨t.lineno, rfl⟩

theorem isScalarLiteral_head {u : List Char} (h : isScalarLiteral u = true) :
    ∃ c cs, u = c :: cs ∧ isspace c = false := by
  rw [isScalarLiteral] at h
  simp only [Bool.or_eq_true, beq_iff_eq] at h
  rcases h with ((((((h | h) | h) | h) | h) | h) | h)
  · obtain ⟨c, cs, hu, hcd⟩ := isIntLit_head h
    refine ⟨c, cs, hu, ?_⟩
    rcases hcd with hc | hc
    · exact isdigit_not_space hc
    · rcases isSign_elim hc with h5 | h5 <;> subst h5 <;> decide
  · obtain ⟨c, cs, hu, hc⟩ := isDoubleLit_head h
    refine ⟨c, cs, hu, ?_⟩
    rcases hc with hc | hc | hc
    · exact isdigit_not_space hc
    · rcases isSign_elim hc with h5 | h5 <;> subst h5 <;> decide
    · subst hc
      decide
  · obtain ⟨mid, hu, -, -⟩ := isStrLit_elim h
    exact ⟨'"', mid ++ ['"'], by rw [hu, List.cons_append], by decide⟩
  · exact ⟨'n', "ull".toList, by rw [h]; rfl, by decide⟩
  · exact ⟨'u', "ndefined".toList, by rw [h]; rfl, by decide⟩
  · exact ⟨'t', "rue".toList, by rw [h]; rfl, by decide⟩
  · exact ⟨'f', "alse".toList, by rw [h]; rfl, by decide⟩

theorem tokenOfUnit_type_ne_none (u : List Char) : (tokenOfUnit u).type ≠ Tok.None := by
  rw [tokenOfUnit]
  split_ifs <;> intro hco <;> cases hco

/-- The scan loop accepts an exhausted line whatever fuel remains. -/
theorem tokenizeLineF_nil (lineno fuel : Nat) : tokenizeLineF lineno fuel [] = .ok [] := by
  cases fuel <;> rfl

/-- Leading whitespace is absorbed by the scan loop. -/
theorem tokenizeLineF_ws (lineno fuel : Nat) {c : Char} (hc : isspace c = true)
    (s : List Char) :
    tokenizeLineF lineno (fuel + 1) (c :: s) = tokenizeLineF lineno (fuel + 1) s := by
  have hsp : ([c] : List Char).all isspace = true := by simp [hc]
  rcases s with _ | ⟨c2, s2⟩
  · have hft : firsttoken [c] = .ok (alloctoken Tok.None 0 [] 0, 1) := by
      have h0 := firsttoken_ws_lead [c] [] hsp
      rw [List.append_nil] at h0
      rw [h0]
      rfl
    rw [tokenizeLineF.eq_def]
    dsimp only
    rw [hft]
    dsimp only
    rw [show (List.drop 1 [c] : List Char) = [] from rfl, tokenizeLineF_nil]
    rfl
  · have hstep := firsttoken_ws_lead [c] (c2 :: s2) hsp
    rw [show ([c] ++ (c2 :: s2) : List Char) = c :: c2 :: s2 from rfl] at hstep
    conv_lhs => rw [tokenizeLineF.eq_def]
    conv_rhs => rw [tokenizeLineF.eq_def]
    dsimp only
    rw [hstep]
    rcases hft : firsttoken (c2 :: s2) with e | ⟨t, n⟩
    · dsimp only
    · dsimp only
      rw [show (List.length [c] : Nat) + n = n + 1 by simp [Nat.add_comm]]
      rw [List.drop_succ_cons]

/-- The scan loop on a whitespace-separated scalar line produces exactly one
stamped token per lexical unit. -/
theorem tokenizeLineF_scalarline {l : List Char} {us : List (List Char)}
    (h : ScalarLine l us) (lineno : Nat) :
    ∀ fuel, l.length < fuel →
      tokenizeLineF lineno fuel l = .ok (tokensOfUnits lineno us) := by
  induction h with
  | nil =>
    intro fuel hf
    rw [tokenizeLineF_nil]
    rfl
  | @ws c l us hc hsl ih =>
    intro fuel hf
    rcases fuel with _ | f
    · omega
    rw [tokenizeLineF_ws lineno f hc l]
    refine ih (f + 1) ?_
    simp only [List.length_cons] at hf
    omega
  | @unit u l us hu hb hsl ih =>
    intro fuel hf
    rcases fuel with _ | f
    · omega
    obtain ⟨c, cs, hueq, hcsp⟩ := isScalarLiteral_head hu
    have hfta := firsttokenAt_unit hu hb
    have hw : skipws (u ++ l) = 0 := by
      rw [hueq, List.cons_append]
      simp [skipws, List.takeWhile_cons, hcsp]
    have hft : firsttoken (u ++ l) = .ok (tokenOfUnit u, 0 + u.length) := by
      rw [firsttoken, hw]
      simp only [List.drop_zero]
      rw [hfta]
    have hshape : u ++ l = c :: (cs ++ l) := by rw [hueq, List.cons_append]
    rw [hshape]
    rw [tokenizeLineF.eq_def]
    dsimp only
    rw [← hshape, hft]
    dsimp only
    have hdrop : (u ++ l).drop (0 + u.length) = l := by
      rw [Nat.zero_add]
      have h0 := drop_append_len u l 0
      rw [Nat.add_zero] at h0
      rw [h0, List.drop_zero]
    rw [hdrop]
    have hlf : l.length < f := by
      rw [hueq] at hf
      simp only [List.cons_append, List.length_cons, List.length_append] at hf
      omega
    rw [ih f hlf]
    dsimp only
    rw [if_neg (tokenOfUnit_type_ne_none u)]
    rfl

/-- `readtokens` over lines of whitespace-separated scalar literals: one
stamped token per unit, lines numbered from 1. -/
theorem readtokensGo_scalarlines {lines : List (List Char)} {uss : List (List (List Char))}
    (h : List.Forall₂ (fun line us => ScalarLine (trimline line) us) lines uss) :
    ∀ n, readtokensGo n lines = .ok (tokensOfLines n uss) := by
  induction h with
  | nil =>
    intro n
    rfl
  | @cons line us rest uss2 hrel hrest ih =>
    intro n
    rw [readtokensGo]
    rw [tokenizeLineF_scalarline hrel (n + 1) ((trimline line).length + 1) (by omega)]
    dsimp only
    rw [ih (n + 1)]
    rfl

theorem tokensOfLines_length (n : Nat) (uss : List (List (List Char))) :
    (tokensOfLines n uss).length = (uss.map List.length).sum := by
  induction uss generalizing n with
  | nil => rfl
  | cons us rest ih => simp [tokensOfLines, tokensOfUnits, ih]

theorem tokenOfUnit_scalar (u : List Char) : isScalarTok (tokenOfUnit u).type = true := by
  rw [tokenOfUnit]
  split_ifs <;> rfl

theorem tokensOfLines_scalars (n : Nat) (uss : List (List (List Char))) :
    (tokensOfLines n uss).all (fun t => isScalarTok t.type) = true := by
  induction uss generalizing n with
  | nil => rfl
  | cons us rest ih =>
    rw [tokensOfLines]
    rw [List.all_append]
    rw [ih (n + 1)]
    rw [Bool.and_true]
    rw [tokensOfUnits]
    rw [List.all_eq_true]
    intro t ht
    rw [List.mem_map] at ht
    obtain ⟨u, -, hu⟩ := ht
    rw [← hu]
    exact tokenOfUnit_scalar u

theorem skipalnumtokens_pos {s : List Char} {skip : Nat} {ty : Tok}
    (h : skipalnumtokens s = some (skip, ty)) : 1 ≤ skip := by
  rw [skipalnumtokens] at h
  dsimp only at h
  split_ifs at h with h1 h2 h3 h4
  · cases h
    omega
  · cases h
    omega
  · cases h
    omega
  · cases h
    omega

theorem skipchartokens_pos {s : List Char} {skip : Nat} {ty : Tok}
    (h : skipchartokens s = some (skip, ty)) : 1 ≤ skip := by
  rw [skipchartokens] at h
  split_ifs at h with h1 h2
  · cases h
    omega
  · cases h
    omega

theorem skipstrtoken_pos {s : List Char} {skip : Nat} {mid : List Char}
    (h : skipstrtoken s = some (skip, mid)) : 1 ≤ skip := by
  rw [skipstrtoken.eq_def] at h
  split at h
  · dsimp only at h
    split at h
    · cases h
      omega
    · cases h
  · cases h

theorem firsttokenAt_pos {c : Char} {cs : List Char} {t : Token} {n : Nat}
    (h : firsttokenAt (c :: cs) = .ok (t, n)) : 1 ≤ n := by
  rw [firsttokenAt] at h
  rcases ha : skipalnumtokens (c :: cs) with _ | ⟨skip, ty⟩ <;> rw [ha] at h <;> dsimp only at h
  · rcases hb : skipchartokens (c :: cs) with _ | ⟨skip, ty⟩ <;> rw [hb] at h <;> dsimp only at h
    · rcases hc2 : skipstrtoken (c :: cs) with _ | ⟨skip, mid⟩ <;> rw [hc2] at h <;>
        dsimp only at h
      · by_cases hst : skipalnumtoken (c :: cs) trueChars ≠ 0
        · rw [if_pos hst] at h
          injection h with h1
          injection h1 with h2 h3
          omega
        · rw [if_neg hst] at h
          by_cases hsf : skipalnumtoken (c :: cs) falseChars ≠ 0
          · rw [if_pos hsf] at h
            injection h with h1
            injection h1 with h2 h3
            omega
          · rw [if_neg hsf] at h
            by_cases hd : (skipinttoken (c :: cs)).1 < skipdoubletoken (c :: cs)
            · rw [if_pos hd] at h
              injection h with h1
              injection h1 with h2 h3
              omega
            · rw [if_neg hd] at h
              by_cases hi : (skipinttoken (c :: cs)).1 ≠ 0
              · rw [if_pos hi] at h
                injection h with h1
                injection h1 with h2 h3
                omega
              · rw [if_neg hi] at h
                cases h
      · injection h with h1
        injection h1 with h2 h3
        subst h3
        exact skipstrtoken_pos hc2
    · injection h with h1
      injection h1 with h2 h3
      subst h3
      exact skipchartokens_pos hb
  · injection h with h1
    injection h1 with h2 h3
    subst h3
    exact skipalnumtokens_pos ha

theorem firsttokenAt_error {s e : List Char} (h : firsttokenAt s = .error e) :
    e = s ∧ s ≠ [] := by
  rw [firsttokenAt.eq_def] at h
  split at h
  · cases h
  next c cs =>
    rcases ha : skipalnumtokens (c :: cs) with _ | p <;> rw [ha] at h <;> dsimp only at h
    · rcases hb : skipchartokens (c :: cs) with _ | p <;> rw [hb] at h <;> dsimp only at h
      · rcases hc2 : skipstrtoken (c :: cs) with _ | p <;> rw [hc2] at h <;> dsimp only at h
        · by_cases hst : skipalnumtoken (c :: cs) trueChars ≠ 0
          · rw [if_pos hst] at h
            cases h
          · rw [if_neg hst] at h
            by_cases hsf : skipalnumtoken (c :: cs) falseChars ≠ 0
            · rw [if_pos hsf] at h
              cases h
            · rw [if_neg hsf] at h
              by_cases hd : (skipinttoken (c :: cs)).1 < skipdoubletoken (c :: cs)
              · rw [if_pos hd] at h
                cases h
              · rw [if_neg hd] at h
                by_cases hi : (skipinttoken (c :: cs)).1 ≠ 0
                · rw [if_pos hi] at h
                  cases h
                · rw [if_neg hi] at h
                  injection h with h1
                  exact ⟨h1.symm, by simp⟩
        · obtain ⟨a, b⟩ := p
          cases h
      · obtain ⟨a, b⟩ := p
        cases h
    · obtain ⟨a, b⟩ := p
      cases h

theorem firsttoken_pos {c : Char} {cs : List Char} {t : Token} {n : Nat}
    (h : firsttoken (c :: cs) = .ok (t, n)) : 1 ≤ n := by
  rw [firsttoken] at h
  rcases hA : firsttokenAt ((c :: cs).drop (skipws (c :: cs))) with e | ⟨t2, n2⟩ <;>
    rw [hA] at h <;> dsimp only at h
  · cases h
  · injection h with h1
    injection h1 with h2 h3
    by_cases hw : skipws (c :: cs) = 0
    · rw [hw] at hA h3
      rw [List.drop_zero] at hA
      have := firsttokenAt_pos hA
      omega
    · omega

theorem firsttoken_error {s e : List Char} (h : firsttoken s = .error e) :
    e = s.drop (skipws s) ∧ e ≠ [] := by
  rw [firsttoken] at h
  rcases hA : firsttokenAt (s.drop (skipws s)) with e2 | p <;> rw [hA] at h <;> dsimp only at h
  · injection h with h1
    subst h1
    obtain ⟨he, hne⟩ := firsttokenAt_error hA
    subst he
    exact ⟨rfl, hne⟩
  · obtain ⟨a, b⟩ := p
    cases h

/-- Shape of a scan-loop failure: some nonempty fragment was not recognized. -/
theorem tokenizeLineF_error (lineno : Nat) :
    ∀ (fuel : Nat) (l : List Char), l.length < fuel →
      ∀ {msgs : Diag}, tokenizeLineF lineno fuel l = .error msgs →
      ∃ frag, frag ≠ [] ∧ msgs = [complainstr tokenNotRecognizedMsg frag] := by
  intro fuel
  induction fuel with
  | zero =>
    intro l hl
    omega
  | succ f ih =>
    intro l hl msgs h
    rcases l with _ | ⟨c, cs⟩
    · rw [tokenizeLineF_nil] at h
      cases h
    · rw [tokenizeLineF.eq_def] at h
      dsimp only at h
      rcases hft : firsttoken (c :: cs) with e | ⟨t, n⟩ <;> rw [hft] at h <;> dsimp only at h
      · injection h with h1
        exact ⟨e, (firsttoken_error hft).2, h1.symm⟩
      · rcases hrec : tokenizeLineF lineno f ((c :: cs).drop n) with e2 | ts <;>
          rw [hrec] at h <;> dsimp only at h
        · injection h with h1
          have hn := firsttoken_pos hft
          have hlen : ((c :: cs).drop n).length < f := by
            simp only [List.length_drop, List.length_cons] at hl ⊢
            omega
          obtain ⟨frag, hf1, hf2⟩ := ih _ hlen hrec
          exact ⟨frag, hf1, by rw [← h1, hf2]⟩
        · by_cases hty : t.type = Tok.None
          · rw [if_pos hty] at h
            cases h
          · rw [if_neg hty] at h
            cases h

/-- Shape of a `readtokens` failure: the fragment diagnostic followed by the
read-tokens failure line. -/
theorem readtokensGo_error :
    ∀ (lines : List (List Char)) (n : Nat) {msgs : Diag},
      readtokensGo n lines = .error msgs →
      ∃ frag, frag ≠ [] ∧
        msgs = [complainstr tokenNotRecognizedMsg frag, readTokensFailureMsg] := by
  intro lines
  induction lines with
  | nil =>
    intro n msgs h
    cases h
  | cons line rest ih =>
    intro n msgs h
    rw [readtokensGo] at h
    rcases htl : tokenizeLineF (n + 1) ((trimline line).length + 1) (trimline line)
        with e | ts <;> rw [htl] at h <;> dsimp only at h
    · injection h with h1
      obtain ⟨frag, hf1, hf2⟩ := tokenizeLineF_error (n + 1) _ _ (by omega) htl
      refine ⟨frag, hf1, ?_⟩
      rw [← h1, hf2]
      rfl
    · rcases hrest : readtokensGo (n + 1) rest with e2 | ts2 <;> rw [hrest] at h <;>
        dsimp only at h
      · injection h with h1
        obtain ⟨frag, hf1, hf2⟩ := ih (n + 1) hrest
        exact ⟨frag, hf1, by rw [← h1, hf2]⟩
      · cases h

/-! ## Theorems for the claims -/

/-- **C9** — the claim is FALSE of the code (code bug): after a successful
`readtokens` the last appended token's `next` field is *uninitialized*, not
NULL.  `alloctoken` (simplecoder.c lines 66-110) assigns only the payload
and `type` of the malloc'd node, and `readtokens` (lines 306-313) writes
only the *predecessor's* `next` when appending, so the tail's `next` is
never written.  On input `3`, and on `1 2` / `3`, every interior link is
set but the tail's `next` is still indeterminate (`none` in the model,
which is not the NULL pointer `some none`); the traversals in
`encoderecursive` and `cleanupcontext` then dereference indeterminate
memory. -/
theorem C9_last_next_uninitialized :
    (readtokensHeap [['3']]).toOption.map (fun ctx => ctx.heap.map CToken.next) =
      some [none] ∧
    (readtokensHeap [['1', ' ', '2'], ['3']]).toOption.map
        (fun ctx => ctx.heap.map CToken.next) =
      some [some (some 1), some (some 2), none] ∧
    (none : Option (Option Nat)) ≠ some none := by decide

/-- **C3** — the code contradicts the claim on the container paths (code bug):
for input `Array [ ]` with capacity 1 the container opens (1 byte) but the
close call would exceed the buffer, so `cbor_encoder_close_container`
returns `CborErrorOutOfMemory`; yet because line 349 computes
`err = (cbor_encoder_close_container(...) != CborNoError)` — assignment of
the comparison result — the emitted diagnostic is `complainencode 1 …`,
the codec's description of error value 1, not of the error actually
returned.  (Line 341 has the same slip for container opens; the scalar
path, lines 396-427, passes the real error value.) -/
theorem C3_container_diag_gets_comparison_result :
    readtokens ["Array [ ]".toList] = .ok c3toks ∧
    (cbor_encoder_close_container 1 ⟨1, [EncOp.arrayOpen]⟩).1 = CborErrorOutOfMemory ∧
    encode 1 c3toks = .error [complainencode 1 1] ∧
    CborErrorOutOfMemory ≠ 1 ∧
    cbor_error_string CborErrorOutOfMemory ≠ cbor_error_string 1 := by decide

/-- **C1 counterexample** — the claim says any unbalanced input fails *with a
structural error*; the unclosed container `Array [` with capacity 0 is
unbalanced, and encoding does fail, but with a codec diagnostic
(`complainencode`), which is not in the spec's StructuralError class: the
container-open codec error preempts every structural check. -/
theorem C1_counterexample :
    readtokens ["Array [".toList] = .ok c1toks ∧
    wellBracketedSpec c1toks = false ∧
    encode 0 c1toks = .error [complainencode 1 1] ∧
    isStructuralDiag (complainencode 1 1) = false := by decide

/-- **C2 counterexample** — the line `null null` with capacity 1: the input
consists only of top-level scalars, tokenization yields one token per
lexical unit (two), and *every* scalar is individually encodable in the
capacity (each `null` needs one byte), yet the encode step fails — the
codec writes are cumulative — refuting the claimed "if and only if". -/
theorem C2_counterexample :
    readtokens ["null null".toList] = .ok c2toks ∧
    c2toks.length = 2 ∧
    c2toks.all (fun t => isScalarTok t.type) = true ∧
    c2toks.all (fun t => scalarSize t ≤ 1) = true ∧
    (encode 1 c2toks).isOk = false := by decide

/-- **C4 counterexample** — the claim says the lexical diagnostic names the
fragment *and its source line number*.  For the file with lines `1` and `@`
the unrecognized fragment is `@` on line 2; the run aborts with status 1
before any encoding, the fragment is named, but no emitted diagnostic even
contains the character `2`: the line number appears in no lexical
diagnostic (`complainstr` in `firsttoken` and `complain` in `readtokens`
carry no line number). -/
theorem C4_counterexample :
    mainRun c4world =
      (1, [], [complainstr tokenNotRecognizedMsg ['@'], readTokensFailureMsg,
        readFileFailureMsg]) ∧
    natToChars 2 = ['2'] ∧
    ((mainRun c4world).2.2.all (fun m => '2' ∉ m)) = true ∧
    ('@' ∈ complainstr tokenNotRecognizedMsg ['@']) := by decide

/-- **C6** — a keyword token is recognized only when the keyword text is a
literal prefix of the scan position and the following character is absent or
non-alphanumeric; consequently a scan position opening with `Arrayx` (with
any leading whitespace) never yields an `Array` token — it fails lexically,
with the whole `Arrayx...` fragment reported. -/
theorem C6_keyword_boundary :
    (∀ s t : List Char, skipalnumtoken s t ≠ 0 →
      t ≠ [] ∧ s.take t.length = t ∧ boundaryOk (s.drop t.length) = true) ∧
    (∀ rest : List Char, firsttokenAt (arrayxChars ++ rest) = .error (arrayxChars ++ rest)) ∧
    (∀ sp rest : List Char, sp.all isspace = true →
      firsttoken (sp ++ (arrayxChars ++ rest)) = .error (arrayxChars ++ rest)) := by
  refine ⟨?_, firsttokenAt_arrayx, ?_⟩
  · intro s t h
    rw [skipalnumtoken] at h
    by_cases hc : ((!t.isEmpty) && strncmpEq t s && boundaryOk (afterChars t s)) = true
    · simp only [Bool.and_eq_true, Bool.not_eq_eq_eq_not, Bool.not_true] at hc
      obtain ⟨⟨hne, hpre⟩, hbd⟩ := hc
      refine ⟨by simpa using hne, (strncmpEq_iff t s).mp hpre, ?_⟩
      rwa [afterChars_eq_drop] at hbd
    · rw [if_neg hc] at h
      exact absurd rfl h
  · intro sp rest hsp
    rw [firsttoken_ws_lead sp (arrayxChars ++ rest) hsp]
    have h0 : skipws (arrayxChars ++ rest) = 0 := rfl
    simp only [firsttoken, h0, List.drop_zero, firsttokenAt_arrayx]

/-- Witness for C6 at concrete inputs: `Arrayx` preceded by one space fails
lexically (so it never tokenizes as `Array`), and the boundary facts hold
for the match `skipalnumtoken "Array]..." "Array" = 5`. -/
theorem C6_keyword_boundary_witness :
    firsttoken ([' '] ++ (arrayxChars ++ [])) = .error (arrayxChars ++ []) ∧
    ("Array]".toList.take 5 = "Array".toList ∧
      boundaryOk ("Array]".toList.drop 5) = true) := by
  refine ⟨C6_keyword_boundary.2.2 [' '] [] (by decide), ?_⟩
  have h := C6_keyword_boundary.1 "Array]".toList "Array".toList (by decide)
  exact ⟨h.2.1, h.2.2⟩

/-- **C5** — numeric disambiguation: once the keyword, bracket, string-literal
and boolean matchers have all failed, the unit is classified `Double`
exactly when the floating parse consumes strictly more than the integer
parse, and `Int` when it does not but the integer parse consumed at least
one character (otherwise the scan fails); concretely `3.0` is a `Double`,
`3` is an `Int`, and `0x1F` is an `Int` through base-prefixed (hex) parsing
of all four characters with value 31. -/
theorem C5_numeric_disambiguation :
    (∀ (c : Char) (cs : List Char),
      skipalnumtokens (c :: cs) = none → skipchartokens (c :: cs) = none →
      skipstrtoken (c :: cs) = none → skipalnumtoken (c :: cs) trueChars = 0 →
      skipalnumtoken (c :: cs) falseChars = 0 →
      ((skipinttoken (c :: cs)).1 < skipdoubletoken (c :: cs) →
        firsttokenAt (c :: cs) =
          .ok (alloctoken Tok.Double 0 ((c :: cs).take (skipdoubletoken (c :: cs))) 0,
            skipdoubletoken (c :: cs))) ∧
      (¬ (skipinttoken (c :: cs)).1 < skipdoubletoken (c :: cs) →
        (skipinttoken (c :: cs)).1 ≠ 0 →
        firsttokenAt (c :: cs) =
          .ok (alloctoken Tok.Int (skipinttoken (c :: cs)).2 [] 0,
            (skipinttoken (c :: cs)).1)) ∧
      (¬ (skipinttoken (c :: cs)).1 < skipdoubletoken (c :: cs) →
        (skipinttoken (c :: cs)).1 = 0 →
        firsttokenAt (c :: cs) = .error (c :: cs))) ∧
    firsttoken "3.0".toList = .ok (alloctoken Tok.Double 0 "3.0".toList 0, 3) ∧
    firsttoken "3".toList = .ok (alloctoken Tok.Int 3 [] 0, 1) ∧
    firsttoken "0x1F".toList = .ok (alloctoken Tok.Int 31 [] 0, 4) ∧
    skipinttoken "0x1F".toList = (4, 31) ∧
    skipdoubletoken "0x1F".toList = 4 := by
  refine ⟨?_, by decide, by decide, by decide, by decide, by decide⟩
  intro c cs h1 h2 h3 h4 h5
  rw [firsttokenAt_numeric c cs h1 h2 h3 h4 h5]
  refine ⟨fun hlt => by rw [if_pos hlt], fun hge hne => ?_, fun hge hz => ?_⟩
  · rw [if_neg hge, if_pos hne]
  · rw [if_neg hge, if_neg (by simp [hz])]

/-- Witness for C5: the general disambiguation rule applied at the concrete
scan position `3` (integer parse consumes 1, floating parse consumes 1, so
the unit is an `Int`). -/
theorem C5_numeric_disambiguation_witness :
    firsttokenAt ('3' :: []) = .ok (alloctoken Tok.Int 3 [] 0, 1) :=
  (C5_numeric_disambiguation.1 '3' [] (by decide) (by decide) (by decide) (by decide)
    (by decide)).2.1 (by decide) (by decide)

/-- **C7** — a double-quoted literal tokenizes as a `String` whose captured
payload is exactly the characters between the quotes (no escape
processing: every captured character is a non-quote), stored in a buffer of
captured-length + 1 whose last byte is the NUL terminator; a literal with
no closing quote matches no token form.  Concretely, `"hello"` produces
payload buffer `hello\x00` and `"unterminated` fails tokenization. -/
theorem C7_string_literal :
    (∀ (s : List Char) (n : Nat) (mid : List Char), skipstrtoken s = some (n, mid) →
      s.take n = '"' :: mid ++ ['"'] ∧ n = mid.length + 2 ∧
      mid.all (fun c => c ≠ '"') = true) ∧
    (∀ (c : Char) (cs : List Char) (n : Nat) (mid : List Char),
      skipalnumtokens (c :: cs) = none → skipchartokens (c :: cs) = none →
      skipstrtoken (c :: cs) = some (n, mid) →
      firsttokenAt (c :: cs) = .ok (alloctoken Tok.String 0 mid mid.length, n) ∧
      (alloctoken Tok.String 0 mid mid.length).vals = mid ++ ['\x00'] ∧
      (alloctoken Tok.String 0 mid mid.length).vals.length = mid.length + 1 ∧
      (alloctoken Tok.String 0 mid mid.length).vals.getLast? = some '\x00') ∧
    readtokens ["\"hello\"".toList] =
      .ok [⟨Tok.String, 0, [], "hello".toList ++ ['\x00'], 1⟩] ∧
    (readtokens ["\"unterminated".toList]).isOk = false := by
  refine ⟨?_, ?_, by decide, by decide⟩
  · intro s n mid h
    rw [skipstrtoken.eq_def] at h
    split at h
    next rest =>
      dsimp only at h
      split at h
      next d ds hdrop =>
        simp only [Option.some.injEq, Prod.mk.injEq] at h
        obtain ⟨hn, hmid⟩ := h
        subst hn
        subst hmid
        refine ⟨?_, rfl, takeWhile_all rest⟩
        show '"' :: rest.take ((rest.takeWhile (fun x => x ≠ '"')).length + 1) =
          '"' :: rest.takeWhile (fun x => x ≠ '"') ++ ['"']
        rw [take_after_takeWhile rest hdrop]
        rfl
      next hne => exact absurd h (by simp)
    next hnq => exact absurd h (by simp)
  · intro c cs n mid h1 h2 h
    refine ⟨firsttokenAt_strlit c cs n mid h1 h2 h, ?_, ?_, ?_⟩
    · simp [alloctoken, List.take_length]
    · simp [alloctoken, List.take_length]
    · simp [alloctoken, List.take_length]

/-- Witness for C7: the string-stage facts applied at the concrete scan
position `"ab" tail`. -/
theorem C7_string_literal_witness :
    ("\"ab\" tail".toList.take 4 = '"' :: ['a', 'b'] ++ ['"'] ∧
      (4 : Nat) = (['a', 'b'] : List Char).length + 2) ∧
    firsttokenAt "\"ab\" tail".toList =
      .ok (alloctoken Tok.String 0 ['a', 'b'] 2, 4) := by
  have h1 := C7_string_literal.1 "\"ab\" tail".toList 4 ['a', 'b'] (by decide)
  have h2 := (C7_string_literal.2.1 '"' "ab\" tail".toList 4 ['a', 'b']
    (by decide) (by decide) (by decide)).1
  exact ⟨⟨h1.1, h1.2.1⟩, h2⟩

/-- **C10** — an `Array` (or `Map`) keyword immediately followed by `[` and
then `]` encodes successfully as a zero-element indefinite-length container
whenever its two container bytes fit: the container opens, the recursive
call returns at the `ClosingBracket` with the nesting level back at the
parent's value, the helper hands that cursor back, and the enclosing scope
continues at the token just past the bracket — the whole group behaves as a
direct continuation on the following tokens with exactly the open/close
pair (and no element in between) appended to the trace. -/
theorem C10_empty_container :
    ∀ (cap fuel lvl : Nat) (enc : CborEnc) (la lb lc : Nat) (r : List Token),
      enc.written + 2 ≤ cap →
      (containerPre (cbor_encoder_create_array cap)
          ⟨⟨Tok.Array, 0, [], [], la⟩ :: ⟨Tok.OpeningBracket, 0, [], [], lb⟩ ::
            ⟨Tok.ClosingBracket, 0, [], [], lc⟩ :: r, lvl, enc⟩ =
        .ok (⟨Tok.Array, 0, [], [], la⟩, ⟨Tok.ClosingBracket, 0, [], [], lc⟩ :: r,
          ⟨enc.written + 1, enc.trace ++ [EncOp.arrayOpen]⟩)) ∧
      (encoderecursiveF cap (fuel + 1)
          ⟨⟨Tok.ClosingBracket, 0, [], [], lc⟩ :: r, lvl + 1,
            ⟨enc.written + 1, enc.trace ++ [EncOp.arrayOpen]⟩⟩ =
        .ok ⟨⟨Tok.ClosingBracket, 0, [], [], lc⟩ :: r, lvl,
          ⟨enc.written + 1, enc.trace ++ [EncOp.arrayOpen]⟩⟩) ∧
      (encoderecursiveF cap (fuel + 2)
          ⟨⟨Tok.Array, 0, [], [], la⟩ :: ⟨Tok.OpeningBracket, 0, [], [], lb⟩ ::
            ⟨Tok.ClosingBracket, 0, [], [], lc⟩ :: r, lvl, enc⟩ =
        encoderecursiveF cap (fuel + 1)
          ⟨r, lvl, ⟨enc.written + 2, enc.trace ++ [EncOp.arrayOpen, EncOp.closeC]⟩⟩) ∧
      (encoderecursiveF cap (fuel + 2)
          ⟨⟨Tok.Map, 0, [], [], la⟩ :: ⟨Tok.OpeningBracket, 0, [], [], lb⟩ ::
            ⟨Tok.ClosingBracket, 0, [], [], lc⟩ :: r, lvl, enc⟩ =
        encoderecursiveF cap (fuel + 1)
          ⟨r, lvl, ⟨enc.written + 2, enc.trace ++ [EncOp.mapOpen, EncOp.closeC]⟩⟩) := by
  intro cap fuel lvl enc la lb lc r h
  have h1 : enc.written + 1 ≤ cap := by omega
  have h2 : enc.written + 1 + 1 ≤ cap := by omega
  have hpre : containerPre (cbor_encoder_create_array cap)
      ⟨⟨Tok.Array, 0, [], [], la⟩ :: ⟨Tok.OpeningBracket, 0, [], [], lb⟩ ::
        ⟨Tok.ClosingBracket, 0, [], [], lc⟩ :: r, lvl, enc⟩ =
      .ok (⟨Tok.Array, 0, [], [], la⟩, ⟨Tok.ClosingBracket, 0, [], [], lc⟩ :: r,
        ⟨enc.written + 1, enc.trace ++ [EncOp.arrayOpen]⟩) := by
    simp [containerPre, cbor_encoder_create_array, cborWrite, h1, CborNoError]
  have hpreM : containerPre (cbor_encoder_create_map cap)
      ⟨⟨Tok.Map, 0, [], [], la⟩ :: ⟨Tok.OpeningBracket, 0, [], [], lb⟩ ::
        ⟨Tok.ClosingBracket, 0, [], [], lc⟩ :: r, lvl, enc⟩ =
      .ok (⟨Tok.Map, 0, [], [], la⟩, ⟨Tok.ClosingBracket, 0, [], [], lc⟩ :: r,
        ⟨enc.written + 1, enc.trace ++ [EncOp.mapOpen]⟩) := by
    simp [containerPre, cbor_encoder_create_map, cborWrite, h1, CborNoError]
  have hinner : ∀ (op : EncOp),
      encoderecursiveF cap (fuel + 1)
        ⟨⟨Tok.ClosingBracket, 0, [], [], lc⟩ :: r, lvl + 1,
          ⟨enc.written + 1, enc.trace ++ [op]⟩⟩ =
      .ok ⟨⟨Tok.ClosingBracket, 0, [], [], lc⟩ :: r, lvl,
        ⟨enc.written + 1, enc.trace ++ [op]⟩⟩ := by
    intro op
    simp [encoderecursiveF]
  refine ⟨hpre, hinner EncOp.arrayOpen, ?_, ?_⟩
  · show encoderecursiveF cap (fuel + 1 + 1) _ = _
    rw [encoderecursiveF]
    simp only [hpre, hinner EncOp.arrayOpen]
    simp [containerPost, cbor_encoder_close_container, cborWrite, h2, CborNoError,
      Nat.add_assoc]
  · show encoderecursiveF cap (fuel + 1 + 1) _ = _
    rw [encoderecursiveF]
    simp only [hpreM, hinner EncOp.mapOpen]
    simp [containerPost, cbor_encoder_close_container, cborWrite, h2, CborNoError,
      Nat.add_assoc]

/-- Witness for C10 at the concrete run `Array [ ]` with capacity 10. -/
theorem C10_empty_container_witness :
    encoderecursiveF 10 2 ⟨c3toks, 0, ⟨0, []⟩⟩ =
      encoderecursiveF 10 1 ⟨[], 0, ⟨2, [EncOp.arrayOpen, EncOp.closeC]⟩⟩ :=
  (C10_empty_container 10 0 0 ⟨0, []⟩ 1 1 1 [] (by decide)).2.2.1

/-- **C8** — invocation surface: any argument count other than exactly two
positional parameters prints the one-line usage message on stdout and exits
with status 0 with nothing on stderr and no processing (the result is the
same whatever the file, allocator or closer would do); every failing run
exits with status 1 and a nonempty stderr; and a three-argument run exits 0
exactly when the buffer allocation, the file open, the tokenization, the
file close and the encode step all succeed. -/
theorem C8_invocation_surface :
    (∀ w : World, w.args.length ≠ 3 → mainRun w = (0, [usageMsg], [])) ∧
    (∀ w : World, (mainRun w).1 ≠ 0 → (mainRun w).2.2 ≠ []) ∧
    (∀ w : World, (mainRun w).1 = 0 ∨ (mainRun w).1 = 1) ∧
    (∀ w : World, w.args.length = 3 →
      ((mainRun w).1 = 0 ↔
        w.mallocOk = true ∧ w.fcloseOk = true ∧
        ∃ lines toks ctx, w.file = some lines ∧ readtokens lines = .ok toks ∧
          encode (mainCap w) toks = .ok ctx)) := by
  have hcases : ∀ w : World, w.args.length = 3 →
      (¬ w.mallocOk ∧ mainRun w = (1, [], [complain mallocFailureMsg, complain ctxInitFailureMsg])) ∨
      (w.mallocOk ∧ w.file = none ∧
        mainRun w = (1, [], [complainstr fileOpenFailureMsg w.errnoStr, complain readFileFailureMsg])) ∨
      (∃ lines msgs, w.mallocOk ∧ w.file = some lines ∧ readtokens lines = .error msgs ∧
        mainRun w = (1, [], (if w.fcloseOk then msgs
          else msgs ++ [complainstr fileCloseFailureMsg w.errnoStr]) ++ [complain readFileFailureMsg])) ∨
      (∃ lines toks, w.mallocOk ∧ ¬ w.fcloseOk ∧ w.file = some lines ∧
        readtokens lines = .ok toks ∧
        mainRun w = (1, [], [complainstr fileCloseFailureMsg w.errnoStr, complain readFileFailureMsg])) ∨
      (∃ lines toks msgs, w.mallocOk ∧ w.fcloseOk ∧ w.file = some lines ∧
        readtokens lines = .ok toks ∧ encode (mainCap w) toks = .error msgs ∧
        mainRun w = (1, [], msgs ++ [complain encodeFailureMsg])) ∨
      (∃ lines toks ctx, w.mallocOk ∧ w.fcloseOk ∧ w.file = some lines ∧
        readtokens lines = .ok toks ∧ encode (mainCap w) toks = .ok ctx ∧
        mainRun w = (0, [dumpLine ctx.encoder], [])) := by
    intro w ha
    by_cases hm : w.mallocOk
    · cases hf : w.file with
      | none =>
        refine Or.inr (Or.inl ⟨hm, rfl, ?_⟩)
        simp [mainRun, ha, hm, hf]
      | some lines =>
        cases ht : readtokens lines with
        | error msgs =>
          refine Or.inr (Or.inr (Or.inl ⟨lines, msgs, hm, rfl, ht, ?_⟩))
          simp [mainRun, ha, hm, hf, ht]
        | ok toks =>
          by_cases hc : w.fcloseOk
          · cases he : encode (mainCap w) toks with
            | error msgs =>
              refine Or.inr (Or.inr (Or.inr (Or.inr (Or.inl
                ⟨lines, toks, msgs, hm, hc, rfl, ht, he, ?_⟩))))
              simp [mainRun, ha, hm, hf, ht, hc, he]
            | ok ctx =>
              refine Or.inr (Or.inr (Or.inr (Or.inr (Or.inr
                ⟨lines, toks, ctx, hm, hc, rfl, ht, he, ?_⟩))))
              simp [mainRun, ha, hm, hf, ht, hc, he]
          · refine Or.inr (Or.inr (Or.inr (Or.inl ⟨lines, toks, hm, hc, rfl, ht, ?_⟩)))
            simp [mainRun, ha, hm, hf, ht, hc]
    · refine Or.inl ⟨hm, ?_⟩
      simp [mainRun, ha, hm]
  have husage : ∀ w : World, w.args.length ≠ 3 → mainRun w = (0, [usageMsg], []) := by
    intro w h
    simp [mainRun, h]
  refine ⟨husage, ?_, ?_, ?_⟩
  · intro w
    by_cases ha : w.args.length = 3
    · rcases hcases w ha with ⟨_, hr⟩ | ⟨_, _, hr⟩ | ⟨_, _, _, _, _, hr⟩ |
        ⟨_, _, _, _, _, _, hr⟩ | ⟨_, _, _, _, _, _, _, _, hr⟩ | ⟨_, _, _, _, _, _, _, _, hr⟩ <;>
      simp [hr]
    · simp [husage w ha]
  · intro w
    by_cases ha : w.args.length = 3
    · rcases hcases w ha with ⟨_, hr⟩ | ⟨_, _, hr⟩ | ⟨_, _, _, _, _, hr⟩ |
        ⟨_, _, _, _, _, _, hr⟩ | ⟨_, _, _, _, _, _, _, _, hr⟩ | ⟨_, _, _, _, _, _, _, _, hr⟩ <;>
      simp [hr]
    · simp [husage w ha]
  · intro w ha
    rcases hcases w ha with ⟨hm, hr⟩ | ⟨hm, hf, hr⟩ | ⟨lines, msgs, hm, hf, ht, hr⟩ |
        ⟨lines, toks, hm, hc, hf, ht, hr⟩ | ⟨lines, toks, msgs, hm, hc, hf, ht, he, hr⟩ |
        ⟨lines, toks, ctx, hm, hc, hf, ht, he, hr⟩
    · simp only [hr]
      simp [hm]
    · simp only [hr]
      simp [hf]
    · simp only [hr]
      constructor
      · intro h
        exact absurd h (by simp)
      · rintro ⟨-, -, lines2, toks2, ctx2, hf2, ht2, -⟩
        rw [hf] at hf2
        cases hf2
        rw [ht] at ht2
        cases ht2
    · simp only [hr]
      constructor
      · intro h
        exact absurd h (by simp)
      · rintro ⟨-, hc2, -⟩
        exact absurd hc2 hc
    · simp only [hr]
      constructor
      · intro h
        exact absurd h (by simp)
      · rintro ⟨-, -, lines2, toks2, ctx2, hf2, ht2, he2⟩
        rw [hf] at hf2
        cases hf2
        rw [ht] at ht2
        cases ht2
        rw [he] at he2
        cases he2
    · simp only [hr]
      constructor
      · intro
        exact ⟨hm, hc, lines, toks, ctx, hf, ht, he⟩
      · intro
        trivial

/-- Witness for C8: a one-argument invocation prints usage and exits 0. -/
theorem C8_invocation_surface_witness :
    mainRun ⟨["simplecoder".toList], some [['1']], [], true, true⟩ = (0, [usageMsg], []) :=
  C8_invocation_surface.1 ⟨["simplecoder".toList], some [['1']], [], true, true⟩ (by decide)

/-! ## The bracket-balance invariant (claim C1) -/

theorem neutralSeg_nil : NeutralSeg [] := fun _ _ => rfl

theorem neutralSeg_scalar {t : Token} (h : isScalarTok t.type = true) {pre : List Token}
    (hp : NeutralSeg pre) : NeutralSeg (t :: pre) := by
  intro q d
  have hstep : wellBracketedAux (t.type :: (pre.map Token.type ++ q)) d =
      wellBracketedAux (pre.map Token.type ++ q) d := by
    cases ht : t.type
    all_goals rw [ht] at h
    all_goals first
      | exact absurd h (by decide)
      | rfl
  calc wellBracketedAux ((t :: pre).map Token.type ++ q) d
      = wellBracketedAux (t.type :: (pre.map Token.type ++ q)) d := by simp
    _ = wellBracketedAux (pre.map Token.type ++ q) d := hstep
    _ = wellBracketedAux q d := hp q d

/-- A successfully encoded container group `Array/Map, [, body, ]` is
depth-neutral when its body is. -/
theorem neutralSeg_container {tk tob cb : Token} (hk : tk.type = Tok.Array ∨ tk.type = Tok.Map)
    (hob : tob.type = Tok.OpeningBracket) (hcb : cb.type = Tok.ClosingBracket)
    {body tail : List Token} (hb : NeutralSeg body) (ht : NeutralSeg tail) :
    NeutralSeg (tk :: tob :: body ++ cb :: tail) := by
  intro q d
  have h1 : wellBracketedAux (tk.type :: tob.type :: (body.map Token.type ++
      cb.type :: (tail.map Token.type ++ q))) d =
      wellBracketedAux (body.map Token.type ++ cb.type :: (tail.map Token.type ++ q)) (d + 1) := by
    rcases hk with hk | hk <;> rw [hk, hob] <;> rfl
  have h2 : wellBracketedAux (body.map Token.type ++ cb.type :: (tail.map Token.type ++ q))
      (d + 1) = wellBracketedAux (cb.type :: (tail.map Token.type ++ q)) (d + 1) :=
    hb (cb.type :: (tail.map Token.type ++ q)) (d + 1)
  have h3 : wellBracketedAux (cb.type :: (tail.map Token.type ++ q)) (d + 1) =
      wellBracketedAux (tail.map Token.type ++ q) d := by
    rw [hcb]
    simp [wellBracketedAux]
  calc wellBracketedAux ((tk :: tob :: body ++ cb :: tail).map Token.type ++ q) d
      = wellBracketedAux (tk.type :: tob.type :: (body.map Token.type ++
          cb.type :: (tail.map Token.type ++ q))) d := by simp
    _ = wellBracketedAux (tail.map Token.type ++ q) d := by rw [h1, h2, h3]
    _ = wellBracketedAux q d := ht q d

/-- Inversion of a successful `containerPre`: the cursor held the container
token, then an opening bracket, then a nonempty remainder. -/
theorem containerPre_ok_inv {create : CreateFn} {ctx : EncoderContext} {token : Token}
    {rest2 : List Token} {nenc : CborEnc}
    (h : containerPre create ctx = .ok (token, rest2, nenc)) :
    ∃ tok2, ctx.curtoken = token :: tok2 :: rest2 ∧ tok2.type = Tok.OpeningBracket ∧
      rest2 ≠ [] := by
  rw [containerPre.eq_def] at h
  rcases hcur : ctx.curtoken with _ | ⟨token0, _ | ⟨tok2, rest2'⟩⟩ <;> rw [hcur] at h <;>
    dsimp only at h
  · exact absurd h (by simp)
  · exact absurd h (by simp)
  · by_cases hob : tok2.type = Tok.OpeningBracket
    · rw [if_neg (by simp [hob])] at h
      by_cases hce : (create ctx.encoder).1 = CborNoError
      · have he : (if (create ctx.encoder).1 ≠ CborNoError then (1 : Nat) else 0) = 0 := by
          simp [hce]
        rw [he, if_neg (by simp)] at h
        rcases rest2' with _ | ⟨hd3, tl3⟩
        · exact absurd h (by simp)
        · simp only [Except.ok.injEq, Prod.mk.injEq] at h
          obtain ⟨h1, h2, h3⟩ := h
          subst h1
          subst h2
          exact ⟨tok2, rfl, hob, by simp⟩
      · have he : (if (create ctx.encoder).1 ≠ CborNoError then (1 : Nat) else 0) = 1 := by
          simp [hce]
        rw [he, if_pos (by simp)] at h
        exact absurd h (by simp)
    · rw [if_pos (by simp [hob])] at h
      exact absurd h (by simp)

/-- Inversion of a successful `containerPost`: the recursive descent succeeded
and returned at the enclosing nesting level, and the cursor is handed back
unchanged. -/
theorem containerPost_ok_inv {cap : Nat} {ctx : EncoderContext} {token : Token}
    {inner : Except Diag EncoderContext} {ctx2 : EncoderContext}
    (h : containerPost cap ctx token inner = .ok ctx2) :
    ∃ nctx, inner = .ok nctx ∧ nctx.nestinglvl = ctx.nestinglvl ∧
      ctx2.curtoken = nctx.curtoken ∧ ctx2.nestinglvl = ctx.nestinglvl := by
  rw [containerPost.eq_def] at h
  split at h
  · exact absurd h (by simp)
  next nctx =>
    split at h
    · exact absurd h (by simp)
    next hlvl =>
      dsimp only at h
      split at h
      · exact absurd h (by simp)
      · cases h
        exact ⟨nctx, rfl, by omega, rfl, rfl⟩

/-- Main invariant of the recursive encoder: a successful call consumes a
depth-neutral token segment and returns either with the cursor exhausted at
the entry nesting level, or stopped on a closing bracket with the level
decremented by exactly one (only possible when the entry level was
positive). -/
theorem encoderecursiveF_balanced (cap : Nat) :
    ∀ (fuel : Nat) (ctx ctx' : EncoderContext),
      encoderecursiveF cap fuel ctx = .ok ctx' →
      ∃ pre, ctx.curtoken = pre ++ ctx'.curtoken ∧ NeutralSeg pre ∧
        ((ctx'.curtoken = [] ∧ ctx'.nestinglvl = ctx.nestinglvl) ∨
         (∃ cb r, ctx'.curtoken = cb :: r ∧ cb.type = Tok.ClosingBracket ∧
           0 < ctx.nestinglvl ∧ ctx'.nestinglvl = ctx.nestinglvl - 1)) := by
  intro fuel
  induction fuel with
  | zero =>
    intro ctx ctx' h
    rw [encoderecursiveF] at h
    exact absurd h (by simp)
  | succ fuel ih =>
    intro ctx ctx' h
    rw [encoderecursiveF] at h
    rcases hcur : ctx.curtoken with _ | ⟨token, rest⟩ <;> rw [hcur] at h <;> dsimp only at h
    · cases h
      exact ⟨[], by simp [hcur], neutralSeg_nil, Or.inl ⟨hcur, rfl⟩⟩
    · obtain ⟨ty, vi, vd, vs, ln⟩ := token
      cases ty <;> dsimp only at h
      case None => exact absurd h (by simp)
      case OpeningBracket => exact absurd h (by simp)
      case ClosingBracket =>
        by_cases hlvl : 0 < ctx.nestinglvl
        · rw [if_pos hlvl] at h
          cases h
          exact ⟨[], rfl, neutralSeg_nil,
            Or.inr ⟨⟨Tok.ClosingBracket, vi, vd, vs, ln⟩, rest, rfl, rfl, hlvl, rfl⟩⟩
        · rw [if_neg hlvl] at h
          exact absurd h (by simp)
      case Int =>
        rcases hss : scalarStep (cbor_encode_int cap ctx.encoder vi) ln with e | enc2 <;>
          rw [hss] at h <;> dsimp only at h
        · exact absurd h (by simp)
        · obtain ⟨pre', hsplit, hneu, hdisj⟩ := ih _ _ h
          dsimp only at hsplit hdisj
          exact ⟨⟨Tok.Int, vi, vd, vs, ln⟩ :: pre', by simp [hsplit],
            @neutralSeg_scalar ⟨Tok.Int, vi, vd, vs, ln⟩ rfl pre' hneu, hdisj⟩
      case Double =>
        rcases hss : scalarStep (cbor_encode_double cap ctx.encoder vd) ln with e | enc2 <;>
          rw [hss] at h <;> dsimp only at h
        · exact absurd h (by simp)
        · obtain ⟨pre', hsplit, hneu, hdisj⟩ := ih _ _ h
          dsimp only at hsplit hdisj
          exact ⟨⟨Tok.Double, vi, vd, vs, ln⟩ :: pre', by simp [hsplit],
            @neutralSeg_scalar ⟨Tok.Double, vi, vd, vs, ln⟩ rfl pre' hneu, hdisj⟩
      case String =>
        rcases hss : scalarStep (cbor_encode_text_stringz cap ctx.encoder vs) ln with e | enc2 <;>
          rw [hss] at h <;> dsimp only at h
        · exact absurd h (by simp)
        · obtain ⟨pre', hsplit, hneu, hdisj⟩ := ih _ _ h
          dsimp only at hsplit hdisj
          exact ⟨⟨Tok.String, vi, vd, vs, ln⟩ :: pre', by simp [hsplit],
            @neutralSeg_scalar ⟨Tok.String, vi, vd, vs, ln⟩ rfl pre' hneu, hdisj⟩
      case Null =>
        rcases hss : scalarStep (cbor_encode_null cap ctx.encoder) ln with e | enc2 <;>
          rw [hss] at h <;> dsimp only at h
        · exact absurd h (by simp)
        · obtain ⟨pre', hsplit, hneu, hdisj⟩ := ih _ _ h
          dsimp only at hsplit hdisj
          exact ⟨⟨Tok.Null, vi, vd, vs, ln⟩ :: pre', by simp [hsplit],
            @neutralSeg_scalar ⟨Tok.Null, vi, vd, vs, ln⟩ rfl pre' hneu, hdisj⟩
      case Bool =>
        rcases hss : scalarStep (cbor_encode_boolean cap ctx.encoder (vi ≠ 0)) ln with e | enc2 <;>
          rw [hss] at h <;> dsimp only at h
        · exact absurd h (by simp)
        · obtain ⟨pre', hsplit, hneu, hdisj⟩ := ih _ _ h
          dsimp only at hsplit hdisj
          exact ⟨⟨Tok.Bool, vi, vd, vs, ln⟩ :: pre', by simp [hsplit],
            @neutralSeg_scalar ⟨Tok.Bool, vi, vd, vs, ln⟩ rfl pre' hneu, hdisj⟩
      case Undefined =>
        rcases hss : scalarStep (cbor_encode_undefined cap ctx.encoder) ln with e | enc2 <;>
          rw [hss] at h <;> dsimp only at h
        · exact absurd h (by simp)
        · obtain ⟨pre', hsplit, hneu, hdisj⟩ := ih _ _ h
          dsimp only at hsplit hdisj
          exact ⟨⟨Tok.Undefined, vi, vd, vs, ln⟩ :: pre', by simp [hsplit],
            @neutralSeg_scalar ⟨Tok.Undefined, vi, vd, vs, ln⟩ rfl pre' hneu, hdisj⟩
      case Array =>
        rcases hpre : containerPre (cbor_encoder_create_array cap) ctx with e | ⟨tk, rest2, nenc⟩ <;>
          rw [hpre] at h <;> dsimp only at h
        · exact absurd h (by simp)
        · rcases hpost : containerPost cap ctx tk
              (encoderecursiveF cap fuel ⟨rest2, ctx.nestinglvl + 1, nenc⟩) with e2 | ctx2 <;>
            rw [hpost] at h <;> dsimp only at h
          · exact absurd h (by simp)
          · obtain ⟨tok2, hcur2, hob, hne2⟩ := containerPre_ok_inv hpre
            obtain ⟨nctx, hinner, hnlvl, hc2cur, hc2lvl⟩ := containerPost_ok_inv hpost
            obtain ⟨preB, hsplitB, hneuB, hdisjB⟩ := ih _ _ hinner
            dsimp only at hsplitB hdisjB
            rcases hdisjB with ⟨hempty, hlvlB⟩ | ⟨cb, r, hcb, hcbt, hposB, hlvlB⟩
            · exfalso
              omega
            · obtain ⟨preC, hsplitC, hneuC, hdisjC⟩ := ih _ _ h
              dsimp only at hsplitC hdisjC
              rw [hc2cur, hcb] at hsplitC
              simp only [List.drop_succ_cons, List.drop_zero] at hsplitC
              rw [hcur] at hcur2
              simp only [List.cons.injEq] at hcur2
              obtain ⟨htk, hrest⟩ := hcur2
              subst htk
              subst hrest
              rw [hcb] at hsplitB
              refine ⟨⟨Tok.Array, vi, vd, vs, ln⟩ :: tok2 :: (preB ++ cb :: preC), ?_, ?_, ?_⟩
              · rw [hsplitB, hsplitC]
                simp
              · exact neutralSeg_container (Or.inl rfl) hob hcbt hneuB hneuC
              · rw [hc2lvl] at hdisjC
                exact hdisjC
      case Map =>
        rcases hpre : containerPre (cbor_encoder_create_map cap) ctx with e | ⟨tk, rest2, nenc⟩ <;>
          rw [hpre] at h <;> dsimp only at h
        · exact absurd h (by simp)
        · rcases hpost : containerPost cap ctx tk
              (encoderecursiveF cap fuel ⟨rest2, ctx.nestinglvl + 1, nenc⟩) with e2 | ctx2 <;>
            rw [hpost] at h <;> dsimp only at h
          · exact absurd h (by simp)
          · obtain ⟨tok2, hcur2, hob, hne2⟩ := containerPre_ok_inv hpre
            obtain ⟨nctx, hinner, hnlvl, hc2cur, hc2lvl⟩ := containerPost_ok_inv hpost
            obtain ⟨preB, hsplitB, hneuB, hdisjB⟩ := ih _ _ hinner
            dsimp only at hsplitB hdisjB
            rcases hdisjB with ⟨hempty, hlvlB⟩ | ⟨cb, r, hcb, hcbt, hposB, hlvlB⟩
            · exfalso
              omega
            · obtain ⟨preC, hsplitC, hneuC, hdisjC⟩ := ih _ _ h
              dsimp only at hsplitC hdisjC
              rw [hc2cur, hcb] at hsplitC
              simp only [List.drop_succ_cons, List.drop_zero] at hsplitC
              rw [hcur] at hcur2
              simp only [List.cons.injEq] at hcur2
              obtain ⟨htk, hrest⟩ := hcur2
              subst htk
              subst hrest
              rw [hcb] at hsplitB
              refine ⟨⟨Tok.Map, vi, vd, vs, ln⟩ :: tok2 :: (preB ++ cb :: preC), ?_, ?_, ?_⟩
              · rw [hsplitB, hsplitC]
                simp
              · exact neutralSeg_container (Or.inr rfl) hob hcbt hneuB hneuC
              · rw [hc2lvl] at hdisjC
                exact hdisjC

theorem msgHasPrefix_append (p r : Msg) : msgHasPrefix p (p ++ r) = true := by
  rw [msgHasPrefix]
  simp [List.take_left]

theorem isStructuralDiag_complainline {msg : Msg}
    (h : msg = unexpectedEOFMsg ∨ msg = missingOpeningBracketMsg ∨
      msg = encodeContainerFailureMsg ∨ msg = unbalancedNestingMsg ∨
      msg = unexpectedBracketMsg ∨ msg = unhandledTokenMsg) (ln : Nat) :
    isStructuralDiag (complainline msg ln) = true := by
  rcases h with h | h | h | h | h | h <;> subst h <;>
    simp [isStructuralDiag, complainline, msgHasPrefix_append]

theorem isCodecDiag_complainencode (err ln : Nat) :
    isCodecDiag (complainencode err ln) = true := by
  rw [isCodecDiag, complainencode]
  rw [show ("encoder error: ".toList ++ cbor_error_string err ++ " at line ".toList ++
    natToChars ln : Msg) = "encoder error: ".toList ++ (cbor_error_string err ++
    " at line ".toList ++ natToChars ln) from by simp]
  exact msgHasPrefix_append ..

theorem scalarStep_error_inv {res : Nat × CborEnc} {ln : Nat} {e : Diag}
    (h : scalarStep res ln = .error e) : e = [complainencode res.1 ln] := by
  rw [scalarStep] at h
  split_ifs at h
  injection h with h1
  exact h1.symm

theorem containerPre_error_inv {create : CreateFn} {ctx : EncoderContext} {token : Token}
    {rest : List Token} (hcur : ctx.curtoken = token :: rest) {e : Diag}
    (h : containerPre create ctx = .error e) :
    (∃ ln, e = [complainline unexpectedEOFMsg ln]) ∨
    (∃ ln, e = [complainline missingOpeningBracketMsg ln]) ∨
    (∃ err ln, e = [complainencode err ln]) ∨
    (∃ ln, e = [complainline encodeContainerFailureMsg ln]) := by
  rw [containerPre.eq_def] at h
  rw [hcur] at h
  dsimp only at h
  rcases rest with _ | ⟨tok2, rest2⟩ <;> dsimp only at h
  · injection h with h1
    exact Or.inl ⟨token.lineno, h1.symm⟩
  · by_cases hob : tok2.type = Tok.OpeningBracket
    · rw [if_neg (by simp [hob])] at h
      by_cases hce : (create ctx.encoder).1 = CborNoError
      · have he : (if (create ctx.encoder).1 ≠ CborNoError then (1 : Nat) else 0) = 0 := by
          simp [hce]
        rw [he, if_neg (by simp)] at h
        rcases rest2 with _ | ⟨hd3, tl3⟩ <;> dsimp only at h
        · injection h with h1
          exact Or.inr (Or.inr (Or.inr ⟨token.lineno, h1.symm⟩))
        · cases h
      · have he : (if (create ctx.encoder).1 ≠ CborNoError then (1 : Nat) else 0) = 1 := by
          simp [hce]
        rw [he, if_pos (by simp)] at h
        injection h with h1
        exact Or.inr (Or.inr (Or.inl ⟨1, token.lineno, h1.symm⟩))
    · rw [if_pos (by simp [hob])] at h
      injection h with h1
      exact Or.inr (Or.inl ⟨tok2.lineno, h1.symm⟩)

theorem containerPost_error_inv {cap : Nat} {ctx : EncoderContext} {token : Token}
    {inner : Except Diag EncoderContext} {e : Diag}
    (h : containerPost cap ctx token inner = .error e) :
    (∃ msgs0, inner = .error msgs0 ∧
      e = msgs0 ++ [complainline encodeContainerFailureMsg token.lineno]) ∨
    (∃ ln, e = [complainline unbalancedNestingMsg ln]) ∨
    (∃ err ln, e = [complainencode err ln]) := by
  rw [containerPost.eq_def] at h
  split at h
  next msgs0 =>
    injection h with h1
    exact Or.inl ⟨msgs0, rfl, h1.symm⟩
  next nctx =>
    split at h
    · injection h with h1
      exact Or.inr (Or.inl ⟨token.lineno, h1.symm⟩)
    · dsimp only at h
      split at h
      · injection h with h1
        exact Or.inr (Or.inr ⟨1, token.lineno, h1.symm⟩)
      · cases h

/-- Classification of every failure diagnostic of the recursive encoder: with
adequate fuel, an error run emits a nonempty message list each of whose
lines is a structural diagnostic or a codec diagnostic. -/
theorem encoderecursiveF_diag (cap : Nat) :
    ∀ (fuel : Nat) (ctx : EncoderContext), ctx.curtoken.length < fuel →
      ∀ msgs, encoderecursiveF cap fuel ctx = .error msgs →
        msgs ≠ [] ∧ ∀ m ∈ msgs, isStructuralDiag m = true ∨ isCodecDiag m = true := by
  intro fuel
  induction fuel with
  | zero =>
    intro ctx hf
    omega
  | succ fuel ih =>
    intro ctx hf msgs h
    rw [encoderecursiveF] at h
    rcases hcur : ctx.curtoken with _ | ⟨token, rest⟩ <;> rw [hcur] at h <;> dsimp only at h
    · cases h
    · have hlen : rest.length < fuel := by
        rw [hcur] at hf
        simp only [List.length_cons] at hf
        omega
      obtain ⟨ty, vi, vd, vs, ln⟩ := token
      cases ty <;> dsimp only at h
      case None =>
        injection h with h1
        subst h1
        exact ⟨by simp, by
          intro m hm
          simp only [List.mem_singleton] at hm
          subst hm
          exact Or.inl (isStructuralDiag_complainline (by tauto) ln)⟩
      case OpeningBracket =>
        injection h with h1
        subst h1
        exact ⟨by simp, by
          intro m hm
          simp only [List.mem_singleton] at hm
          subst hm
          exact Or.inl (isStructuralDiag_complainline (by tauto) ln)⟩
      case ClosingBracket =>
        by_cases hlvl : 0 < ctx.nestinglvl
        · rw [if_pos hlvl] at h
          cases h
        · rw [if_neg hlvl] at h
          injection h with h1
          subst h1
          exact ⟨by simp, by
            intro m hm
            simp only [List.mem_singleton] at hm
            subst hm
            exact Or.inl (isStructuralDiag_complainline (by tauto) ln)⟩
      case Int =>
        rcases hss : scalarStep (cbor_encode_int cap ctx.encoder vi) ln with e | enc2 <;>
          rw [hss] at h <;> dsimp only at h
        · injection h with h1
          subst h1
          rw [scalarStep_error_inv hss]
          exact ⟨by simp, by
            intro m hm
            simp only [List.mem_singleton] at hm
            subst hm
            exact Or.inr (isCodecDiag_complainencode ..)⟩
        · exact ih ⟨rest, ctx.nestinglvl, enc2⟩ hlen msgs h
      case Double =>
        rcases hss : scalarStep (cbor_encode_double cap ctx.encoder vd) ln with e | enc2 <;>
          rw [hss] at h <;> dsimp only at h
        · injection h with h1
          subst h1
          rw [scalarStep_error_inv hss]
          exact ⟨by simp, by
            intro m hm
            simp only [List.mem_singleton] at hm
            subst hm
            exact Or.inr (isCodecDiag_complainencode ..)⟩
        · exact ih ⟨rest, ctx.nestinglvl, enc2⟩ hlen msgs h
      case String =>
        rcases hss : scalarStep (cbor_encode_text_stringz cap ctx.encoder vs) ln with e | enc2 <;>
          rw [hss] at h <;> dsimp only at h
        · injection h with h1
          subst h1
          rw [scalarStep_error_inv hss]
          exact ⟨by simp, by
            intro m hm
            simp only [List.mem_singleton] at hm
            subst hm
            exact Or.inr (isCodecDiag_complainencode ..)⟩
        · exact ih ⟨rest, ctx.nestinglvl, enc2⟩ hlen msgs h
      case Null =>
        rcases hss : scalarStep (cbor_encode_null cap ctx.encoder) ln with e | enc2 <;>
          rw [hss] at h <;> dsimp only at h
        · injection h with h1
          subst h1
          rw [scalarStep_error_inv hss]
          exact ⟨by simp, by
            intro m hm
            simp only [List.mem_singleton] at hm
            subst hm
            exact Or.inr (isCodecDiag_complainencode ..)⟩
        · exact ih ⟨rest, ctx.nestinglvl, enc2⟩ hlen msgs h
      case Bool =>
        rcases hss : scalarStep (cbor_encode_boolean cap ctx.encoder (vi ≠ 0)) ln with e | enc2 <;>
          rw [hss] at h <;> dsimp only at h
        · injection h with h1
          subst h1
          rw [scalarStep_error_inv hss]
          exact ⟨by simp, by
            intro m hm
            simp only [List.mem_singleton] at hm
            subst hm
            exact Or.inr (isCodecDiag_complainencode ..)⟩
        · exact ih ⟨rest, ctx.nestinglvl, enc2⟩ hlen msgs h
      case Undefined =>
        rcases hss : scalarStep (cbor_encode_undefined cap ctx.encoder) ln with e | enc2 <;>
          rw [hss] at h <;> dsimp only at h
        · injection h with h1
          subst h1
          rw [scalarStep_error_inv hss]
          exact ⟨by simp, by
            intro m hm
            simp only [List.mem_singleton] at hm
            subst hm
            exact Or.inr (isCodecDiag_complainencode ..)⟩
        · exact ih ⟨rest, ctx.nestinglvl, enc2⟩ hlen msgs h
      case Array =>
        rcases hpre : containerPre (cbor_encoder_create_array cap) ctx with e | ⟨tk, rest2, nenc⟩ <;>
          rw [hpre] at h <;> dsimp only at h
        · injection h with h1
          subst h1
          rcases containerPre_error_inv hcur hpre with ⟨ln2, he⟩ | ⟨ln2, he⟩ |
              ⟨err2, ln2, he⟩ | ⟨ln2, he⟩ <;> subst he
          · exact ⟨by simp, by
              intro m hm
              simp only [List.mem_singleton] at hm
              subst hm
              exact Or.inl (isStructuralDiag_complainline (by tauto) ln2)⟩
          · exact ⟨by simp, by
              intro m hm
              simp only [List.mem_singleton] at hm
              subst hm
              exact Or.inl (isStructuralDiag_complainline (by tauto) ln2)⟩
          · exact ⟨by simp, by
              intro m hm
              simp only [List.mem_singleton] at hm
              subst hm
              exact Or.inr (isCodecDiag_complainencode ..)⟩
          · exact ⟨by simp, by
              intro m hm
              simp only [List.mem_singleton] at hm
              subst hm
              exact Or.inl (isStructuralDiag_complainline (by tauto) ln2)⟩
        · obtain ⟨tok2, hcur2, hob, hne2⟩ := containerPre_ok_inv hpre
          have hrest2 : rest2.length + 2 = ctx.curtoken.length := by
            rw [hcur2]
            simp
          rcases hpost : containerPost cap ctx tk
              (encoderecursiveF cap fuel ⟨rest2, ctx.nestinglvl + 1, nenc⟩) with e2 | ctx2 <;>
            rw [hpost] at h <;> dsimp only at h
          · injection h with h1
            subst h1
            rcases containerPost_error_inv hpost with ⟨msgs0, hinner, he⟩ | ⟨ln2, he⟩ |
                ⟨err2, ln2, he⟩ <;> subst he
            · obtain ⟨-, hclass⟩ := ih ⟨rest2, ctx.nestinglvl + 1, nenc⟩ (by dsimp only; omega) msgs0 hinner
              refine ⟨by simp, ?_⟩
              intro m hm
              rw [List.mem_append] at hm
              rcases hm with hm | hm
              · exact hclass m hm
              · simp only [List.mem_singleton] at hm
                subst hm
                exact Or.inl (isStructuralDiag_complainline (by tauto) tk.lineno)
            · exact ⟨by simp, by
                intro m hm
                simp only [List.mem_singleton] at hm
                subst hm
                exact Or.inl (isStructuralDiag_complainline (by tauto) ln2)⟩
            · exact ⟨by simp, by
                intro m hm
                simp only [List.mem_singleton] at hm
                subst hm
                exact Or.inr (isCodecDiag_complainencode ..)⟩
          · obtain ⟨nctx, hinner, hnlvl, hc2cur, hc2lvl⟩ := containerPost_ok_inv hpost
            obtain ⟨preB, hsplitB, -, -⟩ := encoderecursiveF_balanced cap fuel _ _ hinner
            dsimp only at hsplitB
            have hlen2 : (ctx2.curtoken.drop 1).length < fuel := by
              have hle : nctx.curtoken.length ≤ rest2.length := by
                rw [hsplitB]
                simp
              rw [hc2cur]
              simp only [List.length_drop]
              omega
            exact ih ⟨ctx2.curtoken.drop 1, ctx2.nestinglvl, ctx2.encoder⟩ hlen2 msgs h
      case Map =>
        rcases hpre : containerPre (cbor_encoder_create_map cap) ctx with e | ⟨tk, rest2, nenc⟩ <;>
          rw [hpre] at h <;> dsimp only at h
        · injection h with h1
          subst h1
          rcases containerPre_error_inv hcur hpre with ⟨ln2, he⟩ | ⟨ln2, he⟩ |
              ⟨err2, ln2, he⟩ | ⟨ln2, he⟩ <;> subst he
          · exact ⟨by simp, by
              intro m hm
              simp only [List.mem_singleton] at hm
              subst hm
              exact Or.inl (isStructuralDiag_complainline (by tauto) ln2)⟩
          · exact ⟨by simp, by
              intro m hm
              simp only [List.mem_singleton] at hm
              subst hm
              exact Or.inl (isStructuralDiag_complainline (by tauto) ln2)⟩
          · exact ⟨by simp, by
              intro m hm
              simp only [List.mem_singleton] at hm
              subst hm
              exact Or.inr (isCodecDiag_complainencode ..)⟩
          · exact ⟨by simp, by
              intro m hm
              simp only [List.mem_singleton] at hm
              subst hm
              exact Or.inl (isStructuralDiag_complainline (by tauto) ln2)⟩
        · obtain ⟨tok2, hcur2, hob, hne2⟩ := containerPre_ok_inv hpre
          have hrest2 : rest2.length + 2 = ctx.curtoken.length := by
            rw [hcur2]
            simp
          rcases hpost : containerPost cap ctx tk
              (encoderecursiveF cap fuel ⟨rest2, ctx.nestinglvl + 1, nenc⟩) with e2 | ctx2 <;>
            rw [hpost] at h <;> dsimp only at h
          · injection h with h1
            subst h1
            rcases containerPost_error_inv hpost with ⟨msgs0, hinner, he⟩ | ⟨ln2, he⟩ |
                ⟨err2, ln2, he⟩ <;> subst he
            · obtain ⟨-, hclass⟩ := ih ⟨rest2, ctx.nestinglvl + 1, nenc⟩ (by dsimp only; omega) msgs0 hinner
              refine ⟨by simp, ?_⟩
              intro m hm
              rw [List.mem_append] at hm
              rcases hm with hm | hm
              · exact hclass m hm
              · simp only [List.mem_singleton] at hm
                subst hm
                exact Or.inl (isStructuralDiag_complainline (by tauto) tk.lineno)
            · exact ⟨by simp, by
                intro m hm
                simp only [List.mem_singleton] at hm
                subst hm
                exact Or.inl (isStructuralDiag_complainline (by tauto) ln2)⟩
            · exact ⟨by simp, by
                intro m hm
                simp only [List.mem_singleton] at hm
                subst hm
                exact Or.inr (isCodecDiag_complainencode ..)⟩
          · obtain ⟨nctx, hinner, hnlvl, hc2cur, hc2lvl⟩ := containerPost_ok_inv hpost
            obtain ⟨preB, hsplitB, -, -⟩ := encoderecursiveF_balanced cap fuel _ _ hinner
            dsimp only at hsplitB
            have hlen2 : (ctx2.curtoken.drop 1).length < fuel := by
              have hle : nctx.curtoken.length ≤ rest2.length := by
                rw [hsplitB]
                simp
              rw [hc2cur]
              simp only [List.length_drop]
              omega
            exact ih ⟨ctx2.curtoken.drop 1, ctx2.nestinglvl, ctx2.encoder⟩ hlen2 msgs h

/-- **C1 (amended)** — encoding succeeds *only on* bracket-balanced input: a
successful `encode` implies the spec's depth automaton accepts the token
sequence (every `Array [`/`Map [` is matched by exactly one `]` at the same
logical depth, with the level after each close equal to the level at entry,
and the final level 0); contrapositively, every unbalanced input — an
unclosed container, a `ClosingBracket` at level 0, a stray bracket — makes
`encode` fail, never succeed or silently truncate; and every failure's
diagnostics are nonempty and drawn from the structural class and the codec
class alone, so the failure carries a structural error unless a codec error
(see the counterexample) is reported in its place. -/
theorem C1_encode_only_if_balanced :
    (∀ (toks : List Token) (cap : Nat) (ctx' : EncoderContext),
      encode cap toks = .ok ctx' → wellBracketedSpec toks = true) ∧
    (∀ (toks : List Token) (cap : Nat), wellBracketedSpec toks = false →
      (encode cap toks).isOk = false) ∧
    (∀ (toks : List Token) (cap : Nat) (msgs : Diag), encode cap toks = .error msgs →
      msgs ≠ [] ∧ ∀ m ∈ msgs, isStructuralDiag m = true ∨ isCodecDiag m = true) := by
  have main : ∀ (toks : List Token) (cap : Nat) (ctx' : EncoderContext),
      encode cap toks = .ok ctx' → wellBracketedSpec toks = true := by
    intro toks cap ctx' h
    obtain ⟨pre, hsplit, hneu, hdisj⟩ := encoderecursiveF_balanced cap _ _ _ h
    dsimp only at hsplit hdisj
    rcases hdisj with ⟨hempty, _⟩ | ⟨cb, r, hcb, _, hpos, _⟩
    · rw [hempty, List.append_nil] at hsplit
      subst hsplit
      have h2 := hneu [] 0
      rw [List.append_nil] at h2
      rw [wellBracketedSpec, h2]
      rfl
    · exact absurd hpos (by simp)
  refine ⟨main, ?_, ?_⟩
  · intro toks cap hbad
    cases he : encode cap toks with
    | error msgs => rfl
    | ok ctx' => exact absurd (main toks cap ctx' he) (by simp [hbad])
  · intro toks cap msgs h
    rw [encode] at h
    exact encoderecursiveF_diag cap (toks.length + 1) ⟨toks, 0, ⟨0, []⟩⟩
      (by dsimp only; omega) msgs h

/-- Witness for C1 at a concrete unbalanced input: a lone `ClosingBracket`
(nesting level 0) never encodes, and its failure diagnostics are nonempty
and classified. -/
theorem C1_encode_only_if_balanced_witness :
    (encode 9 [⟨Tok.ClosingBracket, 0, [], [], 1⟩]).isOk = false ∧
    ([complainline unexpectedBracketMsg 1] ≠ [] ∧
      ∀ m ∈ [complainline unexpectedBracketMsg 1],
        isStructuralDiag m = true ∨ isCodecDiag m = true) :=
  ⟨C1_encode_only_if_balanced.2.1 [⟨Tok.ClosingBracket, 0, [], [], 1⟩] 9 (by decide),
   C1_encode_only_if_balanced.2.2 [⟨Tok.ClosingBracket, 0, [], [], 1⟩] 9
     [complainline unexpectedBracketMsg 1] (by decide)⟩

/-- C2 (amended): the encode step succeeds if and only if the *cumulative*
encoded size of the scalars fits the buffer capacity (not "each individually
encodable", see the counterexample) — proved for every scalar-only token
sequence; and for an input whose lines are sequences of self-delimiting
scalar literals (signed decimal/octal/hexadecimal integers, floating
literals with point and/or exponent, string literals, keywords, each ended
by whitespace, end of line or an adjoining string literal), tokenization
produces exactly one token per non-whitespace lexical unit, all scalar. -/
theorem C2_amended (cap : Nat) :
    (∀ ts : List Token, ts.all (fun t => isScalarTok t.type) = true →
      ((∃ ctx, encode cap ts = .ok ctx) ↔ sumSizes ts ≤ cap)) ∧
    (∀ lines uss, List.Forall₂ (fun line us => ScalarLine (trimline line) us) lines uss →
      readtokens lines = .ok (tokensOfLines 0 uss) ∧
      (tokensOfLines 0 uss).length = (uss.map List.length).sum ∧
      (tokensOfLines 0 uss).all (fun t => isScalarTok t.type) = true) := by
  constructor
  · intro ts hall
    have hspec := encoderecursiveF_scalars cap ts (ts.length + 1) 0 ⟨0, []⟩ hall
      (by omega) (Nat.zero_le cap)
    constructor
    · rintro ⟨ctx, hctx⟩
      by_contra hover
      push_neg at hover
      obtain ⟨ln, he⟩ := hspec.2 (by simpa using hover)
      rw [encode] at hctx
      rw [he] at hctx
      cases hctx
    · intro hfit
      refine ⟨⟨[], 0, ⟨0 + sumSizes ts, [] ++ ts.map opOf⟩⟩, ?_⟩
      rw [encode]
      exact hspec.1 (by simpa using hfit)
  · intro lines uss h
    exact ⟨readtokensGo_scalarlines h 0, tokensOfLines_length 0 uss, tokensOfLines_scalars 0 uss⟩

/-- Witness: the two-line input `0x1F 1"a"` / `-5 1e5` at capacity 9 —
hexadecimal and adjoining-literal units on line 1, signed and exponent
units on line 2. -/
theorem C2_amended_witness :
    ((∃ ctx, encode 9 (tokensOfLines 0
        [["0x1F".toList, "1".toList, "\"a\"".toList], ["-5".toList, "1e5".toList]]) = .ok ctx) ↔
      sumSizes (tokensOfLines 0
        [["0x1F".toList, "1".toList, "\"a\"".toList], ["-5".toList, "1e5".toList]]) ≤ 9) ∧
    readtokens ["0x1F 1\"a\"".toList, "-5 1e5".toList] = .ok (tokensOfLines 0
      [["0x1F".toList, "1".toList, "\"a\"".toList], ["-5".toList, "1e5".toList]]) ∧
    (tokensOfLines 0
      [["0x1F".toList, "1".toList, "\"a\"".toList], ["-5".toList, "1e5".toList]]).length =
      ([["0x1F".toList, "1".toList, "\"a\"".toList], ["-5".toList, "1e5".toList]].map
        List.length).sum ∧
    (tokensOfLines 0
      [["0x1F".toList, "1".toList, "\"a\"".toList], ["-5".toList, "1e5".toList]]).all
      (fun t => isScalarTok t.type) = true := by
  have hrel : List.Forall₂ (fun line us => ScalarLine (trimline line) us)
      ["0x1F 1\"a\"".toList, "-5 1e5".toList]
      [["0x1F".toList, "1".toList, "\"a\"".toList], ["-5".toList, "1e5".toList]] := by
    refine List.Forall₂.cons ?_ (List.Forall₂.cons ?_ List.Forall₂.nil)
    · show ScalarLine ("0x1F 1\"a\"".toList)
        ["0x1F".toList, "1".toList, "\"a\"".toList]
      exact @ScalarLine.unit "0x1F".toList (" 1\"a\"".toList)
        ["1".toList, "\"a\"".toList] (by decide)
        (Or.inr (Or.inr ⟨' ', "1\"a\"".toList, rfl, by decide⟩))
        (ScalarLine.ws (by decide)
          (@ScalarLine.unit "1".toList ("\"a\"".toList) ["\"a\"".toList] (by decide)
            (Or.inr (Or.inr ⟨'"', "a\"".toList, rfl, by decide⟩))
            (@ScalarLine.unit "\"a\"".toList [] [] (by decide) (Or.inl (by decide))
              ScalarLine.nil)))
    · show ScalarLine ("-5 1e5".toList) ["-5".toList, "1e5".toList]
      exact @ScalarLine.unit "-5".toList (" 1e5".toList) ["1e5".toList] (by decide)
        (Or.inr (Or.inr ⟨' ', "1e5".toList, rfl, by decide⟩))
        (ScalarLine.ws (by decide)
          (@ScalarLine.unit "1e5".toList [] [] (by decide) (Or.inr (Or.inl rfl))
            ScalarLine.nil))
  have hpart := (C2_amended 9).2 _ _ hrel
  exact ⟨(C2_amended 9).1 _ hpart.2.2, hpart⟩

/-- C4 (amended): a lexical failure terminates the whole run before any
encoding (exit status 1, no stdout dump), and the diagnostics name the
unrecognized fragment — but not its line number (see the counterexample): the
fragment diagnostic, the read-tokens failure line and the read-file failure
line. -/
theorem C4_amended {w : World} {lines : List (List Char)} {msgs : Diag}
    (hargs : w.args.length = 3) (hmalloc : w.mallocOk = true)
    (hfile : w.file = some lines) (hfclose : w.fcloseOk = true)
    (herr : readtokens lines = .error msgs) :
    (∃ frag, frag ≠ [] ∧
      msgs = [complainstr tokenNotRecognizedMsg frag, readTokensFailureMsg]) ∧
    mainRun w = (1, [], msgs ++ [readFileFailureMsg]) := by
  refine ⟨readtokensGo_error lines 0 herr, ?_⟩
  rw [mainRun]
  rw [if_neg (by rw [hargs]; exact fun hq => hq rfl)]
  rw [hmalloc]
  rw [if_neg (by exact fun hq => hq rfl)]
  rw [hfile]
  dsimp only
  rw [herr]
  dsimp only
  rw [hfclose]
  rfl

/-- Witness: a valid world whose second input line is the unrecognized `@`. -/
theorem C4_amended_witness :
    (∃ frag, frag ≠ [] ∧
      ([complainstr tokenNotRecognizedMsg ['@'], readTokensFailureMsg] : Diag) =
        [complainstr tokenNotRecognizedMsg frag, readTokensFailureMsg]) ∧
    mainRun c4world = (1, [],
      [complainstr tokenNotRecognizedMsg ['@'], readTokensFailureMsg] ++
        [readFileFailureMsg]) :=
  @C4_amended c4world [['1'], ['@']]
    [complainstr tokenNotRecognizedMsg ['@'], readTokensFailureMsg]
    (by decide) (by decide) (by decide) (by decide) (by decide)


end Simplecoder
